import Mathlib

/-!
# Verification of the SHAP-on-SDD dynamic-programming engine

Shallow embedding of `src/shap/compute_shap.py`:

* `SddNode` models the pysdd circuit nodes (constants, literals, decision
  nodes).  The DAG is unfolded to a tree; sharing is represented by equal
  subtrees carrying the same node id, and an id-injectivity hypothesis
  (`ConsistentIds`) captures that equal ids denote the same node.
* All floating-point arithmetic of the source is modelled exactly in `ℚ`.
* `compute_shap_algorithm`, `shap_exact_subset_enum`, `compute_shap_scores`
  and `get_topological_order` are direct translations of the corresponding
  Python functions.
-/

/-- A pysdd circuit node: a constant (True/False), a literal (the integer is
the signed pysdd literal, negative meaning negated), or a decision node with
its list of `(prime, sub)` elements.  The first field of each constructor is
the stable node id (`node.id` in pysdd). -/
inductive SddNode : Type where
  | const : Nat → Bool → SddNode
  | lit : Nat → Int → SddNode
  | decision : Nat → List (SddNode × SddNode) → SddNode
deriving Repr

/-- `node.id`: the stable identity of a node. -/
def SddNode.nodeId : SddNode → Nat
  | .const i _ => i
  | .lit i _ => i
  | .decision i _ => i

/-- `is_constant_gate` from the source. -/
def is_constant_gate : SddNode → Bool
  | .const _ _ => true
  | _ => false

/-- `is_variable_gate` from the source. -/
def is_variable_gate : SddNode → Bool
  | .lit _ _ => true
  | _ => false

/-- `is_negation_gate` from the source: a literal with negative sign. -/
def is_negation_gate : SddNode → Bool
  | .lit _ l => decide (l < 0)
  | _ => false

/-- `constant_value` from the source: 1 for True, 0 for False. -/
def constant_value : SddNode → Nat
  | .const _ b => if b then 1 else 0
  | _ => 0

/-- `variable_of` from the source: `abs(node.literal)`. -/
def variable_of : SddNode → Nat
  | .lit _ l => l.natAbs
  | _ => 0

mutual

/-- `var_of[g]`: the set of variables the gate `g` depends on, as computed
bottom-up by `compute_shap_algorithm` (step 1, lines 64–81 of the source). -/
def varOf : SddNode → Finset Nat
  | .const _ _ => ∅
  | .lit _ l => {l.natAbs}
  | .decision _ es => varOfElems es

/-- Union of `varOf` over the primes and subs of a decision node's elements. -/
def varOfElems : List (SddNode × SddNode) → Finset Nat
  | [] => ∅
  | (pr, sb) :: rest => varOf pr ∪ varOf sb ∪ varOfElems rest

end

mutual

/-- Boolean semantics of a circuit node under a total assignment `σ`. -/
def evalSdd (σ : Nat → Bool) : SddNode → Bool
  | .const _ b => b
  | .lit _ l => if l < 0 then ! σ l.natAbs else σ l.natAbs
  | .decision _ es => evalElems σ es

/-- Semantics of a decision node's element list: OR over (prime ∧ sub). -/
def evalElems (σ : Nat → Bool) : List (SddNode × SddNode) → Bool
  | [] => false
  | (pr, sb) :: rest => (evalSdd σ pr && evalSdd σ sb) || evalElems σ rest

end

theorem sizeOf_of_mem_elems {pr sb : SddNode} {es : List (SddNode × SddNode)}
    (h : (pr, sb) ∈ es) : sizeOf pr < sizeOf es ∧ sizeOf sb < sizeOf es := by
  induction es with
  | nil => cases h
  | cons hd tl ih =>
      rcases List.mem_cons.mp h with h1 | h2
      · subst h1; simp; omega
      · have := ih h2
        simp only [List.cons.sizeOf_spec]
        omega

/-- Decomposability (§3 invariant): in every decision element, prime and sub
depend on disjoint variable sets, recursively throughout the circuit. -/
def Decomposable : SddNode → Prop
  | .const _ _ => True
  | .lit _ _ => True
  | .decision _ es =>
      (∀ pr sb, (pr, sb) ∈ es → Disjoint (varOf pr) (varOf sb)) ∧
      (∀ pr sb, (pr, sb) ∈ es → Decomposable pr ∧ Decomposable sb)
termination_by g => sizeOf g
decreasing_by
  all_goals simp only [SddNode.decision.sizeOf_spec]
  · have := (sizeOf_of_mem_elems (by assumption)).1; omega
  · have := (sizeOf_of_mem_elems (by assumption)).2; omega

/-- Determinism (§3 invariant): under any assignment at most one element of a
decision node evaluates true, recursively throughout the circuit. -/
def Deterministic : SddNode → Prop
  | .const _ _ => True
  | .lit _ _ => True
  | .decision _ es =>
      (∀ σ : Nat → Bool, ∀ i j : Fin es.length, i ≠ j →
        ¬((evalSdd σ (es.get i).1 && evalSdd σ (es.get i).2) = true ∧
          (evalSdd σ (es.get j).1 && evalSdd σ (es.get j).2) = true)) ∧
      (∀ pr sb, (pr, sb) ∈ es → Deterministic pr ∧ Deterministic sb)
termination_by g => sizeOf g
decreasing_by
  all_goals simp only [SddNode.decision.sizeOf_spec]
  · have := (sizeOf_of_mem_elems (by assumption)).1; omega
  · have := (sizeOf_of_mem_elems (by assumption)).2; omega

example : varOf (.decision 3 [(.lit 1 1, .lit 2 2), (.lit 1 (-1), .lit 2 (-2))]) = {1, 2} := by
  decide

example : evalSdd (fun _ => true)
    (.decision 3 [(.lit 1 1, .lit 2 2), (.lit 1 (-1), .lit 2 (-2))]) = true := by
  decide

/-! ## The DP engine: `compute_shap_algorithm` (source lines 51–208) -/

/-- Phase 1 of a decision gate (source lines 150–177): decomposable AND of one
element `(prime, sub)` — convolution over cardinalities, no combinatorial
weights.  `ap`/`asub` are one child pair's arrays, `Lp`/`Ls` their scope sizes
(`len(var(prime)-{x})`, `len(var(sub)-{x})`), `childLen = len(Vc)`. -/
def convAnd (ap asub : List ℚ) (Lp Ls childLen : Nat) : List ℚ :=
  (List.range (childLen + 1)).map fun ellc =>
    ∑ ellp in Finset.range (Lp + 1),
      if ellp ≤ ellc ∧ ellc - ellp ≤ Ls then
        ap.getD ellp 0 * asub.getD (ellc - ellp) 0
      else 0

/-- Phase 2 of a decision gate (source lines 179–194): lift each element's
array (over its own scope of size `clen`) to the parent scope of size `m` by
binomial smoothing with weight `C(missing, dist)`, and sum across elements.
`missing = m - clen` is never truncated in practice since each element's scope
is a subset of the parent's (`perChild_len_le` below). -/
def liftOr (m : Nat) (children : List (List ℚ × Nat)) : List ℚ :=
  (List.range (m + 1)).map fun ellParent =>
    children.foldl (fun acc c =>
      acc + ∑ ellc in Finset.range (c.2 + 1),
        if ellc ≤ ellParent ∧ ellParent - ellc ≤ m - c.2 then
          c.1.getD ellc 0 * ((m - c.2).choose (ellParent - ellc) : ℚ)
        else 0) 0

mutual

/-- The per-gate DP arrays `(gamma[g], delta[g])` for target feature `x`
(source lines 104–197).  The Python code computes these bottom-up over the
topological order keyed by `node.id`; since an id determines its subtree
(`ConsistentIds`), structural recursion over the unfolded tree computes the
same values. -/
def gammaDelta (p e : Nat → ℚ) (x : Nat) : SddNode → List ℚ × List ℚ
  | .const _ b =>
      -- max_ell = |∅ \ {x}| = 0; both arrays are [a]
      let a : ℚ := if b then 1 else 0
      ([a], [a])
  | .lit _ l =>
      let y := l.natAbs
      if y = x then
        -- var(g) = {x}, max_ell = 0
        if l < 0 then ([0], [1]) else ([1], [0])
      else
        -- var(g) = {y}, y ≠ x, max_ell = 1
        if l < 0 then ([1 - p y, 1 - e y], [1 - p y, 1 - e y])
        else ([p y, e y], [p y, e y])
  | .decision _ es =>
      let m := ((varOfElems es).erase x).card
      let pcs := perChild p e x es
      (liftOr m (pcs.map fun c => (c.1, c.2.2)),
       liftOr m (pcs.map fun c => (c.2.1, c.2.2)))
termination_by structural g => g

/-- The `per_child` list of the source (lines 151–177): for each element
`(prime, sub)`, the AND-convolved `(child_gamma, child_delta, child_len)`. -/
def perChild (p e : Nat → ℚ) (x : Nat) :
    List (SddNode × SddNode) → List (List ℚ × List ℚ × Nat)
  | [] => []
  | (pr, sb) :: rest =>
      let gdp := gammaDelta p e x pr
      let gds := gammaDelta p e x sb
      let Lp := ((varOf pr).erase x).card
      let Ls := ((varOf sb).erase x).card
      let childLen := (((varOf pr).erase x) ∪ ((varOf sb).erase x)).card
      (convAnd gdp.1 gds.1 Lp Ls childLen,
       convAnd gdp.2 gds.2 Lp Ls childLen,
       childLen) :: perChild p e x rest
termination_by structural es => es

end

/-- The Shapley cardinality weight of the source (line 202):
`1.0 if n == 1 else 1.0 / (n * comb(n - 1, k))`; the binomial coefficient is
exact integer combinatorics (`Nat.choose`), cast to the numeric field only at
the division. -/
def shapWeight (n k : Nat) : ℚ :=
  if n = 1 then 1 else 1 / ((n : ℚ) * ((n - 1).choose k : ℚ))

/-- Final reduction at the root (source lines 199–206) for one feature `x` in
`var(root)`. -/
def shapForVar (sdd : SddNode) (p e : Nat → ℚ) (x : Nat) : ℚ :=
  let n := (varOf sdd).card
  let gd := gammaDelta p e x sdd
  ∑ k in Finset.range n,
    shapWeight n k * ((e x - p x) * (gd.1.getD k 0 - gd.2.getD k 0))

/-- `compute_shap_algorithm(sdd, p, e)` (source lines 51–208).  `X` is
`list(p.keys())`; the result is the returned dict as an association list in
key order: `0.0` for dummies (features outside `var(root)`), the DP reduction
for features in `var(root)`, and all zeros if the circuit has no variables. -/
def compute_shap_algorithm (sdd : SddNode) (p e : Nat → ℚ) (X : List Nat) :
    List (Nat × ℚ) :=
  if (varOf sdd).card = 0 then X.map fun x => (x, 0)
  else X.map fun x => (x, if x ∈ varOf sdd then shapForVar sdd p e x else 0)

/-! ## The certification oracle: `v_conditional_wmc` and
`shap_exact_subset_enum` (source lines 277–320) -/

/-- The per-literal weights set by `v_conditional_wmc` (source lines 284–297):
clamped variables (`i ∈ S`) get weights 1/0 matching the entity value, the
rest get `p`/`1-p`.  `t` is the polarity of the literal being weighted. -/
def clampWeight (p e : Nat → ℚ) (S : Finset Nat) (i : Nat) (t : Bool) : ℚ :=
  if i ∈ S then
    if e i = 1 then (if t then 1 else 0) else (if t then 0 else 1)
  else
    if t then p i else 1 - p i

/-- `v_conditional_wmc(sdd, p, e, S)` (source lines 277–299):
`v(S) = E(C=1 | Z_S = e_S)` under product marginals `p`.  The final
`wmc.propagate()` call is the external compiler's weighted-model-count
primitive.  Modelled from the spec: §4.3/§6 describe it as "given per-literal
weights, return the weighted satisfaction probability of the whole circuit" —
the sum, over all assignments of the manager's variable set `V`, of the
product of the chosen literal weights on satisfying assignments. -/
def v_conditional_wmc (sdd : SddNode) (p e : Nat → ℚ) (V S : Finset Nat) : ℚ :=
  ∑ T in V.powerset,
    if evalSdd (fun i => decide (i ∈ T)) sdd then
      ∏ i in V, clampWeight p e S i (decide (i ∈ T))
    else 0

/-- `shap_exact_subset_enum(sdd, p, e, var_ids)` (source lines 301–320): the
brute-force Shapley formula by subset enumeration.  The local weight `w` of
the source (line 303) is the same formula as `shapWeight`. -/
def shap_exact_subset_enum (sdd : SddNode) (p e : Nat → ℚ) (varIds : List Nat) :
    List (Nat × ℚ) :=
  let n := varIds.length
  let V := varIds.toFinset
  varIds.map fun x =>
    (x, ∑ k in Finset.range n,
      ∑ S in ((varIds.filter (· ≠ x)).toFinset.powersetCard k),
        shapWeight n k *
          (v_conditional_wmc sdd p e V (insert x S) - v_conditional_wmc sdd p e V S))

/-! ## The façade: `compute_shap_scores` (source lines 210–273) -/

/-- The errors `compute_shap_scores` can raise; the payload of
`certificationMismatch` models the data interpolated into the
`AssertionError` message (source lines 267–271). -/
inductive ShapError : Type where
  | invalidCircuit : ShapError
  | certificationMismatch (worstName : String) (fast brute diff tol : ℚ)
      (mismatches total : Nat) : ShapError
deriving Repr, DecidableEq

/-- One entry of the `diffs` dict (source line 261). -/
structure DiffEntry : Type where
  vid : Nat
  fast : ℚ
  brute : ℚ
  diff : ℚ
  tol : ℚ
deriving Repr, DecidableEq

/-- `var_id_to_name` (source line 233): variable id `i` is named `"x<i>"`. -/
def var_id_to_name (i : Nat) : String := "x" ++ toString i

/-- The `diffs` of the certification branch (source lines 254–261), in
ascending-vid order. -/
def certDiffs (shapById bruteById : List (Nat × ℚ)) (varIds : List Nat)
    (atol rtol : ℚ) : List DiffEntry :=
  varIds.filterMap fun vid =>
    let a := (shapById.lookup vid).getD 0
    let b := (bruteById.lookup vid).getD 0
    let diff := |a - b|
    let tol := atol + rtol * max 1 |b|
    if diff > tol then some ⟨vid, a, b, diff, tol⟩ else none

/-- `max(diffs, key=...)` (source line 264): the first entry attaining the
maximal `diff` (Python's `max` keeps the earliest maximum). -/
def worstDiff (d0 : DiffEntry) (rest : List DiffEntry) : DiffEntry :=
  rest.foldl (fun best c => if c.diff > best.diff then c else best) d0

/-- The marginal dict built by the façade (source lines 240–244):
`p[vid] = float(marginals.get(name, 0.5))`, with `None` first replaced by the
empty dict (lines 235–236). -/
def facadeP (marginals : Option (List (String × ℚ))) (vid : Nat) : ℚ :=
  ((marginals.getD []).lookup (var_id_to_name vid)).getD (1/2)

/-- The entity dict built by the façade (source lines 241–245):
`e[vid] = int(entity.get(name, 1))`, with `None` first replaced by the empty
dict (lines 237–238). -/
def facadeE (entity : Option (List (String × ℚ))) (vid : Nat) : ℚ :=
  ((entity.getD []).lookup (var_id_to_name vid)).getD 1

/-- `compute_shap_scores(sdd, marginals, entity, check, atol, rtol)` (source
lines 210–273).  `varCount` is `sdd.manager.var_count()`; `none` for
`marginals`/`entity` is Python `None` (replaced by the empty dict). -/
def compute_shap_scores (sdd : Option SddNode) (varCount : Nat)
    (marginals entity : Option (List (String × ℚ))) (check : Bool)
    (atol rtol : ℚ) : Except ShapError (List (String × ℚ)) :=
  match sdd with
  | none => .error .invalidCircuit
  | some root =>
      let varIds := (List.range varCount).map (· + 1)
      let p : Nat → ℚ := facadeP marginals
      let e : Nat → ℚ := facadeE entity
      let shapById := compute_shap_algorithm root p e varIds
      if check then
        let bruteById := shap_exact_subset_enum root p e varIds
        match certDiffs shapById bruteById varIds atol rtol with
        | [] => .ok (varIds.map fun vid =>
            (var_id_to_name vid, (shapById.lookup vid).getD 0))
        | d0 :: rest =>
            let w := worstDiff d0 rest
            .error (.certificationMismatch (var_id_to_name w.vid) w.fast w.brute
              w.diff w.tol (d0 :: rest).length varIds.length)
      else
        .ok (varIds.map fun vid =>
          (var_id_to_name vid, (shapById.lookup vid).getD 0))

/-! ## `get_topological_order` (source lines 9–29) -/

/-- The traversal state of `get_topological_order`: the `visited` id set and
the accumulated `topo_order` list. -/
structure DfsState : Type where
  visited : List Nat
  order : List SddNode

mutual

/-- `dfs(node)` of `get_topological_order` (source lines 15–26): skip if the
node's id is already visited; otherwise mark it visited, recurse into the
primes and subs of a decision node, then append the node to the order. -/
def dfsNode : SddNode → DfsState → DfsState
  | g, st =>
      if g.nodeId ∈ st.visited then st
      else
        match g with
        | .const i b => ⟨i :: st.visited, st.order ++ [.const i b]⟩
        | .lit i l => ⟨i :: st.visited, st.order ++ [.lit i l]⟩
        | .decision i es =>
            let st2 := dfsElems es ⟨i :: st.visited, st.order⟩
            ⟨st2.visited, st2.order ++ [.decision i es]⟩
termination_by structural g => g

/-- The `for prime, sub in node.elements(): dfs(prime); dfs(sub)` loop. -/
def dfsElems : List (SddNode × SddNode) → DfsState → DfsState
  | [], st => st
  | (pr, sb) :: rest, st => dfsElems rest (dfsNode sb (dfsNode pr st))
termination_by structural es => es

end

/-- `get_topological_order(sdd)` (source lines 9–29): gates in bottom-up
(leaves-first) order. -/
def get_topological_order (sdd : SddNode) : List SddNode :=
  (dfsNode sdd ⟨[], []⟩).order

/-- Reachability in the circuit: `Reach root g` holds when `g` is the root or
a descendant of it. -/
inductive Reach : SddNode → SddNode → Prop where
  | refl (g : SddNode) : Reach g g
  | viaPrime {i es g pr sb} : (pr, sb) ∈ es → Reach pr g →
      Reach (.decision i es) g
  | viaSub {i es g pr sb} : (pr, sb) ∈ es → Reach sb g →
      Reach (.decision i es) g

/-- Faithfulness of the tree unfolding of the pysdd DAG: two reachable nodes
with the same id are the same node (pysdd ids are unique per node). -/
def ConsistentIds (root : SddNode) : Prop :=
  ∀ m n, Reach root m → Reach root n → m.nodeId = n.nodeId → m = n

/-- The circuit of test scenario 1: `(a ∧ b) ∨ (¬a ∧ ¬b)` as the canonical
compressed SDD (right-linear vtree): one decision node with elements
`[(a, b), (¬a, ¬b)]`. -/
def xnorCircuit : SddNode :=
  .decision 5 [(.lit 1 1, .lit 2 2), (.lit 3 (-1), .lit 4 (-2))]

/-! ## Basic lemmas about the translated definitions -/

theorem lookup_map_self {β : Type} (f : Nat → β) :
    ∀ (X : List Nat) (x : Nat), x ∈ X →
      (X.map fun y => (y, f y)).lookup x = some (f x) := by
  intro X
  induction X with
  | nil => intro x hx; cases hx
  | cons y ys ih =>
      intro x hx
      rcases List.mem_cons.mp hx with h | h
      · subst h; simp [List.lookup]
      · by_cases hxy : x = y
        · subst hxy; simp [List.lookup]
        · have hb : (x == y) = false := by simp [hxy]
          simpa [List.lookup, hb] using ih x h

/-- `compute_shap_algorithm` in closed form: the `n == 0` early return agrees
with the general per-feature description, because `var(root) = ∅` makes every
feature a dummy. -/
theorem compute_shap_algorithm_eq (sdd : SddNode) (p e : Nat → ℚ) (X : List Nat) :
    compute_shap_algorithm sdd p e X =
      X.map fun y => (y, if y ∈ varOf sdd then shapForVar sdd p e y else 0) := by
  unfold compute_shap_algorithm
  split
  · next h =>
      have hempty : varOf sdd = ∅ := Finset.card_eq_zero.mp h
      simp [hempty]
  · rfl

/-! ## Claim C2: dummy features score exactly 0 and skip the DP -/

/-- C2: any requested feature `x` (a key of `p`) outside `var(root)` is
returned as exactly `0`, and the whole result runs the per-feature DP
(`shapForVar`) only under the `x ∈ var(root)` guard, so no DP pass is
executed for dummies. -/
theorem C2_dummy_feature_zero (sdd : SddNode) (p e : Nat → ℚ) (X : List Nat)
    (x : Nat) (hx : x ∈ X) (hnot : x ∉ varOf sdd) :
    (compute_shap_algorithm sdd p e X).lookup x = some 0 ∧
    compute_shap_algorithm sdd p e X =
      X.map fun y => (y, if y ∈ varOf sdd then shapForVar sdd p e y else 0) := by
  refine ⟨?_, compute_shap_algorithm_eq sdd p e X⟩
  rw [compute_shap_algorithm_eq, lookup_map_self _ X x hx]
  simp [hnot]

/-- Witness for C2 at the scenario-1 circuit with dummy feature 3. -/
theorem C2_dummy_feature_zero_witness :
    (3 ∈ [1, 2, 3] ∧ 3 ∉ varOf xnorCircuit) ∧
    (compute_shap_algorithm xnorCircuit (fun _ => 1/2) (fun _ => 1) [1, 2, 3]).lookup 3
      = some 0 :=
  ⟨⟨by decide, by decide⟩,
   (C2_dummy_feature_zero xnorCircuit (fun _ => 1/2) (fun _ => 1) [1, 2, 3] 3
      (by decide) (by decide)).1⟩

/-! ## Claim C5: the final reduction formula -/

/-- C5: for `x ∈ var(root)` the returned score is
`Σ_{k=0}^{n-1} w(k)·(e[x]-p[x])·(gamma[root][k]-delta[root][k])` with
`w(k) = 1` when `n = 1` and `w(k) = 1/(n·C(n-1,k))` otherwise, the binomial
coefficient being the exact integer `Nat.choose`, cast to `ℚ` only inside the
weight. -/
theorem C5_final_reduction (sdd : SddNode) (p e : Nat → ℚ) (X : List Nat)
    (x : Nat) (hx : x ∈ X) (hin : x ∈ varOf sdd) :
    (compute_shap_algorithm sdd p e X).lookup x =
      some (∑ k in Finset.range (varOf sdd).card,
        (if (varOf sdd).card = 1 then 1
         else 1 / (((varOf sdd).card : ℚ) * (Nat.choose ((varOf sdd).card - 1) k : ℚ))) *
        ((e x - p x) *
          ((gammaDelta p e x sdd).1.getD k 0 - (gammaDelta p e x sdd).2.getD k 0))) := by
  rw [compute_shap_algorithm_eq, lookup_map_self _ X x hx]
  simp only [hin, if_true]
  rfl

/-- Witness for C5 at the scenario-1 circuit, feature 1. -/
theorem C5_final_reduction_witness :
    (1 ∈ [1, 2] ∧ 1 ∈ varOf xnorCircuit) ∧
    (compute_shap_algorithm xnorCircuit (fun _ => 1/2) (fun _ => 1) [1, 2]).lookup 1 =
      some (∑ k in Finset.range (varOf xnorCircuit).card,
        (if (varOf xnorCircuit).card = 1 then 1
         else 1 / (((varOf xnorCircuit).card : ℚ) *
           (Nat.choose ((varOf xnorCircuit).card - 1) k : ℚ))) *
        (((fun _ => (1:ℚ)) 1 - (fun _ => (1:ℚ)/2) 1) *
          ((gammaDelta (fun _ => 1/2) (fun _ => 1) 1 xnorCircuit).1.getD k 0 -
           (gammaDelta (fun _ => 1/2) (fun _ => 1) 1 xnorCircuit).2.getD k 0))) :=
  ⟨⟨by decide, by decide⟩,
   C5_final_reduction xnorCircuit (fun _ => 1/2) (fun _ => 1) [1, 2] 1 (by decide) (by decide)⟩

/-! ## Claim C8: null circuit is rejected, nothing else raises that error -/

/-- C8: a `None` circuit raises the invalid-circuit error before any Shapley
computation, and no call with a present root ever raises that error. -/
theorem C8_null_root_rejected (varCount : Nat)
    (marginals entity : Option (List (String × ℚ))) (check : Bool) (atol rtol : ℚ) :
    compute_shap_scores none varCount marginals entity check atol rtol
      = .error .invalidCircuit ∧
    ∀ root, compute_shap_scores (some root) varCount marginals entity check atol rtol
      ≠ .error .invalidCircuit := by
  constructor
  · rfl
  · intro root
    unfold compute_shap_scores
    cases check with
    | false => simp
    | true =>
        simp only [Bool.true_eq_false, if_true, reduceIte]
        split <;> simp

/-! ## Concrete evaluation of the scenario-1 circuit -/

theorem xnor_gammaDelta_x1 (p e : Nat → ℚ) (hp2 : p 2 = 1/2) (he2 : e 2 = 1) :
    gammaDelta p e 1 xnorCircuit = ([1/2, 1], [1/2, 0]) := by
  have g1 : gammaDelta p e 1 (.lit 1 1) = ([1], [0]) := by simp [gammaDelta]
  have g2 : gammaDelta p e 1 (.lit 2 2) = ([1/2, 1], [1/2, 1]) := by
    simp [gammaDelta, hp2, he2]
  have g3 : gammaDelta p e 1 (.lit 3 (-1)) = ([0], [1]) := by norm_num [gammaDelta]
  have g4 : gammaDelta p e 1 (.lit 4 (-2)) = ([1/2, 0], [1/2, 0]) := by
    norm_num [gammaDelta, hp2, he2]
  have c1 : ((varOf (SddNode.lit 1 1)).erase 1).card = 0 := rfl
  have c2 : ((varOf (SddNode.lit 2 2)).erase 1).card = 1 := rfl
  have c3 : ((varOf (SddNode.lit 3 (-1))).erase 1).card = 0 := rfl
  have c4 : ((varOf (SddNode.lit 4 (-2))).erase 1).card = 1 := rfl
  have u1 : (((varOf (SddNode.lit 1 1)).erase 1) ∪ ((varOf (SddNode.lit 2 2)).erase 1)).card
      = 1 := rfl
  have u2 : (((varOf (SddNode.lit 3 (-1))).erase 1) ∪
      ((varOf (SddNode.lit 4 (-2))).erase 1)).card = 1 := rfl
  have m1 : ((varOfElems [(SddNode.lit 1 1, SddNode.lit 2 2),
      (SddNode.lit 3 (-1), SddNode.lit 4 (-2))]).erase 1).card = 1 := rfl
  have pc : perChild p e 1 [(SddNode.lit 1 1, SddNode.lit 2 2),
      (SddNode.lit 3 (-1), SddNode.lit 4 (-2))] =
      [(convAnd [1] [1/2, 1] 0 1 1, convAnd [0] [1/2, 1] 0 1 1, 1),
       (convAnd [0] [1/2, 0] 0 1 1, convAnd [1] [1/2, 0] 0 1 1, 1)] := by
    rw [perChild, perChild, perChild]
    rw [g1, g2, g3, g4, c1, c2, c3, c4, u1, u2]
  have v1 : convAnd [(1:ℚ)] [1/2, 1] 0 1 1 = [1/2, 1] := by
    norm_num [convAnd, Finset.sum_range_succ, List.range_succ]
  have v2 : convAnd [(0:ℚ)] [1/2, 1] 0 1 1 = [0, 0] := by
    norm_num [convAnd, Finset.sum_range_succ, List.range_succ]
  have v3 : convAnd [(0:ℚ)] [1/2, 0] 0 1 1 = [0, 0] := by
    norm_num [convAnd, Finset.sum_range_succ, List.range_succ]
  have v4 : convAnd [(1:ℚ)] [1/2, 0] 0 1 1 = [1/2, 0] := by
    norm_num [convAnd, Finset.sum_range_succ, List.range_succ]
  have l1 : liftOr 1 [([(1:ℚ)/2, 1], 1), ([0, 0], 1)] = [1/2, 1] := by
    norm_num [liftOr, Finset.sum_range_succ, List.range_succ]
  have l2 : liftOr 1 [([(0:ℚ), 0], 1), ([1/2, 0], 1)] = [1/2, 0] := by
    norm_num [liftOr, Finset.sum_range_succ, List.range_succ]
  show gammaDelta p e 1 (.decision 5 [(.lit 1 1, .lit 2 2), (.lit 3 (-1), .lit 4 (-2))])
    = ([1/2, 1], [1/2, 0])
  rw [gammaDelta, m1, pc, v1, v2, v3, v4]
  simp only [List.map]
  rw [l1, l2]

theorem xnor_gammaDelta_x2 (p e : Nat → ℚ) (hp1 : p 1 = 1/2) (he1 : e 1 = 1) :
    gammaDelta p e 2 xnorCircuit = ([1/2, 1], [1/2, 0]) := by
  have g1 : gammaDelta p e 2 (.lit 1 1) = ([1/2, 1], [1/2, 1]) := by
    simp [gammaDelta, hp1, he1]
  have g2 : gammaDelta p e 2 (.lit 2 2) = ([1], [0]) := by simp [gammaDelta]
  have g3 : gammaDelta p e 2 (.lit 3 (-1)) = ([1/2, 0], [1/2, 0]) := by
    norm_num [gammaDelta, hp1, he1]
  have g4 : gammaDelta p e 2 (.lit 4 (-2)) = ([0], [1]) := by norm_num [gammaDelta]
  have c1 : ((varOf (SddNode.lit 1 1)).erase 2).card = 1 := rfl
  have c2 : ((varOf (SddNode.lit 2 2)).erase 2).card = 0 := rfl
  have c3 : ((varOf (SddNode.lit 3 (-1))).erase 2).card = 1 := rfl
  have c4 : ((varOf (SddNode.lit 4 (-2))).erase 2).card = 0 := rfl
  have u1 : (((varOf (SddNode.lit 1 1)).erase 2) ∪ ((varOf (SddNode.lit 2 2)).erase 2)).card
      = 1 := rfl
  have u2 : (((varOf (SddNode.lit 3 (-1))).erase 2) ∪
      ((varOf (SddNode.lit 4 (-2))).erase 2)).card = 1 := rfl
  have m1 : ((varOfElems [(SddNode.lit 1 1, SddNode.lit 2 2),
      (SddNode.lit 3 (-1), SddNode.lit 4 (-2))]).erase 2).card = 1 := rfl
  have pc : perChild p e 2 [(SddNode.lit 1 1, SddNode.lit 2 2),
      (SddNode.lit 3 (-1), SddNode.lit 4 (-2))] =
      [(convAnd [1/2, 1] [1] 1 0 1, convAnd [1/2, 1] [0] 1 0 1, 1),
       (convAnd [1/2, 0] [0] 1 0 1, convAnd [1/2, 0] [1] 1 0 1, 1)] := by
    rw [perChild, perChild, perChild]
    rw [g1, g2, g3, g4, c1, c2, c3, c4, u1, u2]
  have v1 : convAnd [(1:ℚ)/2, 1] [1] 1 0 1 = [1/2, 1] := by
    norm_num [convAnd, Finset.sum_range_succ, List.range_succ]
  have v2 : convAnd [(1:ℚ)/2, 1] [0] 1 0 1 = [0, 0] := by
    norm_num [convAnd, Finset.sum_range_succ, List.range_succ]
  have v3 : convAnd [(1:ℚ)/2, 0] [0] 1 0 1 = [0, 0] := by
    norm_num [convAnd, Finset.sum_range_succ, List.range_succ]
  have v4 : convAnd [(1:ℚ)/2, 0] [1] 1 0 1 = [1/2, 0] := by
    norm_num [convAnd, Finset.sum_range_succ, List.range_succ]
  have l1 : liftOr 1 [([(1:ℚ)/2, 1], 1), ([0, 0], 1)] = [1/2, 1] := by
    norm_num [liftOr, Finset.sum_range_succ, List.range_succ]
  have l2 : liftOr 1 [([(0:ℚ), 0], 1), ([1/2, 0], 1)] = [1/2, 0] := by
    norm_num [liftOr, Finset.sum_range_succ, List.range_succ]
  show gammaDelta p e 2 (.decision 5 [(.lit 1 1, .lit 2 2), (.lit 3 (-1), .lit 4 (-2))])
    = ([1/2, 1], [1/2, 0])
  rw [gammaDelta, m1, pc, v1, v2, v3, v4]
  simp only [List.map]
  rw [l1, l2]

theorem xnor_shapForVar (p e : Nat → ℚ) (hp1 : p 1 = 1/2) (hp2 : p 2 = 1/2)
    (he1 : e 1 = 1) (he2 : e 2 = 1) :
    shapForVar xnorCircuit p e 1 = 1/4 ∧ shapForVar xnorCircuit p e 2 = 1/4 := by
  have hc : (varOf xnorCircuit).card = 2 := rfl
  constructor
  · rw [shapForVar]
    rw [xnor_gammaDelta_x1 p e hp2 he2, hc]
    norm_num [Finset.sum_range_succ, shapWeight, hp1, he1]
  · rw [shapForVar]
    rw [xnor_gammaDelta_x2 p e hp1 he1, hc]
    norm_num [Finset.sum_range_succ, shapWeight, hp2, he2]

/-- `compute_shap_scores` on the scenario-1 circuit, for any marginals/entity
inputs that bind `x1`, `x2` to `0.5`, `0.5`, `1`, `1`. -/
theorem xnor_facade_eval (marginals entity : Option (List (String × ℚ)))
    (atol rtol : ℚ)
    (hp1 : facadeP marginals 1 = 1/2) (hp2 : facadeP marginals 2 = 1/2)
    (he1 : facadeE entity 1 = 1) (he2 : facadeE entity 2 = 1) :
    compute_shap_scores (some xnorCircuit) 2 marginals entity false atol rtol
      = .ok [("x1", 1/4), ("x2", 1/4)] := by
  have hshap := xnor_shapForVar (facadeP marginals) (facadeE entity) hp1 hp2 he1 he2
  show Except.ok ((((List.range 2).map (· + 1)).map fun vid =>
    (var_id_to_name vid,
      ((compute_shap_algorithm xnorCircuit (facadeP marginals) (facadeE entity)
        ((List.range 2).map (· + 1))).lookup vid).getD 0)))
    = Except.ok [("x1", 1/4), ("x2", 1/4)]
  have hids : ((List.range 2).map (· + 1)) = [1, 2] := rfl
  have h1 : (1 : Nat) ∈ varOf xnorCircuit := by decide
  have h2 : (2 : Nat) ∈ varOf xnorCircuit := by decide
  have hassoc : compute_shap_algorithm xnorCircuit (facadeP marginals) (facadeE entity) [1, 2]
      = [(1, 1/4), (2, 1/4)] := by
    rw [compute_shap_algorithm_eq]
    simp only [List.map_cons, List.map_nil, h1, h2, if_true]
    rw [hshap.1, hshap.2]
  rw [hids, hassoc]
  rfl

/-! ## Claim C10: the result mapping's keys are exactly x1..x<var_count> -/

/-- C10: whenever `compute_shap_scores` returns a mapping, its keys are
exactly `x1 … x<var_count>` in order — one entry per declared manager
variable, independent of the marginals, entity, or the circuit's literals. -/
theorem C10_result_keys (root : SddNode) (varCount : Nat)
    (marginals entity : Option (List (String × ℚ))) (check : Bool) (atol rtol : ℚ)
    (res : List (String × ℚ))
    (h : compute_shap_scores (some root) varCount marginals entity check atol rtol
      = .ok res) :
    res.map Prod.fst = (List.range varCount).map (fun i => var_id_to_name (i + 1)) := by
  unfold compute_shap_scores at h
  cases check with
  | false =>
      simp only [Bool.false_eq_true, if_false, reduceIte, Except.ok.injEq] at h
      subst h
      simp [List.map_map, Function.comp]
  | true =>
      simp only [reduceIte] at h
      revert h
      split
      · intro h
        simp only [Except.ok.injEq] at h
        subst h
        simp [List.map_map, Function.comp]
      · intro h; cases h

/-- Witness for C10 at the scenario-1 circuit with default inputs. -/
theorem C10_result_keys_witness :
    compute_shap_scores (some xnorCircuit) 2 none none false (1/1000000000) (1/10000000)
      = .ok [("x1", 1/4), ("x2", 1/4)] ∧
    [("x1", (1:ℚ)/4), ("x2", 1/4)].map Prod.fst
      = (List.range 2).map (fun i => var_id_to_name (i + 1)) :=
  have h : compute_shap_scores (some xnorCircuit) 2 none none false
      (1/1000000000) (1/10000000) = .ok [("x1", 1/4), ("x2", 1/4)] :=
    xnor_facade_eval none none (1/1000000000) (1/10000000) rfl rfl rfl rfl
  ⟨h, C10_result_keys xnorCircuit 2 none none false (1/1000000000) (1/10000000)
    [("x1", 1/4), ("x2", 1/4)] h⟩

/-! ## Claim C7: default marginal 0.5 and entity 1 for unspecified variables -/

/-- C7: any variable id whose name is absent from the marginals mapping gets
the default marginal `0.5`, any name absent from the entity mapping gets the
default entity value `1`; `None` behaves as the empty mapping; and the DP
engine is run on exactly these substituted dicts. -/
theorem C7_default_substitution (root : SddNode) (vc : Nat)
    (marginals entity : Option (List (String × ℚ))) (check : Bool) (atol rtol : ℚ) :
    (∀ i, (marginals.getD []).lookup (var_id_to_name i) = none → facadeP marginals i = 1/2) ∧
    (∀ i, (entity.getD []).lookup (var_id_to_name i) = none → facadeE entity i = 1) ∧
    compute_shap_scores (some root) vc none entity check atol rtol
      = compute_shap_scores (some root) vc (some []) entity check atol rtol ∧
    compute_shap_scores (some root) vc marginals none check atol rtol
      = compute_shap_scores (some root) vc marginals (some []) check atol rtol ∧
    compute_shap_scores (some root) vc marginals entity false atol rtol
      = .ok (((List.range vc).map (· + 1)).map fun vid =>
        (var_id_to_name vid,
          ((compute_shap_algorithm root (facadeP marginals) (facadeE entity)
            ((List.range vc).map (· + 1))).lookup vid).getD 0)) := by
  refine ⟨?_, ?_, rfl, rfl, rfl⟩
  · intro i hi
    unfold facadeP
    rw [hi]
    rfl
  · intro i hi
    unfold facadeE
    rw [hi]
    rfl

/-- Witness for C7: variable 2 is absent from both concrete mappings. -/
theorem C7_default_substitution_witness :
    ((some [("x1", (1:ℚ)/3)]).getD []).lookup (var_id_to_name 2) = none ∧
    ((some [("x1", (1:ℚ))]).getD []).lookup (var_id_to_name 2) = none ∧
    facadeP (some [("x1", 1/3)]) 2 = 1/2 ∧ facadeE (some [("x1", 1)]) 2 = 1 :=
  have hm : ((some [("x1", (1:ℚ)/3)]).getD []).lookup (var_id_to_name 2) = none := rfl
  have he : ((some [("x1", (1:ℚ))]).getD []).lookup (var_id_to_name 2) = none := rfl
  ⟨hm, he,
   (C7_default_substitution xnorCircuit 2 (some [("x1", 1/3)]) (some [("x1", 1)])
     false 0 0).1 2 hm,
   (C7_default_substitution xnorCircuit 2 (some [("x1", 1/3)]) (some [("x1", 1)])
     false 0 0).2.1 2 he⟩

/-! ## Claim C6: the certification comparison -/

/-- The DP-side value `a = float(shap_by_id.get(vid, 0.0))` compared by the
certification branch (source line 256). -/
def certFast (root : SddNode) (marginals entity : Option (List (String × ℚ)))
    (vc vid : Nat) : ℚ :=
  ((compute_shap_algorithm root (facadeP marginals) (facadeE entity)
    ((List.range vc).map (· + 1))).lookup vid).getD 0

/-- The brute-force value `b = float(brute_by_id.get(vid, 0.0))` compared by
the certification branch (source line 257). -/
def certBrute (root : SddNode) (marginals entity : Option (List (String × ℚ)))
    (vc vid : Nat) : ℚ :=
  ((shap_exact_subset_enum root (facadeP marginals) (facadeE entity)
    ((List.range vc).map (· + 1))).lookup vid).getD 0

theorem certDiffs_eq (dp br : List (Nat × ℚ)) (varIds : List Nat) (atol rtol : ℚ) :
    certDiffs dp br varIds atol rtol =
      (varIds.filter fun vid =>
        decide (|(dp.lookup vid).getD 0 - (br.lookup vid).getD 0| >
          atol + rtol * max 1 |(br.lookup vid).getD 0|)).map
      (fun vid => ⟨vid, (dp.lookup vid).getD 0, (br.lookup vid).getD 0,
        |(dp.lookup vid).getD 0 - (br.lookup vid).getD 0|,
        atol + rtol * max 1 |(br.lookup vid).getD 0|⟩) := by
  induction varIds with
  | nil => rfl
  | cons v t ih =>
      unfold certDiffs
      unfold certDiffs at ih
      simp only [List.filterMap_cons, List.filter_cons]
      by_cases h : |(dp.lookup v).getD 0 - (br.lookup v).getD 0| >
          atol + rtol * max 1 |(br.lookup v).getD 0|
      · rw [decide_eq_true h]
        simp only [if_pos h, ih]
        rfl
      · rw [decide_eq_false h]
        simp only [if_neg h, ih]
        rfl

theorem worstDiff_mem : ∀ (rest : List DiffEntry) (d0 : DiffEntry),
    worstDiff d0 rest ∈ d0 :: rest := by
  intro rest
  induction rest with
  | nil => intro d0; simp [worstDiff]
  | cons c cs ih =>
      intro d0
      have : worstDiff d0 (c :: cs) = worstDiff (if c.diff > d0.diff then c else d0) cs := rfl
      rw [this]
      rcases List.mem_cons.mp (ih (if c.diff > d0.diff then c else d0)) with h | h
      · rw [h]
        split
        · simp
        · simp
      · simp [h]

theorem worstDiff_ge : ∀ (rest : List DiffEntry) (d0 : DiffEntry),
    ∀ c ∈ d0 :: rest, c.diff ≤ (worstDiff d0 rest).diff := by
  intro rest
  induction rest with
  | nil =>
      intro d0 c hc
      rcases List.mem_cons.mp hc with h | h
      · subst h; simp [worstDiff]
      · cases h
  | cons x xs ih =>
      intro d0 c hc
      have hstep : worstDiff d0 (x :: xs) = worstDiff (if x.diff > d0.diff then x else d0) xs := rfl
      rw [hstep]
      rcases List.mem_cons.mp hc with h | h
      · subst h
        have hd0 : c.diff ≤ (if x.diff > c.diff then x else c).diff := by
          split
          · next hgt => exact le_of_lt hgt
          · exact le_refl _
        exact le_trans hd0 (ih _ _ (List.mem_cons_self _ _))
      · rcases List.mem_cons.mp h with h2 | h2
        · subst h2
          have hx : c.diff ≤ (if c.diff > d0.diff then c else d0).diff := by
            split
            · exact le_refl _
            · next hle => exact le_of_not_lt hle
          exact le_trans hx (ih _ _ (List.mem_cons_self _ _))
        · exact ih _ c (List.mem_cons_of_mem _ h2)

/-- C6: with certification requested, if any feature's DP and brute-force
values differ by more than `atol + rtol*max(1,|b|)`, the call returns the
certification-mismatch error carrying the worst-offending feature's name,
both of its values, its difference and tolerance, and the number of
mismatching features out of the total — and no result mapping; if every
feature is within tolerance, the DP result is returned unchanged. -/
theorem C6_certification (root : SddNode) (vc : Nat)
    (marginals entity : Option (List (String × ℚ))) (atol rtol : ℚ) :
    ((∃ vid ∈ (List.range vc).map (· + 1),
        |certFast root marginals entity vc vid - certBrute root marginals entity vc vid| >
          atol + rtol * max 1 |certBrute root marginals entity vc vid|) →
      ∃ w ∈ (List.range vc).map (· + 1),
        (|certFast root marginals entity vc w - certBrute root marginals entity vc w| >
          atol + rtol * max 1 |certBrute root marginals entity vc w|) ∧
        (∀ v ∈ (List.range vc).map (· + 1),
          |certFast root marginals entity vc v - certBrute root marginals entity vc v| >
            atol + rtol * max 1 |certBrute root marginals entity vc v| →
          |certFast root marginals entity vc v - certBrute root marginals entity vc v| ≤
            |certFast root marginals entity vc w - certBrute root marginals entity vc w|) ∧
        compute_shap_scores (some root) vc marginals entity true atol rtol
          = .error (.certificationMismatch (var_id_to_name w)
              (certFast root marginals entity vc w) (certBrute root marginals entity vc w)
              (|certFast root marginals entity vc w - certBrute root marginals entity vc w|)
              (atol + rtol * max 1 |certBrute root marginals entity vc w|)
              (((List.range vc).map (· + 1)).filter (fun v =>
                decide (|certFast root marginals entity vc v -
                    certBrute root marginals entity vc v| >
                  atol + rtol * max 1 |certBrute root marginals entity vc v|))).length
              ((List.range vc).map (· + 1)).length)) ∧
    ((∀ vid ∈ (List.range vc).map (· + 1),
        ¬(|certFast root marginals entity vc vid - certBrute root marginals entity vc vid| >
          atol + rtol * max 1 |certBrute root marginals entity vc vid|)) →
      compute_shap_scores (some root) vc marginals entity true atol rtol
        = .ok (((List.range vc).map (· + 1)).map fun vid =>
            (var_id_to_name vid, certFast root marginals entity vc vid))) := by
  have hdp : ∀ vid, certFast root marginals entity vc vid =
      ((compute_shap_algorithm root (facadeP marginals) (facadeE entity)
        ((List.range vc).map (· + 1))).lookup vid).getD 0 := fun _ => rfl
  have hbr : ∀ vid, certBrute root marginals entity vc vid =
      ((shap_exact_subset_enum root (facadeP marginals) (facadeE entity)
        ((List.range vc).map (· + 1))).lookup vid).getD 0 := fun _ => rfl
  have hchar := certDiffs_eq
    (compute_shap_algorithm root (facadeP marginals) (facadeE entity)
      ((List.range vc).map (· + 1)))
    (shap_exact_subset_enum root (facadeP marginals) (facadeE entity)
      ((List.range vc).map (· + 1)))
    ((List.range vc).map (· + 1)) atol rtol
  constructor
  · rintro ⟨v0, hv0mem, hv0bad⟩
    have hv0f : v0 ∈ ((List.range vc).map (· + 1)).filter (fun vid =>
        decide (|((compute_shap_algorithm root (facadeP marginals) (facadeE entity)
            ((List.range vc).map (· + 1))).lookup vid).getD 0 -
          ((shap_exact_subset_enum root (facadeP marginals) (facadeE entity)
            ((List.range vc).map (· + 1))).lookup vid).getD 0| >
          atol + rtol * max 1 |((shap_exact_subset_enum root (facadeP marginals)
            (facadeE entity) ((List.range vc).map (· + 1))).lookup vid).getD 0|)) := by
      rw [List.mem_filter]
      exact ⟨hv0mem, decide_eq_true hv0bad⟩
    cases hL : certDiffs
        (compute_shap_algorithm root (facadeP marginals) (facadeE entity)
          ((List.range vc).map (· + 1)))
        (shap_exact_subset_enum root (facadeP marginals) (facadeE entity)
          ((List.range vc).map (· + 1)))
        ((List.range vc).map (· + 1)) atol rtol with
    | nil =>
        exfalso
        rw [hL] at hchar
        have hfe := List.map_eq_nil_iff.mp hchar.symm
        rw [hfe] at hv0f
        cases hv0f
    | cons d0 rest =>
        have hmem : worstDiff d0 rest ∈ certDiffs
            (compute_shap_algorithm root (facadeP marginals) (facadeE entity)
              ((List.range vc).map (· + 1)))
            (shap_exact_subset_enum root (facadeP marginals) (facadeE entity)
              ((List.range vc).map (· + 1)))
            ((List.range vc).map (· + 1)) atol rtol := by
          rw [hL]; exact worstDiff_mem rest d0
        rw [hchar] at hmem
        rcases List.mem_map.mp hmem with ⟨wvid, hwf, hw⟩
        rcases List.mem_filter.mp hwf with ⟨hwmem, hwbad⟩
        have hwbadQ := of_decide_eq_true hwbad
        refine ⟨wvid, hwmem, ?_, ?_, ?_⟩
        · rw [hdp, hbr]; exact hwbadQ
        · intro v hvmem hvbad
          have hvf : v ∈ ((List.range vc).map (· + 1)).filter (fun vid =>
              decide (|((compute_shap_algorithm root (facadeP marginals) (facadeE entity)
                  ((List.range vc).map (· + 1))).lookup vid).getD 0 -
                ((shap_exact_subset_enum root (facadeP marginals) (facadeE entity)
                  ((List.range vc).map (· + 1))).lookup vid).getD 0| >
                atol + rtol * max 1 |((shap_exact_subset_enum root (facadeP marginals)
                  (facadeE entity) ((List.range vc).map (· + 1))).lookup vid).getD 0|)) := by
            rw [List.mem_filter]
            refine ⟨hvmem, decide_eq_true ?_⟩
            rw [hdp, hbr] at hvbad
            exact hvbad
          have hventry := List.mem_map_of_mem (fun vid => (⟨vid,
            ((compute_shap_algorithm root (facadeP marginals) (facadeE entity)
              ((List.range vc).map (· + 1))).lookup vid).getD 0,
            ((shap_exact_subset_enum root (facadeP marginals) (facadeE entity)
              ((List.range vc).map (· + 1))).lookup vid).getD 0,
            |((compute_shap_algorithm root (facadeP marginals) (facadeE entity)
              ((List.range vc).map (· + 1))).lookup vid).getD 0 -
             ((shap_exact_subset_enum root (facadeP marginals) (facadeE entity)
              ((List.range vc).map (· + 1))).lookup vid).getD 0|,
            atol + rtol * max 1 |((shap_exact_subset_enum root (facadeP marginals)
              (facadeE entity) ((List.range vc).map (· + 1))).lookup vid).getD 0|⟩ :
              DiffEntry)) hvf
          rw [← hchar, hL] at hventry
          have hle := worstDiff_ge rest d0 _ hventry
          rw [← hw] at hle
          simpa [hdp, hbr] using hle
        · show compute_shap_scores (some root) vc marginals entity true atol rtol = _
          unfold compute_shap_scores
          simp only [reduceIte]
          rw [hL]
          simp only []
          have hlen : (d0 :: rest).length = (((List.range vc).map (· + 1)).filter (fun vid =>
              decide (|((compute_shap_algorithm root (facadeP marginals) (facadeE entity)
                  ((List.range vc).map (· + 1))).lookup vid).getD 0 -
                ((shap_exact_subset_enum root (facadeP marginals) (facadeE entity)
                  ((List.range vc).map (· + 1))).lookup vid).getD 0| >
                atol + rtol * max 1 |((shap_exact_subset_enum root (facadeP marginals)
                  (facadeE entity) ((List.range vc).map (· + 1))).lookup vid).getD 0|))).length := by
            rw [← hL, hchar]
            exact List.length_map _ _
          rw [hlen, ← hw]
          rfl
  · intro hgood
    have hfilter : ((List.range vc).map (· + 1)).filter (fun vid =>
        decide (|((compute_shap_algorithm root (facadeP marginals) (facadeE entity)
            ((List.range vc).map (· + 1))).lookup vid).getD 0 -
          ((shap_exact_subset_enum root (facadeP marginals) (facadeE entity)
            ((List.range vc).map (· + 1))).lookup vid).getD 0| >
          atol + rtol * max 1 |((shap_exact_subset_enum root (facadeP marginals)
            (facadeE entity) ((List.range vc).map (· + 1))).lookup vid).getD 0|)) = [] := by
      rw [List.filter_eq_nil_iff]
      intro v hvmem
      have := hgood v hvmem
      rw [hdp, hbr] at this
      simpa using this
    have hL : certDiffs
        (compute_shap_algorithm root (facadeP marginals) (facadeE entity)
          ((List.range vc).map (· + 1)))
        (shap_exact_subset_enum root (facadeP marginals) (facadeE entity)
          ((List.range vc).map (· + 1)))
        ((List.range vc).map (· + 1)) atol rtol = [] := by
      rw [hchar, hfilter]
      rfl
    show compute_shap_scores (some root) vc marginals entity true atol rtol = _
    unfold compute_shap_scores
    simp only [reduceIte]
    rw [hL]
    rfl

/-- A single positive literal as root: a well-behaved one-variable circuit on
which the DP and the brute force agree exactly. -/
def oneVarCircuit : SddNode := .lit 1 1

/-- A decision node violating determinism (both elements are `(True, x1)`),
on which the DP double-counts and certification must fail. -/
def dupCircuit : SddNode :=
  .decision 10 [(.const 6 true, .lit 7 1), (.const 8 true, .lit 9 1)]

theorem oneVar_dp (p e : Nat → ℚ) (hp1 : p 1 = 1/2) (he1 : e 1 = 1) :
    compute_shap_algorithm oneVarCircuit p e [1] = [(1, 1/2)] := by
  have hg : gammaDelta p e 1 oneVarCircuit = ([1], [0]) := by
    simp [gammaDelta, oneVarCircuit]
  have hn : (varOf oneVarCircuit).card = 1 := rfl
  have hs : shapForVar oneVarCircuit p e 1 = 1/2 := by
    rw [shapForVar]
    rw [hg, hn]
    norm_num [Finset.sum_range_succ, shapWeight, hp1, he1]
  have h1 : (1 : Nat) ∈ varOf oneVarCircuit := by decide
  rw [compute_shap_algorithm_eq]
  simp only [List.map_cons, List.map_nil, h1, if_true]
  rw [hs]

theorem dup_dp (p e : Nat → ℚ) (hp1 : p 1 = 1/2) (he1 : e 1 = 1) :
    compute_shap_algorithm dupCircuit p e [1] = [(1, 1)] := by
  have g1 : gammaDelta p e 1 (.const 6 true) = ([1], [1]) := by simp [gammaDelta]
  have g2 : gammaDelta p e 1 (.lit 7 1) = ([1], [0]) := by simp [gammaDelta]
  have g3 : gammaDelta p e 1 (.const 8 true) = ([1], [1]) := by simp [gammaDelta]
  have g4 : gammaDelta p e 1 (.lit 9 1) = ([1], [0]) := by simp [gammaDelta]
  have c1 : ((varOf (SddNode.const 6 true)).erase 1).card = 0 := rfl
  have c2 : ((varOf (SddNode.lit 7 1)).erase 1).card = 0 := rfl
  have c3 : ((varOf (SddNode.const 8 true)).erase 1).card = 0 := rfl
  have c4 : ((varOf (SddNode.lit 9 1)).erase 1).card = 0 := rfl
  have u1 : (((varOf (SddNode.const 6 true)).erase 1) ∪
      ((varOf (SddNode.lit 7 1)).erase 1)).card = 0 := rfl
  have u2 : (((varOf (SddNode.const 8 true)).erase 1) ∪
      ((varOf (SddNode.lit 9 1)).erase 1)).card = 0 := rfl
  have m1 : ((varOfElems [(SddNode.const 6 true, SddNode.lit 7 1),
      (SddNode.const 8 true, SddNode.lit 9 1)]).erase 1).card = 0 := rfl
  have pc : perChild p e 1 [(SddNode.const 6 true, SddNode.lit 7 1),
      (SddNode.const 8 true, SddNode.lit 9 1)] =
      [(convAnd [1] [1] 0 0 0, convAnd [1] [0] 0 0 0, 0),
       (convAnd [1] [1] 0 0 0, convAnd [1] [0] 0 0 0, 0)] := by
    rw [perChild, perChild, perChild]
    rw [g1, g2, g3, g4, c1, c2, c3, c4, u1, u2]
  have v1 : convAnd [(1:ℚ)] [1] 0 0 0 = [1] := by
    norm_num [convAnd, Finset.sum_range_succ, List.range_succ]
  have v2 : convAnd [(1:ℚ)] [0] 0 0 0 = [0] := by
    norm_num [convAnd, Finset.sum_range_succ, List.range_succ]
  have l1 : liftOr 0 [([(1:ℚ)], 0), ([1], 0)] = [2] := by
    norm_num [liftOr, Finset.sum_range_succ, List.range_succ]
  have l2 : liftOr 0 [([(0:ℚ)], 0), ([0], 0)] = [0] := by
    norm_num [liftOr, Finset.sum_range_succ, List.range_succ]
  have hgd : gammaDelta p e 1 dupCircuit = ([2], [0]) := by
    show gammaDelta p e 1 (.decision 10 [(.const 6 true, .lit 7 1),
      (.const 8 true, .lit 9 1)]) = ([2], [0])
    rw [gammaDelta, m1, pc, v1, v2]
    simp only [List.map]
    rw [l1, l2]
  have hn : (varOf dupCircuit).card = 1 := rfl
  have hs : shapForVar dupCircuit p e 1 = 1 := by
    rw [shapForVar]
    rw [hgd, hn]
    norm_num [Finset.sum_range_succ, shapWeight, hp1, he1]
  have h1 : (1 : Nat) ∈ varOf dupCircuit := by decide
  rw [compute_shap_algorithm_eq]
  simp only [List.map_cons, List.map_nil, h1, if_true]
  rw [hs]

theorem oneVar_wmc_full (p e : Nat → ℚ) (he1 : e 1 = 1) :
    v_conditional_wmc oneVarCircuit p e {1} {1} = 1 := by
  unfold v_conditional_wmc
  have hps : ({1} : Finset Nat).powerset = {∅, {1}} := by decide
  rw [hps, Finset.sum_insert (by decide), Finset.sum_singleton]
  norm_num [oneVarCircuit, evalSdd, clampWeight, he1]

theorem oneVar_wmc_empty (p e : Nat → ℚ) (hp1 : p 1 = 1/2) :
    v_conditional_wmc oneVarCircuit p e {1} ∅ = 1/2 := by
  unfold v_conditional_wmc
  have hps : ({1} : Finset Nat).powerset = {∅, {1}} := by decide
  rw [hps, Finset.sum_insert (by decide), Finset.sum_singleton]
  norm_num [oneVarCircuit, evalSdd, clampWeight, hp1]

theorem dup_wmc_full (p e : Nat → ℚ) (he1 : e 1 = 1) :
    v_conditional_wmc dupCircuit p e {1} {1} = 1 := by
  unfold v_conditional_wmc
  have hps : ({1} : Finset Nat).powerset = {∅, {1}} := by decide
  rw [hps, Finset.sum_insert (by decide), Finset.sum_singleton]
  norm_num [dupCircuit, evalSdd, evalElems, clampWeight, he1]

theorem dup_wmc_empty (p e : Nat → ℚ) (hp1 : p 1 = 1/2) :
    v_conditional_wmc dupCircuit p e {1} ∅ = 1/2 := by
  unfold v_conditional_wmc
  have hps : ({1} : Finset Nat).powerset = {∅, {1}} := by decide
  rw [hps, Finset.sum_insert (by decide), Finset.sum_singleton]
  norm_num [dupCircuit, evalSdd, evalElems, clampWeight, hp1]

theorem oneVar_brute (p e : Nat → ℚ) (hp1 : p 1 = 1/2) (he1 : e 1 = 1) :
    shap_exact_subset_enum oneVarCircuit p e [1] = [(1, 1/2)] := by
  unfold shap_exact_subset_enum
  simp only [List.map_cons, List.map_nil]
  have hfil : ([1] : List Nat).filter (· ≠ 1) = [] := rfl
  rw [hfil]
  have hpc : ((([] : List Nat).toFinset).powersetCard 0) = {∅} := rfl
  have hV : ([1] : List Nat).toFinset = {1} := rfl
  simp only [List.length_cons, List.length_nil, hV]
  rw [Finset.sum_range_one, hpc, Finset.sum_singleton]
  have hins : insert 1 (∅ : Finset Nat) = {1} := rfl
  rw [hins, oneVar_wmc_full p e he1, oneVar_wmc_empty p e hp1]
  norm_num [shapWeight]

theorem dup_brute (p e : Nat → ℚ) (hp1 : p 1 = 1/2) (he1 : e 1 = 1) :
    shap_exact_subset_enum dupCircuit p e [1] = [(1, 1/2)] := by
  unfold shap_exact_subset_enum
  simp only [List.map_cons, List.map_nil]
  have hfil : ([1] : List Nat).filter (· ≠ 1) = [] := rfl
  rw [hfil]
  have hpc : ((([] : List Nat).toFinset).powersetCard 0) = {∅} := rfl
  have hV : ([1] : List Nat).toFinset = {1} := rfl
  simp only [List.length_cons, List.length_nil, hV]
  rw [Finset.sum_range_one, hpc, Finset.sum_singleton]
  have hins : insert 1 (∅ : Finset Nat) = {1} := rfl
  rw [hins, dup_wmc_full p e he1, dup_wmc_empty p e hp1]
  norm_num [shapWeight]

theorem dup_certFast : certFast dupCircuit none none 1 1 = 1 := by
  show ((compute_shap_algorithm dupCircuit (facadeP none) (facadeE none)
    ((List.range 1).map (· + 1))).lookup 1).getD 0 = 1
  have hids : ((List.range 1).map (· + 1)) = [1] := rfl
  rw [hids, dup_dp (facadeP none) (facadeE none) rfl rfl]
  rfl

theorem dup_certBrute : certBrute dupCircuit none none 1 1 = 1/2 := by
  show ((shap_exact_subset_enum dupCircuit (facadeP none) (facadeE none)
    ((List.range 1).map (· + 1))).lookup 1).getD 0 = 1/2
  have hids : ((List.range 1).map (· + 1)) = [1] := rfl
  rw [hids, dup_brute (facadeP none) (facadeE none) rfl rfl]
  rfl

theorem oneVar_certFast : certFast oneVarCircuit none none 1 1 = 1/2 := by
  show ((compute_shap_algorithm oneVarCircuit (facadeP none) (facadeE none)
    ((List.range 1).map (· + 1))).lookup 1).getD 0 = 1/2
  have hids : ((List.range 1).map (· + 1)) = [1] := rfl
  rw [hids, oneVar_dp (facadeP none) (facadeE none) rfl rfl]
  rfl

theorem oneVar_certBrute : certBrute oneVarCircuit none none 1 1 = 1/2 := by
  show ((shap_exact_subset_enum oneVarCircuit (facadeP none) (facadeE none)
    ((List.range 1).map (· + 1))).lookup 1).getD 0 = 1/2
  have hids : ((List.range 1).map (· + 1)) = [1] := rfl
  rw [hids, oneVar_brute (facadeP none) (facadeE none) rfl rfl]
  rfl

/-- Witness for C6: on `dupCircuit` (a determinism violation) certification
fails with the full mismatch report; on `oneVarCircuit` it passes and returns
the DP result unchanged. -/
theorem C6_certification_witness :
    compute_shap_scores (some dupCircuit) 1 none none true 0 0
      = .error (.certificationMismatch "x1" 1 (1/2) (1/2) 0 1 1) ∧
    compute_shap_scores (some oneVarCircuit) 1 none none true 0 0
      = .ok [("x1", 1/2)] := by
  constructor
  · have hbad : |certFast dupCircuit none none 1 1 - certBrute dupCircuit none none 1 1| >
        0 + 0 * max 1 |certBrute dupCircuit none none 1 1| := by
      rw [dup_certFast, dup_certBrute]
      norm_num
    obtain ⟨w, hwmem, hwbad, hwmax, heq⟩ :=
      (C6_certification dupCircuit 1 none none 0 0).1 ⟨1, by decide, hbad⟩
    have hw1 : w = 1 := by
      have h := hwmem
      simp only [List.map_cons, List.map_nil, List.range_succ, List.range_zero,
        List.nil_append, List.mem_singleton] at h
      omega
    subst hw1
    rw [heq]
    have hflt : (((List.range 1).map (· + 1)).filter (fun v =>
        decide (|certFast dupCircuit none none 1 v - certBrute dupCircuit none none 1 v| >
          0 + 0 * max 1 |certBrute dupCircuit none none 1 v|))).length = 1 := by
      have : ((List.range 1).map (· + 1)) = [1] := rfl
      rw [this, List.filter_cons, decide_eq_true hbad]
      rfl
    rw [hflt, dup_certFast, dup_certBrute]
    rw [show var_id_to_name 1 = "x1" from rfl]
    norm_num
  · have hgood : ∀ vid ∈ (List.range 1).map (· + 1),
        ¬(|certFast oneVarCircuit none none 1 vid - certBrute oneVarCircuit none none 1 vid| >
          0 + 0 * max 1 |certBrute oneVarCircuit none none 1 vid|) := by
      intro vid hvid
      have hv1 : vid = 1 := by
        have h := hvid
        simp only [List.map_cons, List.map_nil, List.range_succ, List.range_zero,
          List.nil_append, List.mem_singleton] at h
        omega
      subst hv1
      rw [oneVar_certFast, oneVar_certBrute]
      norm_num
    have := (C6_certification oneVarCircuit 1 none none 0 0).2 hgood
    rw [this]
    have : ((List.range 1).map (· + 1)) = [1] := rfl
    rw [this]
    simp only [List.map_cons, List.map_nil]
    rw [oneVar_certFast]
    rfl

/-- C4 counterexample: on `(a ∧ b) ∨ (¬a ∧ ¬b)` with `p = {a:0.5, b:0.5}` and
`e = {a:1, b:1}` the code computes `shap[a] = shap[b] = 0.25` (sum `0.5`), not
the claimed `0.125` (sum `0.25`). -/
theorem C4_counterexample :
    compute_shap_scores (some xnorCircuit) 2
      (some [("x1", 1/2), ("x2", 1/2)]) (some [("x1", 1), ("x2", 1)])
      false (1/1000000000) (1/10000000)
      = .ok [("x1", 1/4), ("x2", 1/4)] ∧
    ¬((1:ℚ)/4 = 1/8) ∧ ¬((1:ℚ)/4 + 1/4 = 1/4) := by
  refine ⟨?_, by norm_num, by norm_num⟩
  exact xnor_facade_eval (some [("x1", 1/2), ("x2", 1/2)]) (some [("x1", 1), ("x2", 1)])
    (1/1000000000) (1/10000000) rfl rfl rfl rfl

/-- C4 amended: the computed attribution on scenario 1 is
`shap[a] = shap[b] = 0.25` and the scores sum to `0.5`. -/
theorem C4_amended :
    compute_shap_scores (some xnorCircuit) 2
      (some [("x1", 1/2), ("x2", 1/2)]) (some [("x1", 1), ("x2", 1)])
      false (1/1000000000) (1/10000000)
      = .ok [("x1", 1/4), ("x2", 1/4)] ∧
    (1:ℚ)/4 + 1/4 = 1/2 := by
  refine ⟨?_, by norm_num⟩
  exact xnor_facade_eval (some [("x1", 1/2), ("x2", 1/2)]) (some [("x1", 1), ("x2", 1)])
    (1/1000000000) (1/10000000) rfl rfl rfl rfl


/-! ## Claim C9: correctness of `get_topological_order` -/

mutual

/-- The set of node ids reachable from a node (the node itself included). -/
def reachIds : SddNode → Finset Nat
  | .const i _ => {i}
  | .lit i _ => {i}
  | .decision i es => insert i (reachIdsElems es)
termination_by structural g => g

/-- Ids reachable from any prime or sub of an element list. -/
def reachIdsElems : List (SddNode × SddNode) → Finset Nat
  | [] => ∅
  | (pr, sb) :: rest => reachIds pr ∪ reachIds sb ∪ reachIdsElems rest
termination_by structural es => es

end

/-- The ids of the nodes output so far. -/
def orderIds (st : DfsState) : List Nat := st.order.map SddNode.nodeId

/-- Invariant of the DFS traversal state. -/
structure DfsInv (root : SddNode) (st : DfsState) : Prop where
  nodup : (orderIds st).Nodup
  sub : ∀ id ∈ orderIds st, id ∈ st.visited
  reach : ∀ g ∈ st.order, Reach root g
  complete : ∀ g ∈ st.order, ∀ id ∈ reachIds g, id ∈ orderIds st
  good : ∀ k, (hk : k < st.order.length) → ∀ i es,
    st.order.get ⟨k, hk⟩ = SddNode.decision i es →
    ∀ pr sb, (pr, sb) ∈ es →
      pr.nodeId ∈ (st.order.take k).map SddNode.nodeId ∧
      sb.nodeId ∈ (st.order.take k).map SddNode.nodeId

/-- Every id marked visited but not yet output belongs to a strictly larger
reachable node (an ancestor still on the DFS stack). -/
def PendB (root : SddNode) (st : DfsState) (B : Nat) : Prop :=
  ∀ id, id ∈ st.visited → id ∉ orderIds st →
    ∃ a, Reach root a ∧ a.nodeId = id ∧ B < sizeOf a

/-- What one DFS step guarantees about the state transition. -/
structure DfsPost (root : SddNode) (st st' : DfsState) : Prop where
  grow : ∃ Δ, st'.order = st.order ++ Δ
  vgrow : ∀ id ∈ st.visited, id ∈ st'.visited
  inv : DfsInv root st'
  pend : ∀ id, (id ∈ st'.visited ∧ id ∉ orderIds st') ↔
      (id ∈ st.visited ∧ id ∉ orderIds st)

theorem nodeId_mem_reachIds (g : SddNode) : g.nodeId ∈ reachIds g := by
  cases g <;> simp [reachIds, SddNode.nodeId]

theorem reachIds_mem_elems {pr sb : SddNode} {es : List (SddNode × SddNode)}
    (h : (pr, sb) ∈ es) :
    (∀ id ∈ reachIds pr, id ∈ reachIdsElems es) ∧
    (∀ id ∈ reachIds sb, id ∈ reachIdsElems es) := by
  induction es with
  | nil => cases h
  | cons hd tl ih =>
      rcases List.mem_cons.mp h with h1 | h2
      · subst h1
        constructor <;> intro id hid <;> simp [reachIdsElems, hid]
      · obtain ⟨ih1, ih2⟩ := ih h2
        obtain ⟨a, b⟩ := hd
        constructor
        · intro id hid
          simp [reachIdsElems, ih1 id hid]
        · intro id hid
          simp [reachIdsElems, ih2 id hid]

theorem reach_nodeId_mem {root g : SddNode} (h : Reach root g) :
    g.nodeId ∈ reachIds root := by
  induction h with
  | refl g => exact nodeId_mem_reachIds g
  | viaPrime hmem _ ih =>
      simp only [reachIds, Finset.mem_insert]
      exact Or.inr ((reachIds_mem_elems hmem).1 _ ih)
  | viaSub hmem _ ih =>
      simp only [reachIds, Finset.mem_insert]
      exact Or.inr ((reachIds_mem_elems hmem).2 _ ih)

theorem dfsPost_trans {root : SddNode} {st1 st2 st3 : DfsState}
    (h12 : DfsPost root st1 st2) (h23 : DfsPost root st2 st3) : DfsPost root st1 st3 := by
  refine ⟨?_, ?_, h23.inv, ?_⟩
  · obtain ⟨d1, hd1⟩ := h12.grow
    obtain ⟨d2, hd2⟩ := h23.grow
    exact ⟨d1 ++ d2, by rw [hd2, hd1, List.append_assoc]⟩
  · intro id hid
    exact h23.vgrow id (h12.vgrow id hid)
  · intro id
    exact (h23.pend id).trans (h12.pend id)

theorem orderIds_mono {root : SddNode} {st st' : DfsState} (h : DfsPost root st st') :
    ∀ id ∈ orderIds st, id ∈ orderIds st' := by
  intro id hid
  obtain ⟨d, hd⟩ := h.grow
  unfold orderIds at *
  rw [hd, List.map_append]
  exact List.mem_append_left _ hid

theorem reach_trans {a b c : SddNode} (h1 : Reach a b) (h2 : Reach b c) : Reach a c := by
  induction h1 with
  | refl g => exact h2
  | viaPrime hmem _ ih => exact Reach.viaPrime hmem (ih h2)
  | viaSub hmem _ ih => exact Reach.viaSub hmem (ih h2)

theorem PendB_mono {root : SddNode} {st : DfsState} {B B' : Nat} (h : B' ≤ B)
    (hp : PendB root st B) : PendB root st B' := by
  intro id h1 h2
  obtain ⟨a, ha1, ha2, ha3⟩ := hp id h1 h2
  exact ⟨a, ha1, ha2, lt_of_le_of_lt h ha3⟩

theorem take_append_left' {α : Type} (l1 l2 : List α) (k : Nat) (h : k ≤ l1.length) :
    (l1 ++ l2).take k = l1.take k := by
  rw [List.take_append_eq_append_take]
  have : k - l1.length = 0 := by omega
  rw [this, List.take_zero, List.append_nil]

theorem get_append_left' {α : Type} (l1 l2 : List α) (k : Nat) (hk : k < l1.length)
    (hk2 : k < (l1 ++ l2).length) : (l1 ++ l2).get ⟨k, hk2⟩ = l1.get ⟨k, hk⟩ := by
  simp [List.getElem_append_left hk]

theorem get_concat_last {α : Type} (l : List α) (a : α)
    (h : l.length < (l ++ [a]).length) : (l ++ [a]).get ⟨l.length, h⟩ = a := by
  induction l with
  | nil => rfl
  | cons x xs ih => exact ih (by simp)

theorem PendB_congr {root : SddNode} {st st' : DfsState} {B : Nat}
    (heq : ∀ id, (id ∈ st'.visited ∧ id ∉ orderIds st') ↔
      (id ∈ st.visited ∧ id ∉ orderIds st))
    (hp : PendB root st B) : PendB root st' B := by
  intro id h1 h2
  have := (heq id).mp ⟨h1, h2⟩
  exact hp id this.1 this.2

theorem orderIds_append (st : DfsState) (g : SddNode) (V' : List Nat) :
    orderIds ⟨V', st.order ++ [g]⟩ = orderIds st ++ [g.nodeId] := by
  unfold orderIds
  simp

/-- Appending a node whose children (if any) are already in the output
preserves the DFS invariant. -/
theorem DfsInv.append (root : SddNode) (st : DfsState) (g : SddNode) (V' : List Nat)
    (hinv : DfsInv root st) (hreach : Reach root g)
    (hnotin : g.nodeId ∉ orderIds st)
    (hsubV : ∀ id ∈ st.visited, id ∈ V') (hgV : g.nodeId ∈ V')
    (hchildren : ∀ i es, g = SddNode.decision i es → ∀ pr sb, (pr, sb) ∈ es →
      pr.nodeId ∈ orderIds st ∧ sb.nodeId ∈ orderIds st)
    (hcompl : ∀ id ∈ reachIds g, id = g.nodeId ∨ id ∈ orderIds st) :
    DfsInv root ⟨V', st.order ++ [g]⟩ := by
  have hord := orderIds_append st g V'
  constructor
  · rw [hord]
    rw [List.nodup_append]
    exact ⟨hinv.nodup, List.nodup_singleton _, by
      intro a ha hb
      simp only [List.mem_singleton] at hb
      subst hb
      exact hnotin ha⟩
  · intro id hid
    rw [hord] at hid
    rcases List.mem_append.mp hid with h | h
    · exact hsubV id (hinv.sub id h)
    · simp only [List.mem_singleton] at h
      subst h
      exact hgV
  · intro n hn
    rcases List.mem_append.mp hn with h | h
    · exact hinv.reach n h
    · simp only [List.mem_singleton] at h
      subst h
      exact hreach
  · intro n hn id hid
    rw [hord]
    rcases List.mem_append.mp hn with h | h
    · exact List.mem_append_left _ (hinv.complete n h id hid)
    · simp only [List.mem_singleton] at h
      subst h
      rcases hcompl id hid with h | h
      · subst h
        exact List.mem_append_right _ (List.mem_singleton_self _)
      · exact List.mem_append_left _ h
  · intro k hk i es hget pr sb hmem
    have hlen : (st.order ++ [g]).length = st.order.length + 1 := by simp
    by_cases hklt : k < st.order.length
    · have hget2 : st.order.get ⟨k, hklt⟩ = SddNode.decision i es := by
        rw [← hget]
        exact (get_append_left' st.order [g] k hklt hk).symm
      have := hinv.good k hklt i es hget2 pr sb hmem
      rw [show (st.order ++ [g]).take k = st.order.take k from
        take_append_left' st.order [g] k (le_of_lt hklt)]
      exact this
    · have hk2 : k < st.order.length + 1 := by
        have := hk
        simp only [List.length_append, List.length_cons, List.length_nil] at this
        omega
      have hkeq : k = st.order.length := by omega
      subst hkeq
      have hg : g = SddNode.decision i es := by
        rw [← hget]
        exact (get_concat_last st.order g hk).symm
      have := hchildren i es hg pr sb hmem
      rw [show (st.order ++ [g]).take st.order.length = st.order from by
        rw [take_append_left' st.order [g] st.order.length (le_refl _)]
        simp]
      exact this

/-- Skipping an already-visited node is sound: under id-consistency its whole
subtree is already in the output. -/
theorem dfs_skip_spec (root : SddNode) (hcons : ConsistentIds root) (g : SddNode)
    (st : DfsState) (hreach : Reach root g) (hinv : DfsInv root st)
    (hpend : PendB root st (sizeOf g)) (hv : g.nodeId ∈ st.visited) :
    DfsPost root st st ∧ ∀ id ∈ reachIds g, id ∈ orderIds st := by
  have hpost : DfsPost root st st :=
    ⟨⟨[], by simp⟩, fun id h => h, hinv, fun id => Iff.rfl⟩
  refine ⟨hpost, ?_⟩
  by_cases ho : g.nodeId ∈ orderIds st
  · obtain ⟨n, hn, hnid⟩ : ∃ n ∈ st.order, n.nodeId = g.nodeId := by
      unfold orderIds at ho
      rcases List.mem_map.mp ho with ⟨n, hn, hid⟩
      exact ⟨n, hn, hid⟩
    have hng : n = g := hcons n g (hinv.reach n hn) hreach hnid
    rw [hng] at hn
    exact fun id hid => hinv.complete g hn id hid
  · exfalso
    obtain ⟨a, hra, haid, hsize⟩ := hpend g.nodeId hv ho
    have hag : a = g := hcons a g hra hreach haid
    rw [hag] at hsize
    exact lt_irrefl _ hsize

/-- Appending an unvisited leaf (constant or literal). -/
theorem dfs_leaf_post (root : SddNode) (g : SddNode) (st : DfsState)
    (hreach : Reach root g) (hinv : DfsInv root st) (hv : g.nodeId ∉ st.visited)
    (hleaf : reachIds g = {g.nodeId})
    (hnodec : ∀ i es, g ≠ SddNode.decision i es) :
    DfsPost root st ⟨g.nodeId :: st.visited, st.order ++ [g]⟩ ∧
      ∀ id ∈ reachIds g, id ∈ orderIds ⟨g.nodeId :: st.visited, st.order ++ [g]⟩ := by
  have hnotin : g.nodeId ∉ orderIds st := fun h => hv (hinv.sub _ h)
  have hord := orderIds_append st g (g.nodeId :: st.visited)
  have hinv' : DfsInv root ⟨g.nodeId :: st.visited, st.order ++ [g]⟩ := by
    refine DfsInv.append root st g _ hinv hreach hnotin
      (fun id h => List.mem_cons_of_mem _ h) (List.mem_cons_self _ _) ?_ ?_
    · intro i es heq
      exact absurd heq (hnodec i es)
    · intro id hid
      rw [hleaf] at hid
      exact Or.inl (Finset.mem_singleton.mp hid)
  refine ⟨⟨⟨[g], rfl⟩, fun id h => List.mem_cons_of_mem _ h, hinv', ?_⟩, ?_⟩
  · intro id
    constructor
    · rintro ⟨h1, h2⟩
      rw [hord] at h2
      have hne : id ≠ g.nodeId := by
        intro h
        exact h2 (by rw [h]; exact List.mem_append_right _ (List.mem_singleton_self _))
      rcases List.mem_cons.mp h1 with h | h
      · exact absurd h hne
      · exact ⟨h, fun hmem => h2 (List.mem_append_left _ hmem)⟩
    · rintro ⟨h1, h2⟩
      have hne : id ≠ g.nodeId := fun h => hv (h ▸ h1)
      refine ⟨List.mem_cons_of_mem _ h1, ?_⟩
      rw [hord]
      intro hmem
      rcases List.mem_append.mp hmem with h | h
      · exact h2 h
      · exact hne (List.mem_singleton.mp h)
  · intro id hid
    rw [hleaf] at hid
    rw [Finset.mem_singleton.mp hid, hord]
    exact List.mem_append_right _ (List.mem_singleton_self _)

mutual

theorem dfsNode_spec (root : SddNode) (hcons : ConsistentIds root) (g : SddNode)
    (st : DfsState) (hreach : Reach root g) (hinv : DfsInv root st)
    (hpend : PendB root st (sizeOf g)) :
    DfsPost root st (dfsNode g st) ∧ ∀ id ∈ reachIds g, id ∈ orderIds (dfsNode g st) := by
  by_cases hv : g.nodeId ∈ st.visited
  · have hst : dfsNode g st = st := by
      cases g with
      | const i b => simp only [dfsNode, if_pos hv]
      | lit i l => simp only [dfsNode, if_pos hv]
      | decision i es => simp only [dfsNode, if_pos hv]
    rw [hst]
    exact dfs_skip_spec root hcons g st hreach hinv hpend hv
  · cases g with
    | const i b =>
        have hst : dfsNode (SddNode.const i b) st
            = ⟨(SddNode.const i b).nodeId :: st.visited, st.order ++ [SddNode.const i b]⟩ := by
          simp only [dfsNode, if_neg hv]
          rfl
        rw [hst]
        exact dfs_leaf_post root (SddNode.const i b) st hreach hinv hv
          (by simp [reachIds, SddNode.nodeId]) (fun _ _ h => SddNode.noConfusion h)
    | lit i l =>
        have hst : dfsNode (SddNode.lit i l) st
            = ⟨(SddNode.lit i l).nodeId :: st.visited, st.order ++ [SddNode.lit i l]⟩ := by
          simp only [dfsNode, if_neg hv]
          rfl
        rw [hst]
        exact dfs_leaf_post root (SddNode.lit i l) st hreach hinv hv
          (by simp [reachIds, SddNode.nodeId]) (fun _ _ h => SddNode.noConfusion h)
    | decision i es =>
        have hvi : (i : Nat) ∉ st.visited := hv
        have hinv1 : DfsInv root ⟨i :: st.visited, st.order⟩ :=
          ⟨hinv.nodup, fun id hid => List.mem_cons_of_mem _ (hinv.sub id hid),
           hinv.reach, hinv.complete, hinv.good⟩
        have hszes : sizeOf es < sizeOf (SddNode.decision i es) := by
          simp only [SddNode.decision.sizeOf_spec]
          omega
        have hpend1 : PendB root ⟨i :: st.visited, st.order⟩ (sizeOf es) := by
          intro id h1 h2
          rcases List.mem_cons.mp h1 with heq | hold
          · exact ⟨SddNode.decision i es, hreach, by rw [heq]; rfl, hszes⟩
          · obtain ⟨a, ha1, ha2, ha3⟩ := hpend id hold h2
            exact ⟨a, ha1, ha2, lt_trans hszes ha3⟩
        have hchreach : ∀ pr sb, (pr, sb) ∈ es → Reach root pr ∧ Reach root sb :=
          fun pr sb hm =>
            ⟨reach_trans hreach (Reach.viaPrime hm (Reach.refl pr)),
             reach_trans hreach (Reach.viaSub hm (Reach.refl sb))⟩
        obtain ⟨post12, compl2⟩ :=
          dfsElems_spec root hcons es ⟨i :: st.visited, st.order⟩ hchreach hinv1 hpend1
        have hio : (i : Nat) ∉ orderIds st := fun h => hvi (hinv.sub i h)
        have hpi : i ∈ (dfsElems es ⟨i :: st.visited, st.order⟩).visited ∧
            i ∉ orderIds (dfsElems es ⟨i :: st.visited, st.order⟩) :=
          (post12.pend i).mpr ⟨List.mem_cons_self _ _, hio⟩
        have hst : dfsNode (SddNode.decision i es) st
            = ⟨(dfsElems es ⟨i :: st.visited, st.order⟩).visited,
               (dfsElems es ⟨i :: st.visited, st.order⟩).order ++ [SddNode.decision i es]⟩ := by
          simp only [dfsNode, if_neg hv]
        rw [hst]
        have hchild : ∀ i' es', SddNode.decision i es = SddNode.decision i' es' →
            ∀ pr sb, (pr, sb) ∈ es' →
              pr.nodeId ∈ orderIds (dfsElems es ⟨i :: st.visited, st.order⟩) ∧
              sb.nodeId ∈ orderIds (dfsElems es ⟨i :: st.visited, st.order⟩) := by
          intro i' es' heq pr sb hm
          injection heq with h1 h2
          subst h2
          exact ⟨compl2 _ ((reachIds_mem_elems hm).1 _ (nodeId_mem_reachIds pr)),
                 compl2 _ ((reachIds_mem_elems hm).2 _ (nodeId_mem_reachIds sb))⟩
        have hcompl' : ∀ id ∈ reachIds (SddNode.decision i es),
            id = (SddNode.decision i es).nodeId ∨
            id ∈ orderIds (dfsElems es ⟨i :: st.visited, st.order⟩) := by
          intro id hid
          simp only [reachIds, Finset.mem_insert] at hid
          rcases hid with h | h
          · exact Or.inl h
          · exact Or.inr (compl2 id h)
        have hinv' := DfsInv.append root (dfsElems es ⟨i :: st.visited, st.order⟩)
          (SddNode.decision i es) (dfsElems es ⟨i :: st.visited, st.order⟩).visited
          post12.inv hreach hpi.2 (fun id h => h) hpi.1 hchild hcompl'
        have hord := orderIds_append (dfsElems es ⟨i :: st.visited, st.order⟩)
          (SddNode.decision i es) (dfsElems es ⟨i :: st.visited, st.order⟩).visited
        constructor
        · refine ⟨?_, ?_, hinv', ?_⟩
          · obtain ⟨d, hd⟩ := post12.grow
            exact ⟨d ++ [SddNode.decision i es], by
              show (dfsElems es ⟨i :: st.visited, st.order⟩).order
                ++ [SddNode.decision i es] = _
              rw [hd]
              show (⟨i :: st.visited, st.order⟩ : DfsState).order ++ d ++ _ = _
              rw [List.append_assoc]⟩
          · intro id hid
            exact post12.vgrow id (List.mem_cons_of_mem _ hid)
          · intro id
            constructor
            · rintro ⟨h1, h2⟩
              rw [hord] at h2
              have hne : id ≠ i := by
                intro h
                subst h
                exact h2 (List.mem_append_right _ (List.mem_singleton_self _))
              have h2' : id ∉ orderIds (dfsElems es ⟨i :: st.visited, st.order⟩) :=
                fun hm => h2 (List.mem_append_left _ hm)
              have := (post12.pend id).mp ⟨h1, h2'⟩
              rcases List.mem_cons.mp this.1 with h | h
              · exact absurd h hne
              · exact ⟨h, this.2⟩
            · rintro ⟨h1, h2⟩
              have hne : id ≠ i := fun h => hvi (h ▸ h1)
              have := (post12.pend id).mpr ⟨List.mem_cons_of_mem _ h1, h2⟩
              refine ⟨this.1, ?_⟩
              rw [hord]
              intro hm
              rcases List.mem_append.mp hm with h | h
              · exact this.2 h
              · exact hne (List.mem_singleton.mp h)
        · intro id hid
          simp only [reachIds, Finset.mem_insert] at hid
          rw [hord]
          rcases hid with h | h
          · subst h
            exact List.mem_append_right _ (List.mem_singleton_self _)
          · exact List.mem_append_left _ (compl2 id h)
termination_by structural g

theorem dfsElems_spec (root : SddNode) (hcons : ConsistentIds root)
    (es : List (SddNode × SddNode)) (st : DfsState)
    (hchreach : ∀ pr sb, (pr, sb) ∈ es → Reach root pr ∧ Reach root sb)
    (hinv : DfsInv root st) (hpend : PendB root st (sizeOf es)) :
    DfsPost root st (dfsElems es st) ∧
      ∀ id ∈ reachIdsElems es, id ∈ orderIds (dfsElems es st) := by
  cases es with
  | nil =>
      refine ⟨⟨⟨[], by simp [dfsElems]⟩, fun id h => h, hinv, fun id => Iff.rfl⟩, ?_⟩
      intro id hid
      simp [reachIdsElems] at hid
  | cons hd rest =>
      obtain ⟨pr, sb⟩ := hd
      have hsz := sizeOf_of_mem_elems (List.mem_cons_self (pr, sb) rest)
      have hszrest : sizeOf rest < sizeOf ((pr, sb) :: rest) := by
        simp only [List.cons.sizeOf_spec]
        omega
      obtain ⟨post1, compl1⟩ := dfsNode_spec root hcons pr st
        (hchreach pr sb (List.mem_cons_self _ _)).1 hinv
        (PendB_mono (le_of_lt hsz.1) hpend)
      obtain ⟨post2, compl2⟩ := dfsNode_spec root hcons sb (dfsNode pr st)
        (hchreach pr sb (List.mem_cons_self _ _)).2 post1.inv
        (PendB_mono (le_of_lt hsz.2) (PendB_congr post1.pend hpend))
      obtain ⟨post3, compl3⟩ := dfsElems_spec root hcons rest (dfsNode sb (dfsNode pr st))
        (fun pr' sb' hm => hchreach pr' sb' (List.mem_cons_of_mem _ hm))
        post2.inv
        (PendB_mono (le_of_lt hszrest) (PendB_congr (dfsPost_trans post1 post2).pend hpend))
      have hst : dfsElems ((pr, sb) :: rest) st
          = dfsElems rest (dfsNode sb (dfsNode pr st)) := by
        simp only [dfsElems]
      rw [hst]
      refine ⟨dfsPost_trans (dfsPost_trans post1 post2) post3, ?_⟩
      intro id hid
      simp only [reachIdsElems, Finset.mem_union] at hid
      rcases hid with (h | h) | h
      · exact orderIds_mono (dfsPost_trans post2 post3) id (compl1 id h)
      · exact orderIds_mono post3 id (compl2 id h)
      · exact compl3 id h
termination_by structural es

end

/-- C9: for a consistent (finite, acyclic, id-deduplicated) circuit,
`get_topological_order` lists each distinct reachable node identity exactly
once — however many parents reference it — and every decision node appears
after all primes and subs of its elements. -/
theorem C9_topological_order (root : SddNode) (hcons : ConsistentIds root) :
    ((get_topological_order root).map SddNode.nodeId).Nodup ∧
    (∀ g, Reach root g → g.nodeId ∈ (get_topological_order root).map SddNode.nodeId) ∧
    (∀ g ∈ get_topological_order root, Reach root g) ∧
    (∀ k, (hk : k < (get_topological_order root).length) → ∀ i es,
      (get_topological_order root).get ⟨k, hk⟩ = SddNode.decision i es →
      ∀ pr sb, (pr, sb) ∈ es →
        pr.nodeId ∈ ((get_topological_order root).take k).map SddNode.nodeId ∧
        sb.nodeId ∈ ((get_topological_order root).take k).map SddNode.nodeId) := by
  have hinv0 : DfsInv root ⟨[], []⟩ := by
    refine ⟨?_, ?_, ?_, ?_, ?_⟩
    · simp [orderIds]
    · intro id hid; simp [orderIds] at hid
    · intro g hg; simp at hg
    · intro g hg; simp at hg
    · intro k hk; simp at hk
  have hpend0 : PendB root ⟨[], []⟩ (sizeOf root) := by
    intro id h1 _
    simp at h1
  obtain ⟨post, compl⟩ :=
    dfsNode_spec root hcons root ⟨[], []⟩ (Reach.refl root) hinv0 hpend0
  exact ⟨post.inv.nodup, fun g hg => compl g.nodeId (reach_nodeId_mem hg),
    post.inv.reach, post.inv.good⟩

/-- A circuit with a shared sub node: the literal with id 2 is referenced by
both elements of the decision node. -/
def sharedCircuit : SddNode :=
  .decision 5 [(.lit 1 1, .lit 2 2), (.lit 3 (-1), .lit 2 2)]

theorem reach_lit_inv {i : Nat} {l : Int} {m : SddNode}
    (h : Reach (.lit i l) m) : m = .lit i l := by
  cases h
  rfl

theorem reach_shared (m : SddNode) (h : Reach sharedCircuit m) :
    m = sharedCircuit ∨ m = .lit 1 1 ∨ m = .lit 2 2 ∨ m = .lit 3 (-1) := by
  have h' : Reach (.decision 5 [(.lit 1 1, .lit 2 2), (.lit 3 (-1), .lit 2 2)]) m := h
  cases h' with
  | refl => exact Or.inl rfl
  | viaPrime hmem hr =>
      rcases List.mem_cons.mp hmem with heq | hmem2
      · injection heq with h1 h2
        rw [h1] at hr
        exact Or.inr (Or.inl (reach_lit_inv hr))
      · rcases List.mem_cons.mp hmem2 with heq | hmem3
        · injection heq with h1 h2
          rw [h1] at hr
          exact Or.inr (Or.inr (Or.inr (reach_lit_inv hr)))
        · cases hmem3
  | viaSub hmem hr =>
      rcases List.mem_cons.mp hmem with heq | hmem2
      · injection heq with h1 h2
        rw [h2] at hr
        exact Or.inr (Or.inr (Or.inl (reach_lit_inv hr)))
      · rcases List.mem_cons.mp hmem2 with heq | hmem3
        · injection heq with h1 h2
          rw [h2] at hr
          exact Or.inr (Or.inr (Or.inl (reach_lit_inv hr)))
        · cases hmem3

theorem sharedCircuit_consistent : ConsistentIds sharedCircuit := by
  intro m n hm hn hid
  rcases reach_shared m hm with rfl | rfl | rfl | rfl <;>
    rcases reach_shared n hn with rfl | rfl | rfl | rfl <;>
    first
      | rfl
      | (exfalso; simp [sharedCircuit, SddNode.nodeId] at hid)

/-- Witness for C9 at `sharedCircuit`: the shared node id 2 appears exactly
once in the order `[1, 2, 3, 5]`, leaves precede the decision node. -/
theorem C9_topological_order_witness :
    ConsistentIds sharedCircuit ∧
    (get_topological_order sharedCircuit).map SddNode.nodeId = [1, 2, 3, 5] ∧
    ((get_topological_order sharedCircuit).map SddNode.nodeId).Nodup ∧
    (∀ g ∈ get_topological_order sharedCircuit, Reach sharedCircuit g) :=
  ⟨sharedCircuit_consistent, by decide,
   (C9_topological_order sharedCircuit sharedCircuit_consistent).1,
   (C9_topological_order sharedCircuit sharedCircuit_consistent).2.2.1⟩

/-! ## Semantics: weighted sums over assignments (towards C1 and C3) -/

/-- Weighted model count of the event `f` with per-literal weights `w` over
the variable set `V`: assignments are identified with their true-sets
`T ⊆ V`. -/
def wsum (f : (Nat → Bool) → Bool) (w : Nat → Bool → ℚ) (V : Finset Nat) : ℚ :=
  ∑ T in V.powerset,
    if f (fun i => decide (i ∈ T)) then ∏ i in V, w i (decide (i ∈ T)) else 0

/-- `f` only looks at variables in `A`. -/
def DependsOn (f : (Nat → Bool) → Bool) (A : Finset Nat) : Prop :=
  ∀ σ σ' : Nat → Bool, (∀ i ∈ A, σ i = σ' i) → f σ = f σ'

theorem v_conditional_wmc_eq_wsum (sdd : SddNode) (p e : Nat → ℚ) (V S : Finset Nat) :
    v_conditional_wmc sdd p e V S = wsum (fun σ => evalSdd σ sdd) (clampWeight p e S) V :=
  rfl

mutual

theorem evalSdd_congr (σ σ' : Nat → Bool) (g : SddNode)
    (h : ∀ i ∈ varOf g, σ i = σ' i) : evalSdd σ g = evalSdd σ' g := by
  cases g with
  | const i b => rfl
  | lit i l =>
      have := h l.natAbs (by simp [varOf])
      simp [evalSdd, this]
  | decision i es =>
      have := evalElems_congr σ σ' es (by
        intro j hj
        exact h j (by simpa [varOf] using hj))
      simpa [evalSdd] using this
termination_by structural g

theorem evalElems_congr (σ σ' : Nat → Bool) (es : List (SddNode × SddNode))
    (h : ∀ i ∈ varOfElems es, σ i = σ' i) : evalElems σ es = evalElems σ' es := by
  cases es with
  | nil => rfl
  | cons hd rest =>
      obtain ⟨pr, sb⟩ := hd
      have h1 := evalSdd_congr σ σ' pr (by
        intro j hj
        exact h j (by simp [varOfElems, hj]))
      have h2 := evalSdd_congr σ σ' sb (by
        intro j hj
        exact h j (by simp [varOfElems, hj]))
      have h3 := evalElems_congr σ σ' rest (by
        intro j hj
        exact h j (by simp [varOfElems, hj]))
      simp [evalElems, h1, h2, h3]
termination_by structural es

end

theorem evalSdd_dependsOn (g : SddNode) :
    DependsOn (fun σ => evalSdd σ g) (varOf g) :=
  fun σ σ' h => evalSdd_congr σ σ' g h

/-- Splitting a powerset sum along a disjoint union. -/
theorem sum_powerset_union_disjoint (A B : Finset Nat) (h : Disjoint A B)
    (F : Finset Nat → ℚ) :
    ∑ S in (A ∪ B).powerset, F S =
      ∑ S1 in A.powerset, ∑ S2 in B.powerset, F (S1 ∪ S2) := by
  induction B using Finset.induction_on generalizing F with
  | empty => simp
  | insert hb ih =>
      next b B =>
      have hbA : b ∉ A := fun hmem =>
        (Finset.disjoint_left.mp h hmem) (Finset.mem_insert_self b B)
      have hAB : Disjoint A B := by
        apply Finset.disjoint_left.mpr
        intro a ha hb2
        exact (Finset.disjoint_left.mp h ha) (Finset.mem_insert_of_mem hb2)
      have hbAB : b ∉ A ∪ B := by
        simp only [Finset.mem_union]
        rintro (h1 | h1)
        · exact hbA h1
        · exact hb h1
      rw [Finset.union_insert]
      rw [Finset.sum_powerset_insert hbAB]
      rw [ih hAB F, ih hAB (fun S => F (insert b S))]
      rw [← Finset.sum_add_distrib]
      apply Finset.sum_congr rfl
      intro S1 _
      rw [Finset.sum_powerset_insert hb]
      apply congrArg
      apply Finset.sum_congr rfl
      intro S2 _
      rw [Finset.union_insert]

theorem prod_weight_union (A B : Finset Nat) (hAB : Disjoint A B) (w : Nat → Bool → ℚ)
    (S1 S2 : Finset Nat) (hS1 : S1 ⊆ A) (hS2 : S2 ⊆ B) :
    ∏ i in A ∪ B, w i (decide (i ∈ S1 ∪ S2)) =
      (∏ i in A, w i (decide (i ∈ S1))) * ∏ i in B, w i (decide (i ∈ S2)) := by
  rw [Finset.prod_union hAB]
  congr 1
  · apply Finset.prod_congr rfl
    intro i hi
    have hiff : (i ∈ S1 ∪ S2) ↔ (i ∈ S1) := by
      simp only [Finset.mem_union]
      constructor
      · rintro (h | h)
        · exact h
        · exact absurd (hS2 h) (Finset.disjoint_left.mp hAB hi)
      · exact Or.inl
    rw [decide_eq_decide.mpr hiff]
  · apply Finset.prod_congr rfl
    intro i hi
    have hiff : (i ∈ S1 ∪ S2) ↔ (i ∈ S2) := by
      simp only [Finset.mem_union]
      constructor
      · rintro (h | h)
        · exact absurd (hS1 h) (Finset.disjoint_right.mp hAB hi)
        · exact h
      · exact Or.inr
    rw [decide_eq_decide.mpr hiff]

theorem chi_union_eq_left {A B S1 S2 : Finset Nat} (hAB : Disjoint A B) (hS2 : S2 ⊆ B) :
    ∀ i ∈ A, (decide (i ∈ S1 ∪ S2)) = (decide (i ∈ S1)) := by
  intro i hi
  have hiff : (i ∈ S1 ∪ S2) ↔ (i ∈ S1) := by
    simp only [Finset.mem_union]
    constructor
    · rintro (h | h)
      · exact h
      · exact absurd (hS2 h) (Finset.disjoint_left.mp hAB hi)
    · exact Or.inl
  exact decide_eq_decide.mpr hiff

theorem chi_union_eq_right {A B S1 S2 : Finset Nat} (hAB : Disjoint A B) (hS1 : S1 ⊆ A) :
    ∀ i ∈ B, (decide (i ∈ S1 ∪ S2)) = (decide (i ∈ S2)) := by
  intro i hi
  have hiff : (i ∈ S1 ∪ S2) ↔ (i ∈ S2) := by
    simp only [Finset.mem_union]
    constructor
    · rintro (h | h)
      · exact absurd (hS1 h) (Finset.disjoint_right.mp hAB hi)
      · exact h
    · exact Or.inr
  exact decide_eq_decide.mpr hiff

/-- Decomposable AND: the weighted sum of a conjunction over a disjoint union
of scopes is the product of the two weighted sums. -/
theorem wsum_and_split (f1 f2 : (Nat → Bool) → Bool) (w : Nat → Bool → ℚ)
    (A B : Finset Nat) (hAB : Disjoint A B)
    (h1 : DependsOn f1 A) (h2 : DependsOn f2 B) :
    wsum (fun σ => f1 σ && f2 σ) w (A ∪ B) = wsum f1 w A * wsum f2 w B := by
  unfold wsum
  rw [sum_powerset_union_disjoint A B hAB, Finset.sum_mul_sum]
  apply Finset.sum_congr rfl
  intro S1 hS1
  apply Finset.sum_congr rfl
  intro S2 hS2
  have hS1' : S1 ⊆ A := Finset.mem_powerset.mp hS1
  have hS2' : S2 ⊆ B := Finset.mem_powerset.mp hS2
  have hf1 : f1 (fun i => decide (i ∈ S1 ∪ S2)) = f1 (fun i => decide (i ∈ S1)) :=
    h1 _ _ (chi_union_eq_left hAB hS2')
  have hf2 : f2 (fun i => decide (i ∈ S1 ∪ S2)) = f2 (fun i => decide (i ∈ S2)) :=
    h2 _ _ (chi_union_eq_right hAB hS1')
  rw [prod_weight_union A B hAB w S1 S2 hS1' hS2']
  simp only [hf1, hf2, Bool.and_eq_true]
  by_cases c1 : f1 (fun i => decide (i ∈ S1)) = true
  · by_cases c2 : f2 (fun i => decide (i ∈ S2)) = true
    · simp [c1, c2]
    · simp [c1, c2]
  · simp [c1]

/-- A vacuous scope sums to 1 when every weight pair sums to 1. -/
theorem sum_prod_weights_eq_one (B : Finset Nat) (w : Nat → Bool → ℚ)
    (hw : ∀ i ∈ B, w i true + w i false = 1) :
    ∑ S in B.powerset, ∏ i in B, w i (decide (i ∈ S)) = 1 := by
  have hsplit : ∀ S ∈ B.powerset,
      ∏ i in B, w i (decide (i ∈ S)) =
        (∏ i in S, w i true) * ∏ i in B \ S, w i false := by
    intro S hS
    have hS' : S ⊆ B := Finset.mem_powerset.mp hS
    rw [← Finset.prod_sdiff hS']
    rw [mul_comm]
    congr 1
    · apply Finset.prod_congr rfl
      intro i hi
      simp [hi]
    · apply Finset.prod_congr rfl
      intro i hi
      simp [(Finset.mem_sdiff.mp hi).2]
  rw [Finset.sum_congr rfl hsplit]
  rw [← Finset.prod_add (fun i => w i true) (fun i => w i false) B]
  exact Finset.prod_eq_one hw

/-- Enlarging the variable set beyond the event's scope does not change the
weighted sum, provided the extra weights are normalized. -/
theorem wsum_superset (f : (Nat → Bool) → Bool) (w : Nat → Bool → ℚ)
    (V A : Finset Nat) (hA : A ⊆ V) (hdep : DependsOn f A)
    (hw : ∀ i ∈ V, i ∉ A → w i true + w i false = 1) :
    wsum f w V = wsum f w A := by
  have hV : V = A ∪ (V \ A) := by
    rw [Finset.union_sdiff_of_subset hA]
  have hdisj : Disjoint A (V \ A) := Finset.disjoint_sdiff
  rw [hV]
  unfold wsum
  rw [sum_powerset_union_disjoint A (V \ A) hdisj]
  have hstep : ∀ S1 ∈ A.powerset,
      (∑ S2 in (V \ A).powerset,
        if f (fun i => decide (i ∈ S1 ∪ S2)) then
          ∏ i in A ∪ (V \ A), w i (decide (i ∈ S1 ∪ S2)) else 0) =
      (if f (fun i => decide (i ∈ S1)) then ∏ i in A, w i (decide (i ∈ S1)) else 0) := by
    intro S1 hS1
    have hS1' : S1 ⊆ A := Finset.mem_powerset.mp hS1
    have hrw : ∀ S2 ∈ (V \ A).powerset,
        (if f (fun i => decide (i ∈ S1 ∪ S2)) then
          ∏ i in A ∪ (V \ A), w i (decide (i ∈ S1 ∪ S2)) else 0) =
        (if f (fun i => decide (i ∈ S1)) then ∏ i in A, w i (decide (i ∈ S1)) else 0) *
          ∏ i in V \ A, w i (decide (i ∈ S2)) := by
      intro S2 hS2
      have hS2' : S2 ⊆ V \ A := Finset.mem_powerset.mp hS2
      have hf : f (fun i => decide (i ∈ S1 ∪ S2)) = f (fun i => decide (i ∈ S1)) :=
        hdep _ _ (chi_union_eq_left hdisj hS2')
      rw [hf, prod_weight_union A (V \ A) hdisj w S1 S2 hS1' hS2']
      by_cases c : f (fun i => decide (i ∈ S1)) = true
      · simp [c]
      · simp [c]
    rw [Finset.sum_congr rfl hrw, ← Finset.mul_sum]
    rw [sum_prod_weights_eq_one (V \ A) w (by
      intro i hi
      exact hw i (Finset.mem_sdiff.mp hi).1 (Finset.mem_sdiff.mp hi).2)]
    rw [mul_one]
  exact Finset.sum_congr rfl hstep

/-- Linearity of the weighted sum in one variable's weight pair. -/
theorem wsum_linear_at (f : (Nat → Bool) → Bool) (w u1 u2 : Nat → Bool → ℚ)
    (V : Finset Nat) (x : Nat) (hx : x ∈ V) (c1 c2 : ℚ)
    (hsplit : ∀ t, w x t = c1 * u1 x t + c2 * u2 x t)
    (hagree1 : ∀ i ∈ V, i ≠ x → u1 i = w i)
    (hagree2 : ∀ i ∈ V, i ≠ x → u2 i = w i) :
    wsum f w V = c1 * wsum f u1 V + c2 * wsum f u2 V := by
  unfold wsum
  rw [Finset.mul_sum, Finset.mul_sum, ← Finset.sum_add_distrib]
  apply Finset.sum_congr rfl
  intro T _
  have hprod : ∀ u : Nat → Bool → ℚ, (∀ i ∈ V, i ≠ x → u i = w i) →
      ∏ i in V, u i (decide (i ∈ T)) =
        u x (decide (x ∈ T)) * ∏ i in V.erase x, w i (decide (i ∈ T)) := by
    intro u hu
    rw [← Finset.mul_prod_erase V _ hx]
    congr 1
    apply Finset.prod_congr rfl
    intro i hi
    rw [hu i (Finset.mem_of_mem_erase hi) (Finset.ne_of_mem_erase hi)]
  rw [hprod w (fun i _ _ => rfl), hprod u1 hagree1, hprod u2 hagree2,
    hsplit (decide (x ∈ T))]
  by_cases c : f (fun i => decide (i ∈ T)) = true
  · simp only [if_pos c]
    ring
  · simp only [if_neg c]
    ring

/-- Restriction counting: summing `F (S ∩ W)` over size-`ℓ` subsets of `A`
collapses onto subsets of `W ⊆ A` with binomial multiplicities for the
variables of `A \ W`. -/
theorem sum_powersetCard_restrict (A W : Finset Nat) (hW : W ⊆ A)
    (F : Finset Nat → ℚ) (ℓ : Nat) :
    ∑ S in A.powersetCard ℓ, F (S ∩ W) =
      ∑ ℓc in Finset.range (W.card + 1),
        ∑ Sc in W.powersetCard ℓc,
          (if ℓc ≤ ℓ then ((A.card - W.card).choose (ℓ - ℓc) : ℚ) else 0) * F Sc := by
  have hA : A = W ∪ (A \ W) := by rw [Finset.union_sdiff_of_subset hW]
  have hdisj : Disjoint W (A \ W) := Finset.disjoint_sdiff
  have h1 : ∑ S in A.powersetCard ℓ, F (S ∩ W)
      = ∑ S in A.powerset, if S.card = ℓ then F (S ∩ W) else 0 := by
    rw [Finset.powersetCard_eq_filter, Finset.sum_filter]
  rw [h1]
  have h1b : (∑ S in A.powerset, if S.card = ℓ then F (S ∩ W) else 0)
      = ∑ S in (W ∪ (A \ W)).powerset, if S.card = ℓ then F (S ∩ W) else 0 := by
    rw [← hA]
  rw [h1b, sum_powerset_union_disjoint W (A \ W) hdisj]
  have h2 : ∀ S1 ∈ W.powerset, ∀ S2 ∈ (A \ W).powerset,
      (if (S1 ∪ S2).card = ℓ then F ((S1 ∪ S2) ∩ W) else 0)
        = if S1.card + S2.card = ℓ then F S1 else 0 := by
    intro S1 hS1 S2 hS2
    have hS1' : S1 ⊆ W := Finset.mem_powerset.mp hS1
    have hS2' : S2 ⊆ A \ W := Finset.mem_powerset.mp hS2
    have hd12 : Disjoint S1 S2 :=
      Finset.disjoint_of_subset_left hS1' (Finset.disjoint_of_subset_right hS2' hdisj)
    have hcap : (S1 ∪ S2) ∩ W = S1 := by
      rw [Finset.union_inter_distrib_right]
      rw [Finset.inter_eq_left.mpr hS1']
      have : S2 ∩ W = ∅ := by
        apply Finset.eq_empty_of_forall_not_mem
        intro a ha
        obtain ⟨ha2, haW⟩ := Finset.mem_inter.mp ha
        exact (Finset.mem_sdiff.mp (hS2' ha2)).2 haW
      rw [this, Finset.union_empty]
    rw [hcap, Finset.card_union_of_disjoint hd12]
  rw [Finset.sum_congr rfl (fun S1 hS1 => Finset.sum_congr rfl (h2 S1 hS1))]
  have h3 : ∀ S1 ∈ W.powerset,
      (∑ S2 in (A \ W).powerset, if S1.card + S2.card = ℓ then F S1 else 0)
        = (if S1.card ≤ ℓ then ((A.card - W.card).choose (ℓ - S1.card) : ℚ) else 0)
            * F S1 := by
    intro S1 _
    by_cases hle : S1.card ≤ ℓ
    · rw [if_pos hle]
      have hcond : ∀ S2 : Finset Nat, (S1.card + S2.card = ℓ) = (S2.card = ℓ - S1.card) := by
        intro S2
        simp only [eq_iff_iff]
        omega
      calc (∑ S2 in (A \ W).powerset, if S1.card + S2.card = ℓ then F S1 else 0)
          = ∑ S2 in (A \ W).powerset, if S2.card = ℓ - S1.card then F S1 else 0 := by
            apply Finset.sum_congr rfl
            intro S2 _
            exact if_congr (by omega) rfl rfl
        _ = ((A \ W).powerset.filter (fun S2 => S2.card = ℓ - S1.card)).card • F S1 := by
            rw [← Finset.sum_filter, Finset.sum_const]
        _ = (((A \ W).powersetCard (ℓ - S1.card)).card : ℚ) * F S1 := by
            rw [← Finset.powersetCard_eq_filter]
            simp [nsmul_eq_mul]
        _ = ((A.card - W.card).choose (ℓ - S1.card) : ℚ) * F S1 := by
            rw [Finset.card_powersetCard, Finset.card_sdiff hW]
    · rw [if_neg hle]
      rw [Finset.sum_eq_zero]
      · rw [zero_mul]
      · intro S2 _
        rw [if_neg (by omega)]
  rw [Finset.sum_congr rfl h3]
  rw [Finset.sum_powerset W (fun S1 =>
    (if S1.card ≤ ℓ then ((A.card - W.card).choose (ℓ - S1.card) : ℚ) else 0) * F S1)]
  apply Finset.sum_congr rfl
  intro ℓc hℓc
  apply Finset.sum_congr rfl
  intro Sc hSc
  have : Sc.card = ℓc := (Finset.mem_powersetCard.mp hSc).2
  rw [this]

/-- The per-variable weights that define the `gamma`/`delta` semantics: the
target feature `x` is clamped to the bit `b`, variables in `S` are fixed to
the entity values, the rest are marginalized. -/
def gdWeight (p e : Nat → ℚ) (x : Nat) (b : Bool) (S : Finset Nat) (i : Nat)
    (t : Bool) : ℚ :=
  if i = x then (if b then (if t then 1 else 0) else (if t then 0 else 1))
  else if i ∈ S then (if t then e i else 1 - e i)
  else (if t then p i else 1 - p i)

/-- The probability-weighted value of gate `g` with `S` fixed to the entity,
`x` clamped to `b`, the rest of `var(g)` marginalized. -/
def condVal (p e : Nat → ℚ) (x : Nat) (b : Bool) (g : SddNode) (S : Finset Nat) : ℚ :=
  wsum (fun σ => evalSdd σ g) (gdWeight p e x b S) (varOf g)

/-- The cardinality-indexed aggregate the DP arrays are meant to compute:
the sum of `condVal` over all size-`ℓ` subsets of `var(g) \ {x}`. -/
def cardSem (p e : Nat → ℚ) (x : Nat) (b : Bool) (g : SddNode) (ℓ : Nat) : ℚ :=
  ∑ S in ((varOf g).erase x).powersetCard ℓ, condVal p e x b g S

theorem gdWeight_sum_one (p e : Nat → ℚ) (x : Nat) (b : Bool) (S : Finset Nat)
    (i : Nat) : gdWeight p e x b S i true + gdWeight p e x b S i false = 1 := by
  unfold gdWeight
  by_cases h1 : i = x
  · cases b <;> simp [h1]
  · by_cases h2 : i ∈ S
    · simp only [gdWeight, if_neg h1, if_pos h2]
      norm_num
    · simp only [gdWeight, if_neg h1, if_neg h2]
      norm_num

theorem gdWeight_congr (p e : Nat → ℚ) (x : Nat) (b : Bool) (S S' : Finset Nat)
    (i : Nat) (h : i = x ∨ (i ∈ S ↔ i ∈ S')) :
    gdWeight p e x b S i = gdWeight p e x b S' i := by
  rcases h with h | h
  · subst h
    funext t
    simp [gdWeight]
  · funext t
    unfold gdWeight
    by_cases h1 : i = x
    · simp [h1]
    · by_cases h2 : i ∈ S
      · rw [if_neg h1, if_neg h1, if_pos h2, if_pos (h.mp h2)]
      · rw [if_neg h1, if_neg h1, if_neg h2, if_neg (fun hc => h2 (h.mpr hc))]

theorem getD_map_range (n k : Nat) (f : Nat → ℚ) :
    (((List.range n).map f).getD k 0) = if k < n then f k else 0 := by
  by_cases h : k < n
  · rw [if_pos h]
    rw [List.getD_eq_getElem?_getD]
    rw [List.getElem?_map]
    rw [List.getElem?_range h]
    rfl
  · rw [if_neg h]
    rw [List.getD_eq_getElem?_getD]
    rw [List.getElem?_eq_none]
    · rfl
    · simpa using le_of_not_lt h

theorem foldl_add_eq_sum {α : Type} (l : List α) (f : α → ℚ) :
    l.foldl (fun acc c => acc + f c) 0 = (l.map f).sum := by
  suffices h : ∀ a : ℚ, l.foldl (fun acc c => acc + f c) a = a + (l.map f).sum by
    rw [h 0, zero_add]
  induction l with
  | nil => intro a; simp
  | cons c cs ih =>
      intro a
      simp only [List.foldl_cons, List.map_cons, List.sum_cons, ih (a + f c)]
      ring

theorem finset_sum_list_sum {α β : Type} (s : Finset β) (l : List α) (f : β → α → ℚ) :
    ∑ t in s, (l.map (f t)).sum = (l.map (fun a => ∑ t in s, f t a)).sum := by
  induction l with
  | nil => simp
  | cons c cs ih =>
      simp only [List.map_cons, List.sum_cons]
      rw [Finset.sum_add_distrib, ih]

theorem powerset_singleton' (a : Nat) :
    ({a} : Finset Nat).powerset = {∅, {a}} := by
  rw [show ({a} : Finset Nat) = insert a ∅ from rfl]
  rw [Finset.powerset_insert]
  rw [Finset.powerset_empty]
  rw [Finset.image_singleton]
  rfl

theorem sum_range_ite_single (n target : Nat) (f : Nat → ℚ) :
    (∑ j in Finset.range n, if j = target then f j else 0)
      = if target < n then f target else 0 := by
  by_cases h : target < n
  · rw [if_pos h]
    rw [Finset.sum_ite_eq' (Finset.range n) target f]
    rw [if_pos (Finset.mem_range.mpr h)]
  · rw [if_neg h]
    apply Finset.sum_eq_zero
    intro j hj
    rw [if_neg]
    intro hc
    subst hc
    exact h (Finset.mem_range.mp hj)

theorem evalElems_true_iff (σ : Nat → Bool) (es : List (SddNode × SddNode)) :
    evalElems σ es = true ↔
      ∃ pr sb, (pr, sb) ∈ es ∧ (evalSdd σ pr && evalSdd σ sb) = true := by
  induction es with
  | nil => simp [evalElems]
  | cons hd rest ih =>
      obtain ⟨pr0, sb0⟩ := hd
      simp only [evalElems, Bool.or_eq_true, ih]
      constructor
      · rintro (h | ⟨pr, sb, hm, hv⟩)
        · exact ⟨pr0, sb0, List.mem_cons_self _ _, h⟩
        · exact ⟨pr, sb, List.mem_cons_of_mem _ hm, hv⟩
      · rintro ⟨pr, sb, hm, hv⟩
        rcases List.mem_cons.mp hm with heq | hm2
        · injection heq with h1 h2
          subst h1
          subst h2
          exact Or.inl hv
        · exact Or.inr ⟨pr, sb, hm2, hv⟩

theorem varOf_subset_elems {pr sb : SddNode} {es : List (SddNode × SddNode)}
    (h : (pr, sb) ∈ es) : varOf pr ∪ varOf sb ⊆ varOfElems es := by
  induction es with
  | nil => cases h
  | cons hd rest ih =>
      obtain ⟨a, b⟩ := hd
      rcases List.mem_cons.mp h with heq | hm
      · injection heq with h1 h2
        subst h1; subst h2
        simp only [varOfElems]
        exact Finset.subset_union_left
      · intro i hi
        simp only [varOfElems, Finset.mem_union]
        exact Or.inr ((ih hm) hi)

theorem dependsOn_mono {f : (Nat → Bool) → Bool} {A B : Finset Nat}
    (hAB : A ⊆ B) (h : DependsOn f A) : DependsOn f B :=
  fun σ σ' hag => h σ σ' (fun i hi => hag i (hAB hi))

theorem condVal_congr (p e : Nat → ℚ) (x : Nat) (b : Bool) (g : SddNode)
    (S S' : Finset Nat) (h : ∀ i ∈ varOf g, i ≠ x → (i ∈ S ↔ i ∈ S')) :
    condVal p e x b g S = condVal p e x b g S' := by
  unfold condVal wsum
  apply Finset.sum_congr rfl
  intro T _
  congr 1
  apply Finset.prod_congr rfl
  intro i hi
  by_cases hx : i = x
  · rw [gdWeight_congr p e x b S S' i (Or.inl hx)]
  · rw [gdWeight_congr p e x b S S' i (Or.inr (h i hi hx))]

theorem sum_ite_const {β : Type} (s : Finset β) (c : Prop) [Decidable c] (f : β → ℚ) :
    (∑ a in s, if c then f a else 0) = if c then ∑ a in s, f a else 0 := by
  by_cases hc : c
  · simp [hc]
  · simp [hc]

/-- Determinism: the indicator of a decision node's OR is the sum of the
element indicators, so any weighted term splits across elements. -/
theorem ite_evalElems_eq_sum (σ : Nat → Bool) (es : List (SddNode × SddNode)) (X : ℚ)
    (hdet : ∀ i j : Fin es.length, i ≠ j →
      ¬((evalSdd σ (es.get i).1 && evalSdd σ (es.get i).2) = true ∧
        (evalSdd σ (es.get j).1 && evalSdd σ (es.get j).2) = true)) :
    (if evalElems σ es then X else 0)
      = (es.map (fun c => if (evalSdd σ c.1 && evalSdd σ c.2) = true then X else 0)).sum := by
  induction es with
  | nil => simp [evalElems]
  | cons hd rest ih =>
      obtain ⟨pr0, sb0⟩ := hd
      have hdet' : ∀ i j : Fin rest.length, i ≠ j →
          ¬((evalSdd σ (rest.get i).1 && evalSdd σ (rest.get i).2) = true ∧
            (evalSdd σ (rest.get j).1 && evalSdd σ (rest.get j).2) = true) := by
        intro i j hij
        have hne : i.succ ≠ j.succ := fun hc => hij (Fin.succ_injective _ hc)
        have := hdet i.succ j.succ hne
        simpa using this
      by_cases h0 : (evalSdd σ pr0 && evalSdd σ sb0) = true
      · have hrestfalse : ∀ c ∈ rest, ¬((evalSdd σ c.1 && evalSdd σ c.2) = true) := by
          intro c hc hval
          obtain ⟨j, hj⟩ := List.mem_iff_get.mp hc
          have hne : (⟨0, by simp⟩ : Fin ((pr0, sb0) :: rest).length) ≠ j.succ :=
            fun hc2 => (Fin.succ_ne_zero j) hc2.symm
          apply hdet ⟨0, by simp⟩ j.succ hne
          constructor
          · simpa using h0
          · have : ((pr0, sb0) :: rest).get j.succ = c := by
              simpa using hj
            rw [this]
            exact hval
        have hre : evalElems σ rest = false := by
          apply Bool.eq_false_iff.mpr
          intro h
          obtain ⟨pr, sb, hm, hv⟩ := (evalElems_true_iff σ rest).mp h
          exact absurd hv (hrestfalse (pr, sb) hm)
        have hor : evalElems σ ((pr0, sb0) :: rest) = true := by
          simp [evalElems, h0]
        rw [hor]
        simp only [List.map_cons, List.sum_cons, if_pos h0]
        have hzero : ((rest.map fun c =>
            if (evalSdd σ c.1 && evalSdd σ c.2) = true then X else 0)).sum = 0 := by
          apply List.sum_eq_zero
          intro q hq
          obtain ⟨c, hc, hcq⟩ := List.mem_map.mp hq
          rw [← hcq, if_neg (hrestfalse c hc)]
        rw [hzero, add_zero]
        simp
      · have hb : (evalSdd σ pr0 && evalSdd σ sb0) = false := Bool.eq_false_iff.mpr h0
        have hor : evalElems σ ((pr0, sb0) :: rest) = evalElems σ rest := by
          simp [evalElems, hb]
        rw [hor]
        simp only [List.map_cons, List.sum_cons]
        rw [if_neg h0, zero_add]
        exact ih hdet'

/-- Splitting a fixed-cardinality powerset sum along a disjoint union. -/
theorem sum_powersetCard_union_disjoint (A B : Finset Nat) (h : Disjoint A B)
    (F : Finset Nat → ℚ) (ℓ : Nat) :
    ∑ S in (A ∪ B).powersetCard ℓ, F S =
      ∑ ℓ1 in Finset.range (A.card + 1), ∑ ℓ2 in Finset.range (B.card + 1),
        (if ℓ1 + ℓ2 = ℓ then
          ∑ S1 in A.powersetCard ℓ1, ∑ S2 in B.powersetCard ℓ2, F (S1 ∪ S2)
        else 0) := by
  have h1 : ∑ S in (A ∪ B).powersetCard ℓ, F S
      = ∑ S in (A ∪ B).powerset, if S.card = ℓ then F S else 0 := by
    rw [Finset.powersetCard_eq_filter, Finset.sum_filter]
  rw [h1, sum_powerset_union_disjoint A B h]
  have h2 : ∀ S1 ∈ A.powerset, ∀ S2 ∈ B.powerset,
      (if (S1 ∪ S2).card = ℓ then F (S1 ∪ S2) else 0)
        = if S1.card + S2.card = ℓ then F (S1 ∪ S2) else 0 := by
    intro S1 hS1 S2 hS2
    have hd12 : Disjoint S1 S2 :=
      Finset.disjoint_of_subset_left (Finset.mem_powerset.mp hS1)
        (Finset.disjoint_of_subset_right (Finset.mem_powerset.mp hS2) h)
    rw [Finset.card_union_of_disjoint hd12]
  rw [Finset.sum_congr rfl (fun S1 hS1 => Finset.sum_congr rfl (h2 S1 hS1))]
  rw [Finset.sum_powerset A (fun S1 => ∑ S2 in B.powerset,
    if S1.card + S2.card = ℓ then F (S1 ∪ S2) else 0)]
  apply Finset.sum_congr rfl
  intro ℓ1 _
  have h3 : ∀ S1 ∈ A.powersetCard ℓ1,
      (∑ S2 in B.powerset, if S1.card + S2.card = ℓ then F (S1 ∪ S2) else 0)
        = ∑ ℓ2 in Finset.range (B.card + 1),
            (if ℓ1 + ℓ2 = ℓ then ∑ S2 in B.powersetCard ℓ2, F (S1 ∪ S2) else 0) := by
    intro S1 hS1
    have hc1 : S1.card = ℓ1 := (Finset.mem_powersetCard.mp hS1).2
    rw [Finset.sum_powerset B (fun S2 =>
      if S1.card + S2.card = ℓ then F (S1 ∪ S2) else 0)]
    apply Finset.sum_congr rfl
    intro ℓ2 _
    rw [← sum_ite_const]
    apply Finset.sum_congr rfl
    intro S2 hS2
    have hc2 : S2.card = ℓ2 := (Finset.mem_powersetCard.mp hS2).2
    exact if_congr (by rw [hc1, hc2]) rfl rfl
  rw [Finset.sum_congr rfl h3]
  rw [Finset.sum_comm]
  apply Finset.sum_congr rfl
  intro ℓ2 _
  rw [sum_ite_const]

theorem convAnd_getD (ap asub : List ℚ) (Lp Ls childLen ℓc : Nat) :
    (convAnd ap asub Lp Ls childLen).getD ℓc 0 =
      if ℓc ≤ childLen then
        ∑ ellp in Finset.range (Lp + 1),
          if ellp ≤ ℓc ∧ ℓc - ellp ≤ Ls then
            ap.getD ellp 0 * asub.getD (ℓc - ellp) 0
          else 0
      else 0 := by
  unfold convAnd
  rw [getD_map_range]
  by_cases h : ℓc ≤ childLen
  · rw [if_pos (by omega : ℓc < childLen + 1), if_pos h]
  · rw [if_neg (by omega : ¬(ℓc < childLen + 1)), if_neg h]

theorem liftOr_getD (m : Nat) (children : List (List ℚ × Nat)) (ℓp : Nat) :
    (liftOr m children).getD ℓp 0 =
      if ℓp ≤ m then
        (children.map (fun c => ∑ ℓc in Finset.range (c.2 + 1),
          if ℓc ≤ ℓp ∧ ℓp - ℓc ≤ m - c.2 then
            c.1.getD ℓc 0 * ((m - c.2).choose (ℓp - ℓc) : ℚ)
          else 0)).sum
      else 0 := by
  unfold liftOr
  rw [getD_map_range]
  by_cases h : ℓp ≤ m
  · rw [if_pos (by omega : ℓp < m + 1), if_pos h]
    exact foldl_add_eq_sum children _
  · rw [if_neg (by omega : ¬(ℓp < m + 1)), if_neg h]

theorem cardSem_zero_of_large (p e : Nat → ℚ) (x : Nat) (b : Bool) (g : SddNode)
    (ℓ : Nat) (h : ((varOf g).erase x).card < ℓ) : cardSem p e x b g ℓ = 0 := by
  unfold cardSem
  rw [Finset.powersetCard_eq_empty.mpr h, Finset.sum_empty]

instance : Inhabited SddNode := ⟨SddNode.const 0 false⟩

/-- The AND of one element `(prime, sub)` over the element's own scope. -/
def elemVal (p e : Nat → ℚ) (x : Nat) (b : Bool) (pr sb : SddNode) (S : Finset Nat) : ℚ :=
  wsum (fun σ => evalSdd σ pr && evalSdd σ sb) (gdWeight p e x b S)
    (varOf pr ∪ varOf sb)

/-- Cardinality-indexed aggregate of one element. -/
def elemCardSem (p e : Nat → ℚ) (x : Nat) (b : Bool) (pr sb : SddNode) (ℓc : Nat) : ℚ :=
  ∑ S in ((varOf pr ∪ varOf sb).erase x).powersetCard ℓc, elemVal p e x b pr sb S

/-- The semantic contract of the `per_child` list, element by element. -/
def perChildSemOk (p e : Nat → ℚ) (x : Nat) :
    List (SddNode × SddNode) → List (List ℚ × List ℚ × Nat) → Prop
  | [], [] => True
  | (pr, sb) :: rest, c :: crest =>
      c.2.2 = ((varOf pr ∪ varOf sb).erase x).card ∧
      (∀ ℓc, c.1.getD ℓc 0 = elemCardSem p e x true pr sb ℓc) ∧
      (∀ ℓc, c.2.1.getD ℓc 0 = elemCardSem p e x false pr sb ℓc) ∧
      perChildSemOk p e x rest crest
  | _, _ => False

theorem dependsOn_and {f g : (Nat → Bool) → Bool} {A : Finset Nat}
    (hf : DependsOn f A) (hg : DependsOn g A) :
    DependsOn (fun σ => f σ && g σ) A := by
  intro σ σ' h
  show (f σ && g σ) = (f σ' && g σ')
  rw [hf σ σ' h, hg σ σ' h]

theorem wsum_gdWeight_congr (p e : Nat → ℚ) (x : Nat) (b : Bool)
    (f : (Nat → Bool) → Bool) (V : Finset Nat) (S S' : Finset Nat)
    (h : ∀ i ∈ V, i ≠ x → (i ∈ S ↔ i ∈ S')) :
    wsum f (gdWeight p e x b S) V = wsum f (gdWeight p e x b S') V := by
  unfold wsum
  apply Finset.sum_congr rfl
  intro T _
  congr 1
  apply Finset.prod_congr rfl
  intro i hi
  by_cases hx : i = x
  · rw [gdWeight_congr p e x b S S' i (Or.inl hx)]
  · rw [gdWeight_congr p e x b S S' i (Or.inr (h i hi hx))]

/-- One element's AND phase is correct: the convolution of the two children's
arrays computes the element's cardinality aggregates. -/
theorem elemCardSem_conv (p e : Nat → ℚ) (x : Nat) (b : Bool) (pr sb : SddNode)
    (hdisj : Disjoint (varOf pr) (varOf sb))
    (lp ls : List ℚ)
    (hp : ∀ ℓ, lp.getD ℓ 0 = cardSem p e x b pr ℓ)
    (hs : ∀ ℓ, ls.getD ℓ 0 = cardSem p e x b sb ℓ) (ℓc : Nat) :
    (convAnd lp ls ((varOf pr).erase x).card ((varOf sb).erase x).card
        (((varOf pr).erase x ∪ (varOf sb).erase x).card)).getD ℓc 0
      = elemCardSem p e x b pr sb ℓc := by
  have hWdisj : Disjoint ((varOf pr).erase x) ((varOf sb).erase x) :=
    Finset.disjoint_of_subset_left (Finset.erase_subset x _)
      (Finset.disjoint_of_subset_right (Finset.erase_subset x _) hdisj)
  have hW : (varOf pr ∪ varOf sb).erase x
      = (varOf pr).erase x ∪ (varOf sb).erase x :=
    Finset.erase_union_distrib _ _ _
  have hsem : elemCardSem p e x b pr sb ℓc
      = ∑ ℓ1 in Finset.range (((varOf pr).erase x).card + 1),
          ∑ ℓ2 in Finset.range (((varOf sb).erase x).card + 1),
            (if ℓ1 + ℓ2 = ℓc then lp.getD ℓ1 0 * ls.getD ℓ2 0 else 0) := by
    unfold elemCardSem
    rw [show ((varOf pr ∪ varOf sb).erase x).powersetCard ℓc
      = ((varOf pr).erase x ∪ (varOf sb).erase x).powersetCard ℓc from by rw [hW]]
    rw [sum_powersetCard_union_disjoint _ _ hWdisj]
    apply Finset.sum_congr rfl
    intro ℓ1 _
    apply Finset.sum_congr rfl
    intro ℓ2 _
    by_cases hcase : ℓ1 + ℓ2 = ℓc
    · rw [if_pos hcase, if_pos hcase]
      have hinner : ∀ S1 ∈ ((varOf pr).erase x).powersetCard ℓ1,
          ∀ S2 ∈ ((varOf sb).erase x).powersetCard ℓ2,
          elemVal p e x b pr sb (S1 ∪ S2)
            = condVal p e x b pr S1 * condVal p e x b sb S2 := by
        intro S1 hS1 S2 hS2
        have hS1' : S1 ⊆ (varOf pr).erase x := (Finset.mem_powersetCard.mp hS1).1
        have hS2' : S2 ⊆ (varOf sb).erase x := (Finset.mem_powersetCard.mp hS2).1
        unfold elemVal
        rw [wsum_and_split (fun σ => evalSdd σ pr) (fun σ => evalSdd σ sb)
          (gdWeight p e x b (S1 ∪ S2)) (varOf pr) (varOf sb) hdisj
          (evalSdd_dependsOn pr) (evalSdd_dependsOn sb)]
        unfold condVal
        congr 1
        · apply wsum_gdWeight_congr
          intro i hi hix
          constructor
          · rintro hmem
            rcases Finset.mem_union.mp hmem with hh | hh
            · exact hh
            · exact absurd ((Finset.erase_subset x _) (hS2' hh))
                (Finset.disjoint_left.mp hdisj hi)
          · intro hmem
            exact Finset.mem_union_left _ hmem
        · apply wsum_gdWeight_congr
          intro i hi hix
          constructor
          · rintro hmem
            rcases Finset.mem_union.mp hmem with hh | hh
            · exact absurd ((Finset.erase_subset x _) (hS1' hh))
                (Finset.disjoint_right.mp hdisj hi)
            · exact hh
          · intro hmem
            exact Finset.mem_union_right _ hmem
      rw [Finset.sum_congr rfl (fun S1 hS1 =>
        Finset.sum_congr rfl (hinner S1 hS1))]
      rw [← Finset.sum_mul_sum]
      rw [hp ℓ1, hs ℓ2]
      rfl
    · rw [if_neg hcase, if_neg hcase]
  rw [hsem, convAnd_getD]
  by_cases hle : ℓc ≤ (((varOf pr).erase x ∪ (varOf sb).erase x)).card
  · rw [if_pos hle]
    apply Finset.sum_congr rfl
    intro ℓ1 _
    have hstep : ∀ ℓ2 ∈ Finset.range (((varOf sb).erase x).card + 1),
        (if ℓ1 + ℓ2 = ℓc then lp.getD ℓ1 0 * ls.getD ℓ2 0 else 0)
          = if ℓ2 = ℓc - ℓ1 then
              (if ℓ1 ≤ ℓc then lp.getD ℓ1 0 * ls.getD (ℓc - ℓ1) 0 else 0)
            else 0 := by
      intro ℓ2 _
      by_cases hc1 : ℓ1 + ℓ2 = ℓc
      · rw [if_pos hc1, if_pos (by omega), if_pos (by omega)]
        have : ℓ2 = ℓc - ℓ1 := by omega
        rw [this]
      · rw [if_neg hc1]
        by_cases hc2 : ℓ2 = ℓc - ℓ1
        · rw [if_pos hc2]
          by_cases hc3 : ℓ1 ≤ ℓc
          · exact absurd (by omega) hc1
          · rw [if_neg hc3]
        · rw [if_neg hc2]
    rw [Finset.sum_congr rfl hstep, sum_range_ite_single]
    by_cases hc3 : ℓ1 ≤ ℓc
    · by_cases hc4 : ℓc - ℓ1 ≤ ((varOf sb).erase x).card
      · rw [if_pos (⟨hc3, hc4⟩ : ℓ1 ≤ ℓc ∧ ℓc - ℓ1 ≤ ((varOf sb).erase x).card)]
        rw [if_pos (by omega : ℓc - ℓ1 < ((varOf sb).erase x).card + 1), if_pos hc3]
      · rw [if_neg (by
          rintro ⟨_, hcc⟩
          exact hc4 hcc)]
        rw [if_neg (by omega : ¬(ℓc - ℓ1 < ((varOf sb).erase x).card + 1))]
    · rw [if_neg (by
        rintro ⟨hcc, _⟩
        exact hc3 hcc)]
      rw [if_pos (by omega : ℓc - ℓ1 < ((varOf sb).erase x).card + 1), if_neg hc3]
  · rw [if_neg hle]
    have hcard : (((varOf pr).erase x ∪ (varOf sb).erase x)).card
        = ((varOf pr).erase x).card + ((varOf sb).erase x).card :=
      Finset.card_union_of_disjoint hWdisj
    symm
    apply Finset.sum_eq_zero
    intro ℓ1 h1
    apply Finset.sum_eq_zero
    intro ℓ2 h2
    rw [if_neg]
    have := Finset.mem_range.mp h1
    have := Finset.mem_range.mp h2
    omega

theorem wsum_lit (y : Nat) (f : (Nat → Bool) → Bool) (w : Nat → Bool → ℚ) :
    wsum f w {y} =
      (if f (fun i => decide (i ∈ (∅ : Finset Nat))) then w y false else 0) +
      (if f (fun i => decide (i ∈ ({y} : Finset Nat))) then w y true else 0) := by
  unfold wsum
  rw [powerset_singleton']
  rw [Finset.sum_insert (by
    rw [Finset.mem_singleton]
    exact fun h => (Finset.singleton_ne_empty y) h.symm)]
  rw [Finset.sum_singleton]
  congr 1
  · by_cases hf : f (fun i => decide (i ∈ (∅ : Finset Nat))) = true
    · rw [if_pos hf, if_pos hf, Finset.prod_singleton]
      simp
    · rw [if_neg hf, if_neg hf]
  · by_cases hf : f (fun i => decide (i ∈ ({y} : Finset Nat))) = true
    · rw [if_pos hf, if_pos hf, Finset.prod_singleton]
      simp
    · rw [if_neg hf, if_neg hf]

theorem elem_superset (p e : Nat → ℚ) (x : Nat) (b : Bool) (pr sb : SddNode)
    (V : Finset Nat) (hsub : varOf pr ∪ varOf sb ⊆ V) (S : Finset Nat) :
    wsum (fun σ => evalSdd σ pr && evalSdd σ sb) (gdWeight p e x b S) V
      = elemVal p e x b pr sb S := by
  unfold elemVal
  apply wsum_superset _ _ V _ hsub
  · exact dependsOn_and
      (dependsOn_mono Finset.subset_union_left (evalSdd_dependsOn pr))
      (dependsOn_mono Finset.subset_union_right (evalSdd_dependsOn sb))
  · intro i _ _
    exact gdWeight_sum_one p e x b S i

/-- The worth of a decision node splits as the sum of its elements' worths
(determinism). -/
theorem condVal_decision_sum (p e : Nat → ℚ) (x : Nat) (b : Bool) (i : Nat)
    (es : List (SddNode × SddNode)) (S : Finset Nat)
    (hdet1 : ∀ σ : Nat → Bool, ∀ a c : Fin es.length, a ≠ c →
      ¬((evalSdd σ (es.get a).1 && evalSdd σ (es.get a).2) = true ∧
        (evalSdd σ (es.get c).1 && evalSdd σ (es.get c).2) = true)) :
    condVal p e x b (SddNode.decision i es) S
      = (es.map (fun c0 =>
          wsum (fun σ => evalSdd σ c0.1 && evalSdd σ c0.2)
            (gdWeight p e x b S) (varOfElems es))).sum := by
  unfold condVal wsum
  have hev : ∀ T ∈ (varOf (SddNode.decision i es)).powerset,
      (if evalSdd (fun i2 => decide (i2 ∈ T)) (SddNode.decision i es) then
        ∏ j in varOf (SddNode.decision i es),
          gdWeight p e x b S j (decide (j ∈ T)) else 0)
      = (es.map (fun c0 =>
          if (evalSdd (fun i2 => decide (i2 ∈ T)) c0.1 &&
              evalSdd (fun i2 => decide (i2 ∈ T)) c0.2) = true then
            ∏ j in varOf (SddNode.decision i es),
              gdWeight p e x b S j (decide (j ∈ T)) else 0)).sum := by
    intro T _
    exact ite_evalElems_eq_sum (fun i2 => decide (i2 ∈ T)) es _
      (hdet1 (fun i2 => decide (i2 ∈ T)))
  rw [Finset.sum_congr rfl hev]
  rw [finset_sum_list_sum]
  rfl

/-- The OR-phase lift of one element: the binomially smoothed array entries
sum to the element's contribution over the full parent scope. -/
theorem elem_lift_eq (p e : Nat → ℚ) (x : Nat) (b : Bool) (pr sb : SddNode)
    (A : Finset Nat) (hWA : (varOf pr ∪ varOf sb).erase x ⊆ A)
    (γl : List ℚ) (hγ : ∀ ℓc, γl.getD ℓc 0 = elemCardSem p e x b pr sb ℓc)
    (ℓp : Nat) :
    (∑ ℓc in Finset.range (((varOf pr ∪ varOf sb).erase x).card + 1),
      if ℓc ≤ ℓp ∧ ℓp - ℓc ≤ A.card - ((varOf pr ∪ varOf sb).erase x).card then
        γl.getD ℓc 0 *
          ((A.card - ((varOf pr ∪ varOf sb).erase x).card).choose (ℓp - ℓc) : ℚ)
      else 0)
    = ∑ S in A.powersetCard ℓp, elemVal p e x b pr sb S := by
  have hinter : ∀ S ∈ A.powersetCard ℓp,
      elemVal p e x b pr sb S
        = elemVal p e x b pr sb (S ∩ ((varOf pr ∪ varOf sb).erase x)) := by
    intro S _
    unfold elemVal
    apply wsum_gdWeight_congr
    intro j hj hjx
    constructor
    · intro hmem
      exact Finset.mem_inter.mpr ⟨hmem, Finset.mem_erase.mpr ⟨hjx, hj⟩⟩
    · intro hmem
      exact (Finset.mem_inter.mp hmem).1
  rw [Finset.sum_congr rfl hinter]
  rw [sum_powersetCard_restrict A ((varOf pr ∪ varOf sb).erase x) hWA
    (fun Sc => elemVal p e x b pr sb Sc) ℓp]
  apply Finset.sum_congr rfl
  intro ℓc _
  rw [← Finset.mul_sum]
  rw [show (∑ Sc in ((varOf pr ∪ varOf sb).erase x).powersetCard ℓc,
      elemVal p e x b pr sb Sc) = elemCardSem p e x b pr sb ℓc from rfl]
  rw [← hγ ℓc]
  by_cases h1 : ℓc ≤ ℓp
  · by_cases h2 : ℓp - ℓc ≤ A.card - ((varOf pr ∪ varOf sb).erase x).card
    · rw [if_pos (⟨h1, h2⟩ : ℓc ≤ ℓp ∧ _), if_pos h1]
      ring
    · rw [if_neg (by
        rintro ⟨_, hc⟩
        exact h2 hc), if_pos h1]
      rw [Nat.choose_eq_zero_of_lt (by omega)]
      simp
  · rw [if_neg (by
      rintro ⟨hc, _⟩
      exact h1 hc), if_neg h1]
    simp

theorem liftSum_align (p e : Nat → ℚ) (x : Nat) (b : Bool) (A : Finset Nat) (ℓp : Nat) :
    ∀ (es : List (SddNode × SddNode)) (pcs : List (List ℚ × List ℚ × Nat)),
      perChildSemOk p e x es pcs →
      (∀ pr sb, (pr, sb) ∈ es → (varOf pr ∪ varOf sb).erase x ⊆ A) →
      ((pcs.map (fun c => ((if b then c.1 else c.2.1), c.2.2))).map
        (fun c => ∑ ℓc in Finset.range (c.2 + 1),
          if ℓc ≤ ℓp ∧ ℓp - ℓc ≤ A.card - c.2 then
            c.1.getD ℓc 0 * ((A.card - c.2).choose (ℓp - ℓc) : ℚ) else 0)).sum
      = (es.map (fun c0 =>
          ∑ S in A.powersetCard ℓp, elemVal p e x b c0.1 c0.2 S)).sum := by
  intro es
  induction es with
  | nil =>
      intro pcs hok _
      cases pcs with
      | nil => rfl
      | cons c crest => exact absurd hok (by simp [perChildSemOk])
  | cons hd rest ih =>
      intro pcs hok hsub
      obtain ⟨pr, sb⟩ := hd
      cases pcs with
      | nil => exact absurd hok (by simp [perChildSemOk])
      | cons c crest =>
          obtain ⟨hclen, hγ, hδ, hrest⟩ := hok
          simp only [List.map_cons, List.sum_cons]
          rw [ih crest hrest (fun pr' sb' hm => hsub pr' sb' (List.mem_cons_of_mem _ hm))]
          congr 1
          rw [hclen]
          cases b with
          | true =>
              exact elem_lift_eq p e x true pr sb A
                (hsub pr sb (List.mem_cons_self _ _)) c.1 hγ ℓp
          | false =>
              exact elem_lift_eq p e x false pr sb A
                (hsub pr sb (List.mem_cons_self _ _)) c.2.1 hδ ℓp

theorem decomposable_decision {i : Nat} {es : List (SddNode × SddNode)}
    (h : Decomposable (SddNode.decision i es)) :
    (∀ pr sb, (pr, sb) ∈ es → Disjoint (varOf pr) (varOf sb)) ∧
    (∀ pr sb, (pr, sb) ∈ es → Decomposable pr ∧ Decomposable sb) := by
  unfold Decomposable at h
  exact h

theorem deterministic_decision {i : Nat} {es : List (SddNode × SddNode)}
    (h : Deterministic (SddNode.decision i es)) :
    (∀ σ : Nat → Bool, ∀ a c : Fin es.length, a ≠ c →
      ¬((evalSdd σ (es.get a).1 && evalSdd σ (es.get a).2) = true ∧
        (evalSdd σ (es.get c).1 && evalSdd σ (es.get c).2) = true)) ∧
    (∀ pr sb, (pr, sb) ∈ es → Deterministic pr ∧ Deterministic sb) := by
  unfold Deterministic at h
  exact h

theorem condVal_const (p e : Nat → ℚ) (x : Nat) (b : Bool) (i : Nat) (bc : Bool)
    (S : Finset Nat) :
    condVal p e x b (SddNode.const i bc) S = if bc then 1 else 0 := by
  unfold condVal wsum
  rw [show varOf (SddNode.const i bc) = ∅ from rfl]
  rw [Finset.powerset_empty, Finset.sum_singleton]
  cases bc with
  | true => simp [evalSdd]
  | false => simp [evalSdd]

theorem gammaDelta_sem_const (p e : Nat → ℚ) (x : Nat) (i : Nat) (bc : Bool) (ℓ : Nat) :
    (gammaDelta p e x (SddNode.const i bc)).1.getD ℓ 0
        = cardSem p e x true (SddNode.const i bc) ℓ ∧
    (gammaDelta p e x (SddNode.const i bc)).2.getD ℓ 0
        = cardSem p e x false (SddNode.const i bc) ℓ := by
  have hW : (varOf (SddNode.const i bc)).erase x = ∅ := rfl
  have hval : ∀ b : Bool, ∀ ℓ2 : Nat, cardSem p e x b (SddNode.const i bc) ℓ2
      = if ℓ2 = 0 then (if bc then 1 else 0) else 0 := by
    intro b ℓ2
    unfold cardSem
    rw [hW]
    cases ℓ2 with
    | zero =>
        rw [Finset.powersetCard_zero, Finset.sum_singleton, condVal_const]
        rfl
    | succ n =>
        rw [Finset.powersetCard_eq_empty.mpr (by simp), Finset.sum_empty]
        rfl
  have hgd : gammaDelta p e x (SddNode.const i bc)
      = ([if bc then 1 else 0], [if bc then 1 else 0]) := rfl
  rw [hgd, hval, hval]
  cases ℓ with
  | zero => exact ⟨rfl, rfl⟩
  | succ n =>
      constructor
      · rw [if_neg (Nat.succ_ne_zero n)]
        simp
      · rw [if_neg (Nat.succ_ne_zero n)]
        simp

theorem gammaDelta_sem_lit (p e : Nat → ℚ) (x : Nat) (i : Nat) (l : Int) (ℓ : Nat) :
    (gammaDelta p e x (SddNode.lit i l)).1.getD ℓ 0
        = cardSem p e x true (SddNode.lit i l) ℓ ∧
    (gammaDelta p e x (SddNode.lit i l)).2.getD ℓ 0
        = cardSem p e x false (SddNode.lit i l) ℓ := by
  have hvar : varOf (SddNode.lit i l) = {l.natAbs} := rfl
  have hcond : ∀ b : Bool, ∀ S : Finset Nat,
      condVal p e x b (SddNode.lit i l) S =
        (if l < 0 then gdWeight p e x b S l.natAbs false
         else gdWeight p e x b S l.natAbs true) := by
    intro b S
    unfold condVal
    rw [hvar, wsum_lit]
    by_cases hneg : l < 0
    · have h1 : evalSdd (fun j => decide (j ∈ (∅ : Finset Nat))) (SddNode.lit i l) = true := by
        simp [evalSdd, hneg]
      have h2 : evalSdd (fun j => decide (j ∈ ({l.natAbs} : Finset Nat)))
          (SddNode.lit i l) = false := by
        simp [evalSdd, hneg]
      rw [h1, h2]
      simp [hneg]
    · have h1 : evalSdd (fun j => decide (j ∈ (∅ : Finset Nat))) (SddNode.lit i l) = false := by
        simp [evalSdd, hneg]
      have h2 : evalSdd (fun j => decide (j ∈ ({l.natAbs} : Finset Nat)))
          (SddNode.lit i l) = true := by
        simp [evalSdd, hneg]
      rw [h1, h2]
      simp [hneg]
  by_cases hxy : l.natAbs = x
  · -- the literal mentions the target feature
    have hW : (varOf (SddNode.lit i l)).erase x = ∅ := by
      rw [hvar, hxy, Finset.erase_singleton]
    have hsem : ∀ b : Bool, ∀ ℓ2, cardSem p e x b (SddNode.lit i l) ℓ2
        = if ℓ2 = 0 then
            (if l < 0 then (if b then 0 else 1) else (if b then 1 else 0))
          else 0 := by
      intro b ℓ2
      unfold cardSem
      rw [hW]
      cases ℓ2 with
      | zero =>
          rw [Finset.powersetCard_zero, Finset.sum_singleton, hcond]
          rw [if_pos rfl]
          unfold gdWeight
          rw [if_pos hxy, if_pos hxy]
          cases b with
          | true => by_cases hneg : l < 0 <;> simp [hneg]
          | false => by_cases hneg : l < 0 <;> simp [hneg]
      | succ n =>
          rw [Finset.powersetCard_eq_empty.mpr (by simp), Finset.sum_empty]
          rfl
    rw [hsem, hsem]
    by_cases hneg : l < 0
    · have hgd : gammaDelta p e x (SddNode.lit i l) = ([0], [1]) := by
        simp [gammaDelta, hxy, hneg]
      rw [hgd]
      cases ℓ with
      | zero => constructor <;> simp [hneg]
      | succ n => constructor <;> simp [hneg]
    · have hgd : gammaDelta p e x (SddNode.lit i l) = ([1], [0]) := by
        simp [gammaDelta, hxy, hneg]
      rw [hgd]
      cases ℓ with
      | zero => constructor <;> simp [hneg]
      | succ n => constructor <;> simp [hneg]
  · -- an ordinary variable
    have hW : (varOf (SddNode.lit i l)).erase x = {l.natAbs} := by
      rw [hvar]
      apply Finset.erase_eq_of_not_mem
      rw [Finset.mem_singleton]
      exact fun h => hxy h.symm
    have hsem : ∀ b : Bool, ∀ ℓ2, cardSem p e x b (SddNode.lit i l) ℓ2
        = if ℓ2 = 0 then (if l < 0 then 1 - p l.natAbs else p l.natAbs)
          else if ℓ2 = 1 then (if l < 0 then 1 - e l.natAbs else e l.natAbs)
          else 0 := by
      intro b ℓ2
      unfold cardSem
      rw [hW]
      match ℓ2 with
      | 0 =>
          rw [Finset.powersetCard_zero, Finset.sum_singleton, hcond]
          unfold gdWeight
          rw [if_neg hxy, if_neg hxy]
          rw [if_neg (Finset.not_mem_empty l.natAbs), if_neg (Finset.not_mem_empty l.natAbs)]
          by_cases hneg : l < 0 <;> simp [hneg]
      | 1 =>
          have hpc : ({l.natAbs} : Finset Nat).powersetCard 1 = {{l.natAbs}} := by
            have h := Finset.powersetCard_self ({l.natAbs} : Finset Nat)
            rw [Finset.card_singleton] at h
            exact h
          rw [hpc, Finset.sum_singleton, hcond]
          unfold gdWeight
          rw [if_neg hxy, if_neg hxy]
          rw [if_pos (Finset.mem_singleton_self l.natAbs),
            if_pos (Finset.mem_singleton_self l.natAbs)]
          by_cases hneg : l < 0 <;> simp [hneg]
      | (n + 2) =>
          rw [Finset.powersetCard_eq_empty.mpr (by simp), Finset.sum_empty]
          rfl
    rw [hsem, hsem]
    by_cases hneg : l < 0
    · have hgd : gammaDelta p e x (SddNode.lit i l)
          = ([1 - p l.natAbs, 1 - e l.natAbs], [1 - p l.natAbs, 1 - e l.natAbs]) := by
        simp [gammaDelta, hxy, hneg]
      rw [hgd]
      match ℓ with
      | 0 => constructor <;> simp [hneg]
      | 1 => constructor <;> simp [hneg]
      | (n + 2) => constructor <;> simp [hneg]
    · have hgd : gammaDelta p e x (SddNode.lit i l)
          = ([p l.natAbs, e l.natAbs], [p l.natAbs, e l.natAbs]) := by
        simp [gammaDelta, hxy, hneg]
      rw [hgd]
      match ℓ with
      | 0 => constructor <;> simp [hneg]
      | 1 => constructor <;> simp [hneg]
      | (n + 2) => constructor <;> simp [hneg]

mutual

theorem gammaDelta_sem (p e : Nat → ℚ) (x : Nat) (g : SddNode)
    (hdec : Decomposable g) (hdet : Deterministic g) (ℓ : Nat) :
    (gammaDelta p e x g).1.getD ℓ 0 = cardSem p e x true g ℓ ∧
    (gammaDelta p e x g).2.getD ℓ 0 = cardSem p e x false g ℓ := by
  cases g with
  | const i bc => exact gammaDelta_sem_const p e x i bc ℓ
  | lit i l => exact gammaDelta_sem_lit p e x i l ℓ
  | decision i es =>
      obtain ⟨hdc1, hdc2⟩ := decomposable_decision hdec
      obtain ⟨hdt1, hdt2⟩ := deterministic_decision hdet
      have hok : perChildSemOk p e x es (perChild p e x es) :=
        perChild_sem p e x es hdc1 hdc2 hdt2
      have hsub : ∀ pr sb, (pr, sb) ∈ es →
          (varOf pr ∪ varOf sb).erase x ⊆ (varOfElems es).erase x := by
        intro pr sb hm
        exact Finset.erase_subset_erase x (varOf_subset_elems hm)
      have hsem : ∀ b : Bool, ∀ ℓ2 : Nat,
          cardSem p e x b (SddNode.decision i es) ℓ2
          = (es.map (fun c0 => ∑ S in ((varOfElems es).erase x).powersetCard ℓ2,
              elemVal p e x b c0.1 c0.2 S)).sum := by
        intro b ℓ2
        unfold cardSem
        rw [show varOf (SddNode.decision i es) = varOfElems es from rfl]
        have h1 : ∀ S ∈ ((varOfElems es).erase x).powersetCard ℓ2,
            condVal p e x b (SddNode.decision i es) S
            = (es.map (fun c0 => elemVal p e x b c0.1 c0.2 S)).sum := by
          intro S _
          rw [condVal_decision_sum p e x b i es S hdt1]
          congr 1
          apply List.map_congr_left
          intro c0 hm
          obtain ⟨pr, sb⟩ := c0
          exact elem_superset p e x b pr sb (varOfElems es) (varOf_subset_elems hm) S
        rw [Finset.sum_congr rfl h1]
        exact finset_sum_list_sum _ es (fun S c0 => elemVal p e x b c0.1 c0.2 S)
      constructor
      · rw [show (gammaDelta p e x (SddNode.decision i es)).1
            = liftOr ((varOfElems es).erase x).card
                ((perChild p e x es).map fun c => (c.1, c.2.2)) from rfl]
        rw [liftOr_getD]
        by_cases hl : ℓ ≤ ((varOfElems es).erase x).card
        · rw [if_pos hl, hsem true ℓ]
          have halign := liftSum_align p e x true ((varOfElems es).erase x) ℓ es
            (perChild p e x es) hok hsub
          rw [show (fun c : List ℚ × List ℚ × Nat =>
              ((if (true : Bool) then c.1 else c.2.1), c.2.2))
              = (fun c : List ℚ × List ℚ × Nat => (c.1, c.2.2)) from rfl] at halign
          exact halign
        · rw [if_neg hl]
          refine (cardSem_zero_of_large p e x true _ ℓ ?_).symm
          rw [show varOf (SddNode.decision i es) = varOfElems es from rfl]
          omega
      · rw [show (gammaDelta p e x (SddNode.decision i es)).2
            = liftOr ((varOfElems es).erase x).card
                ((perChild p e x es).map fun c => (c.2.1, c.2.2)) from rfl]
        rw [liftOr_getD]
        by_cases hl : ℓ ≤ ((varOfElems es).erase x).card
        · rw [if_pos hl, hsem false ℓ]
          have halign := liftSum_align p e x false ((varOfElems es).erase x) ℓ es
            (perChild p e x es) hok hsub
          rw [show (fun c : List ℚ × List ℚ × Nat =>
              ((if (false : Bool) then c.1 else c.2.1), c.2.2))
              = (fun c : List ℚ × List ℚ × Nat => (c.2.1, c.2.2)) from rfl] at halign
          exact halign
        · rw [if_neg hl]
          refine (cardSem_zero_of_large p e x false _ ℓ ?_).symm
          rw [show varOf (SddNode.decision i es) = varOfElems es from rfl]
          omega
termination_by structural g

theorem perChild_sem (p e : Nat → ℚ) (x : Nat) (es : List (SddNode × SddNode))
    (hdc1 : ∀ pr sb, (pr, sb) ∈ es → Disjoint (varOf pr) (varOf sb))
    (hdc2 : ∀ pr sb, (pr, sb) ∈ es → Decomposable pr ∧ Decomposable sb)
    (hdt2 : ∀ pr sb, (pr, sb) ∈ es → Deterministic pr ∧ Deterministic sb) :
    perChildSemOk p e x es (perChild p e x es) := by
  cases es with
  | nil => exact trivial
  | cons hd rest =>
      obtain ⟨pr, sb⟩ := hd
      have hmem : (pr, sb) ∈ (pr, sb) :: rest := List.mem_cons_self (pr, sb) rest
      refine ⟨by rw [Finset.erase_union_distrib], ?_, ?_, ?_⟩
      · intro ℓc
        exact elemCardSem_conv p e x true pr sb (hdc1 pr sb hmem) _ _
          (fun ℓ2 => (gammaDelta_sem p e x pr (hdc2 pr sb hmem).1
            (hdt2 pr sb hmem).1 ℓ2).1)
          (fun ℓ2 => (gammaDelta_sem p e x sb (hdc2 pr sb hmem).2
            (hdt2 pr sb hmem).2 ℓ2).1) ℓc
      · intro ℓc
        exact elemCardSem_conv p e x false pr sb (hdc1 pr sb hmem) _ _
          (fun ℓ2 => (gammaDelta_sem p e x pr (hdc2 pr sb hmem).1
            (hdt2 pr sb hmem).1 ℓ2).2)
          (fun ℓ2 => (gammaDelta_sem p e x sb (hdc2 pr sb hmem).2
            (hdt2 pr sb hmem).2 ℓ2).2) ℓc
      · exact perChild_sem p e x rest
          (fun a b h => hdc1 a b (List.mem_cons_of_mem _ h))
          (fun a b h => hdc2 a b (List.mem_cons_of_mem _ h))
          (fun a b h => hdt2 a b (List.mem_cons_of_mem _ h))
termination_by structural es

end

theorem clampWeight_sum_one (p e : Nat → ℚ) (S : Finset Nat) (i : Nat) :
    clampWeight p e S i true + clampWeight p e S i false = 1 := by
  unfold clampWeight
  by_cases hS : i ∈ S
  · by_cases h1 : e i = 1 <;> simp [hS, h1]
  · simp [hS]

theorem wsum_weight_congr (f : (Nat → Bool) → Bool) (w w' : Nat → Bool → ℚ)
    (V : Finset Nat) (h : ∀ i ∈ V, ∀ t, w i t = w' i t) :
    wsum f w V = wsum f w' V := by
  unfold wsum
  apply Finset.sum_congr rfl
  intro T _
  congr 1
  exact Finset.prod_congr rfl (fun i hi => h i hi _)

/-- The WMC over the manager's full variable set reduces to the circuit's
scope: the extra literal weights are normalized. -/
theorem v_wmc_scope (sdd : SddNode) (p e : Nat → ℚ) (V S : Finset Nat)
    (hR : varOf sdd ⊆ V) :
    v_conditional_wmc sdd p e V S
      = wsum (fun σ => evalSdd σ sdd) (clampWeight p e S) (varOf sdd) := by
  rw [v_conditional_wmc_eq_wsum]
  exact wsum_superset _ _ V (varOf sdd) hR (evalSdd_dependsOn sdd)
    (fun i _ _ => clampWeight_sum_one p e S i)

/-- Away from the target feature, the WMC clamp weights agree with the DP
conditional weights, provided the entity bits are Boolean. -/
theorem clampWeight_eq_gdWeight (p e : Nat → ℚ) (x : Nat) (b : Bool)
    (S : Finset Nat) (hxS : x ∉ S) (he : ∀ i ∈ S, e i = 0 ∨ e i = 1)
    (i : Nat) (hix : i ≠ x) :
    ∀ t, clampWeight p e (insert x S) i t = gdWeight p e x b S i t ∧
      clampWeight p e S i t = gdWeight p e x b S i t := by
  intro t
  unfold clampWeight gdWeight
  rw [if_neg hix]
  by_cases hS : i ∈ S
  · have hins : i ∈ insert x S := Finset.mem_insert_of_mem hS
    rw [if_pos hins, if_pos hS, if_pos hS]
    rcases he i hS with h0 | h1
    · have hne : ¬ e i = 1 := by rw [h0]; norm_num
      rw [if_neg hne, h0]
      cases t <;> norm_num
    · rw [if_pos h1, h1]
      cases t <;> norm_num
  · have hins : i ∉ insert x S := by
      rw [Finset.mem_insert]
      rintro (h | h)
      · exact hix h
      · exact hS h
    rw [if_neg hins, if_neg hS, if_neg hS]
    exact ⟨rfl, rfl⟩

/-- For a feature in the circuit's scope, the marginal contribution of
clamping it is `(e x - p x)` times the γ−δ gap of the conditional values. -/
theorem v_diff_active (sdd : SddNode) (p e : Nat → ℚ) (V S : Finset Nat)
    (x : Nat) (hx : x ∈ varOf sdd) (hR : varOf sdd ⊆ V) (hxS : x ∉ S)
    (he : ∀ i ∈ S, e i = 0 ∨ e i = 1) (hex : e x = 0 ∨ e x = 1) :
    v_conditional_wmc sdd p e V (insert x S) - v_conditional_wmc sdd p e V S
      = (e x - p x) *
        (condVal p e x true sdd S - condVal p e x false sdd S) := by
  rw [v_wmc_scope sdd p e V (insert x S) hR, v_wmc_scope sdd p e V S hR]
  have hagree1 : ∀ i ∈ varOf sdd, i ≠ x →
      gdWeight p e x true S i = clampWeight p e (insert x S) i := by
    intro i _ hix
    funext t
    exact ((clampWeight_eq_gdWeight p e x true S hxS he i hix) t).1.symm
  have hagree2 : ∀ i ∈ varOf sdd, i ≠ x →
      gdWeight p e x false S i = clampWeight p e (insert x S) i := by
    intro i _ hix
    funext t
    exact ((clampWeight_eq_gdWeight p e x false S hxS he i hix) t).1.symm
  have hagree1' : ∀ i ∈ varOf sdd, i ≠ x →
      gdWeight p e x true S i = clampWeight p e S i := by
    intro i _ hix
    funext t
    exact ((clampWeight_eq_gdWeight p e x true S hxS he i hix) t).2.symm
  have hagree2' : ∀ i ∈ varOf sdd, i ≠ x →
      gdWeight p e x false S i = clampWeight p e S i := by
    intro i _ hix
    funext t
    exact ((clampWeight_eq_gdWeight p e x false S hxS he i hix) t).2.symm
  have hsplit1 : ∀ t : Bool, clampWeight p e (insert x S) x t
      = e x * gdWeight p e x true S x t + (1 - e x) * gdWeight p e x false S x t := by
    intro t
    unfold clampWeight gdWeight
    rw [if_pos (Finset.mem_insert_self x S), if_pos rfl, if_pos rfl]
    rcases hex with h0 | h1
    · have hne : ¬ e x = 1 := by rw [h0]; norm_num
      rw [if_neg hne, h0]
      cases t <;> norm_num
    · rw [if_pos h1, h1]
      cases t <;> norm_num
  have hsplit2 : ∀ t : Bool, clampWeight p e S x t
      = p x * gdWeight p e x true S x t + (1 - p x) * gdWeight p e x false S x t := by
    intro t
    unfold clampWeight gdWeight
    rw [if_neg hxS, if_pos rfl, if_pos rfl]
    cases t <;> norm_num
  rw [wsum_linear_at (fun σ => evalSdd σ sdd) (clampWeight p e (insert x S))
    (gdWeight p e x true S) (gdWeight p e x false S) (varOf sdd) x hx
    (e x) (1 - e x) hsplit1 hagree1 hagree2]
  rw [wsum_linear_at (fun σ => evalSdd σ sdd) (clampWeight p e S)
    (gdWeight p e x true S) (gdWeight p e x false S) (varOf sdd) x hx
    (p x) (1 - p x) hsplit2 hagree1' hagree2']
  show e x * condVal p e x true sdd S + (1 - e x) * condVal p e x false sdd S
      - (p x * condVal p e x true sdd S + (1 - p x) * condVal p e x false sdd S)
    = (e x - p x) * (condVal p e x true sdd S - condVal p e x false sdd S)
  ring

/-- Clamping a feature outside the circuit's scope does not change the WMC. -/
theorem v_insert_dummy (sdd : SddNode) (p e : Nat → ℚ) (V S : Finset Nat)
    (x : Nat) (hx : x ∉ varOf sdd) (hR : varOf sdd ⊆ V) :
    v_conditional_wmc sdd p e V (insert x S) = v_conditional_wmc sdd p e V S := by
  rw [v_wmc_scope sdd p e V (insert x S) hR, v_wmc_scope sdd p e V S hR]
  apply wsum_weight_congr
  intro i hi t
  have hix : i ≠ x := fun h => hx (h ▸ hi)
  unfold clampWeight
  have hmem : i ∈ insert x S ↔ i ∈ S := by
    rw [Finset.mem_insert]
    exact ⟨fun h => h.elim (fun h2 => absurd h2 hix) id, Or.inr⟩
  by_cases hS : i ∈ S
  · rw [if_pos (hmem.mpr hS), if_pos hS]
  · rw [if_neg (fun h => hS (hmem.mp h)), if_neg hS]

theorem shapWeight_eq (n k : Nat) (hn : 1 ≤ n) (hk : k ≤ n - 1) :
    shapWeight n k = 1 / ((n : ℚ) * ((n-1).choose k : ℚ)) := by
  unfold shapWeight
  by_cases h1 : n = 1
  · subst h1
    have hk0 : k = 0 := by omega
    subst hk0
    norm_num
  · rw [if_neg h1]

theorem shapWeight_succ (n k : Nat) (hk : k ≤ n) :
    shapWeight (n+1) k = 1 / (((n : ℚ) + 1) * (n.choose k : ℚ)) := by
  by_cases hn : n = 0
  · subst hn
    have hk0 : k = 0 := by omega
    subst hk0
    simp [shapWeight]
  · unfold shapWeight
    rw [if_neg (by omega), Nat.add_sub_cancel]
    push_cast
    rfl

theorem shapWeight_pascal (n k : Nat) (hn : 1 ≤ n) (hk : k ≤ n - 1) :
    shapWeight (n+1) k + shapWeight (n+1) (k+1) = shapWeight n k := by
  have hk' : k < n := by omega
  rw [shapWeight_succ n k (by omega), shapWeight_succ n (k+1) (by omega),
    shapWeight_eq n k hn hk]
  have ha : 0 < n.choose k := Nat.choose_pos (by omega)
  have hb : 0 < n.choose (k+1) := Nat.choose_pos (by omega)
  have hc : 0 < (n-1).choose k := Nat.choose_pos (by omega)
  have h1 : (n.choose (k+1)) * (k+1) = n.choose k * (n - k) := Nat.choose_succ_right_eq n k
  have h2 : n * ((n-1).choose k) = n.choose (k+1) * (k+1) := by
    have h3 := Nat.succ_mul_choose_eq (n-1) k
    rw [Nat.succ_eq_add_one, Nat.sub_add_cancel hn] at h3
    exact h3
  have h1q : (n.choose (k+1) : ℚ) * ((k : ℚ) + 1) = (n.choose k : ℚ) * ((n : ℚ) - k) := by
    have hcast := congrArg (fun z : ℕ => (z : ℚ)) h1
    push_cast [Nat.cast_sub (le_of_lt hk')] at hcast
    exact hcast
  have h2q : (n : ℚ) * ((n-1).choose k : ℚ) = (n.choose (k+1) : ℚ) * ((k : ℚ) + 1) := by
    have hcast := congrArg (fun z : ℕ => (z : ℚ)) h2
    push_cast at hcast
    exact hcast
  rw [h2q]
  have haq : (n.choose k : ℚ) ≠ 0 := Nat.cast_ne_zero.mpr (by omega)
  have hbq : (n.choose (k+1) : ℚ) ≠ 0 := Nat.cast_ne_zero.mpr (by omega)
  have hnq : ((n : ℚ) + 1) ≠ 0 := by positivity
  have hkq : ((k : ℚ) + 1) ≠ 0 := by positivity
  have key : ((k : ℚ) + 1) * ((n.choose k : ℚ) + (n.choose (k+1) : ℚ))
      = ((n : ℚ) + 1) * (n.choose k : ℚ) := by linear_combination h1q
  rw [div_add_div _ _ (mul_ne_zero hnq haq) (mul_ne_zero hnq hbq)]
  rw [div_eq_div_iff
    (mul_ne_zero (mul_ne_zero hnq haq) (mul_ne_zero hnq hbq))
    (mul_ne_zero hbq hkq)]
  linear_combination (((n : ℚ) + 1) * (n.choose (k+1) : ℚ)) * key

theorem shapWeight_lift (nb : Nat) (hnb : 1 ≤ nb) (j : Nat) (hj : j ≤ nb - 1) :
    ∀ m : Nat, ∑ d in Finset.range (m+1), (m.choose d : ℚ) * shapWeight (nb+m) (j+d)
      = shapWeight nb j := by
  intro m
  induction m with
  | zero => simp
  | succ m ih =>
      show (∑ d in Finset.range (m+1+1),
          ((m+1).choose d : ℚ) * shapWeight (nb+m+1) (j+d)) = shapWeight nb j
      have hsplit : ∀ d : Nat, (((m+1).choose d : ℚ))
          = (m.choose d : ℚ) + (if 1 ≤ d then ((m.choose (d-1)) : ℚ) else 0) := by
        intro d
        cases d with
        | zero => simp
        | succ c =>
            rw [if_pos (by omega)]
            rw [show c + 1 - 1 = c from rfl]
            push_cast [Nat.choose_succ_succ]
            ring
      have step1 : (∑ d in Finset.range (m+1+1),
            ((m+1).choose d : ℚ) * shapWeight (nb+m+1) (j+d))
          = (∑ d in Finset.range (m+1+1), (m.choose d : ℚ) * shapWeight (nb+m+1) (j+d))
            + (∑ d in Finset.range (m+1+1),
                (if 1 ≤ d then (m.choose (d-1) : ℚ) else 0) * shapWeight (nb+m+1) (j+d)) := by
        rw [← Finset.sum_add_distrib]
        apply Finset.sum_congr rfl
        intro d _
        rw [hsplit d]
        ring
      have step2 : (∑ d in Finset.range (m+1+1), (m.choose d : ℚ) * shapWeight (nb+m+1) (j+d))
          = ∑ d in Finset.range (m+1), (m.choose d : ℚ) * shapWeight (nb+m+1) (j+d) := by
        rw [Finset.sum_range_succ, Nat.choose_succ_self]
        simp
      have step3 : (∑ d in Finset.range (m+1+1),
            (if 1 ≤ d then (m.choose (d-1) : ℚ) else 0) * shapWeight (nb+m+1) (j+d))
          = ∑ d in Finset.range (m+1), (m.choose d : ℚ) * shapWeight (nb+m+1) (j+d+1) := by
        rw [Finset.sum_range_succ']
        have h0 : (if 1 ≤ (0 : Nat) then ((m.choose (0-1)) : ℚ) else 0)
            * shapWeight (nb+m+1) (j+0) = 0 := by norm_num
        rw [h0, add_zero]
        apply Finset.sum_congr rfl
        intro i _
        rw [if_pos (by omega), show i + 1 - 1 = i from rfl]
        rfl
      rw [step1, step2, step3, ← Finset.sum_add_distrib]
      have step4 : ∀ d ∈ Finset.range (m+1),
          (m.choose d : ℚ) * shapWeight (nb+m+1) (j+d)
            + (m.choose d : ℚ) * shapWeight (nb+m+1) (j+d+1)
          = (m.choose d : ℚ) * shapWeight (nb+m) (j+d) := by
        intro d hd
        have hdm : d < m + 1 := Finset.mem_range.mp hd
        have hpascal := shapWeight_pascal (nb+m) (j+d) (by omega) (by omega)
        rw [← hpascal]
        ring
      rw [Finset.sum_congr rfl step4]
      exact ih

theorem coeff_reindex (n m ℓc : Nat) (hmn : ℓc + m + 1 ≤ n) :
    ∑ k in Finset.range n, shapWeight n k * (if ℓc ≤ k then (m.choose (k-ℓc) : ℚ) else 0)
      = ∑ d in Finset.range (m+1), (m.choose d : ℚ) * shapWeight n (ℓc+d) := by
  have h1 : (∑ k in Finset.range (ℓc+(m+1)),
        shapWeight n k * (if ℓc ≤ k then (m.choose (k-ℓc) : ℚ) else 0))
      = ∑ k in Finset.range n,
        shapWeight n k * (if ℓc ≤ k then (m.choose (k-ℓc) : ℚ) else 0) := by
    apply Finset.sum_subset
    · intro k hk
      rw [Finset.mem_range] at hk ⊢
      omega
    · intro k hk hnk
      rw [Finset.mem_range] at hk hnk
      rw [if_pos (by omega), Nat.choose_eq_zero_of_lt (by omega)]
      simp
  rw [← h1, Finset.sum_range_add]
  have hzero : (∑ k in Finset.range ℓc,
      shapWeight n k * (if ℓc ≤ k then (m.choose (k-ℓc) : ℚ) else 0)) = 0 := by
    apply Finset.sum_eq_zero
    intro k hk
    rw [Finset.mem_range] at hk
    rw [if_neg (by omega)]
    ring
  rw [hzero, zero_add]
  apply Finset.sum_congr rfl
  intro i _
  rw [if_pos (by omega), show ℓc + i - ℓc = i from by omega]
  ring

/-- The γ−δ gap of the conditional values at a fixed entity-set. -/
def gapVal (p e : Nat → ℚ) (x : Nat) (sdd : SddNode) (T : Finset Nat) : ℚ :=
  condVal p e x true sdd T - condVal p e x false sdd T

theorem filter_toFinset_erase (varIds : List Nat) (x : Nat) :
    (varIds.filter (· ≠ x)).toFinset = varIds.toFinset.erase x := by
  ext i
  rw [List.mem_toFinset, List.mem_filter, Finset.mem_erase, List.mem_toFinset]
  constructor
  · rintro ⟨h1, h2⟩
    exact ⟨by simpa using h2, h1⟩
  · rintro ⟨h1, h2⟩
    exact ⟨h2, by simpa using h1⟩

/-- The root's DP reduction, re-expressed through the semantic aggregates. -/
theorem shapForVar_sem (sdd : SddNode) (p e : Nat → ℚ) (x : Nat)
    (hdec : Decomposable sdd) (hdet : Deterministic sdd) (hxR : x ∈ varOf sdd) :
    shapForVar sdd p e x
      = ∑ ℓc in Finset.range (((varOf sdd).erase x).card + 1),
          (e x - p x) * shapWeight (varOf sdd).card ℓc *
            (∑ Sc in ((varOf sdd).erase x).powersetCard ℓc, gapVal p e x sdd Sc) := by
  have hWcard : ((varOf sdd).erase x).card = (varOf sdd).card - 1 :=
    Finset.card_erase_of_mem hxR
  have hnR1 : 1 ≤ (varOf sdd).card := Finset.card_pos.mpr ⟨x, hxR⟩
  show (∑ k in Finset.range ((varOf sdd).card),
      shapWeight ((varOf sdd).card) k *
        ((e x - p x) *
          ((gammaDelta p e x sdd).1.getD k 0 - (gammaDelta p e x sdd).2.getD k 0)))
    = _
  rw [show Finset.range ((varOf sdd).card)
      = Finset.range (((varOf sdd).erase x).card + 1) from by congr 1; omega]
  apply Finset.sum_congr rfl
  intro k _
  rw [(gammaDelta_sem p e x sdd hdec hdet k).1, (gammaDelta_sem p e x sdd hdec hdet k).2]
  unfold cardSem
  rw [← Finset.sum_sub_distrib]
  have hgap : ∀ Sc ∈ ((varOf sdd).erase x).powersetCard k,
      condVal p e x true sdd Sc - condVal p e x false sdd Sc
        = gapVal p e x sdd Sc := fun Sc _ => rfl
  rw [Finset.sum_congr rfl hgap]
  ring

/-- The brute-force subset-enumeration body equals the DP's per-feature value:
the characteristic-function game has `var(root)` as its support, so the
subset sum collapses onto the circuit scope with binomial multiplicities that
contract the Shapley weights from `n` players to `|var(root)|`. -/
theorem brute_val_eq_dp (sdd : SddNode) (p e : Nat → ℚ) (varIds : List Nat)
    (hdec : Decomposable sdd) (hdet : Deterministic sdd)
    (hnd : varIds.Nodup) (hvo : varOf sdd ⊆ varIds.toFinset)
    (he : ∀ i ∈ varIds.toFinset, e i = 0 ∨ e i = 1)
    (x : Nat) (hx : x ∈ varIds) :
    (∑ k in Finset.range varIds.length,
      ∑ S in ((varIds.filter (· ≠ x)).toFinset.powersetCard k),
        shapWeight varIds.length k *
          (v_conditional_wmc sdd p e varIds.toFinset (insert x S)
            - v_conditional_wmc sdd p e varIds.toFinset S))
    = (if x ∈ varOf sdd then shapForVar sdd p e x else 0) := by
  by_cases hxR : x ∈ varOf sdd
  · rw [if_pos hxR]
    have hA : (varIds.filter (· ≠ x)).toFinset = varIds.toFinset.erase x :=
      filter_toFinset_erase varIds x
    have hxV : x ∈ varIds.toFinset := List.mem_toFinset.mpr hx
    have hVcard : varIds.toFinset.card = varIds.length := List.toFinset_card_of_nodup hnd
    have hAcard : (varIds.filter (· ≠ x)).toFinset.card = varIds.length - 1 := by
      rw [hA, Finset.card_erase_of_mem hxV, hVcard]
    have hxA : x ∉ (varIds.filter (· ≠ x)).toFinset := by
      rw [hA]
      exact Finset.not_mem_erase x _
    have hWA : (varOf sdd).erase x ⊆ (varIds.filter (· ≠ x)).toFinset := by
      rw [hA]
      exact Finset.erase_subset_erase x hvo
    have hWcard : ((varOf sdd).erase x).card = (varOf sdd).card - 1 :=
      Finset.card_erase_of_mem hxR
    have hnR1 : 1 ≤ (varOf sdd).card := Finset.card_pos.mpr ⟨x, hxR⟩
    have hnRn : (varOf sdd).card ≤ varIds.length := by
      rw [← hVcard]
      exact Finset.card_le_card hvo
    have hn1 : 1 ≤ varIds.length := by
      have := List.length_pos.mpr (List.ne_nil_of_mem hx)
      omega
    have hstep1 : ∀ k : Nat, ∀ S ∈ ((varIds.filter (· ≠ x)).toFinset.powersetCard k),
        shapWeight varIds.length k *
          (v_conditional_wmc sdd p e varIds.toFinset (insert x S)
            - v_conditional_wmc sdd p e varIds.toFinset S)
        = shapWeight varIds.length k *
            ((e x - p x) * gapVal p e x sdd (S ∩ (varOf sdd).erase x)) := by
      intro k S hS
      have hSA : S ⊆ (varIds.filter (· ≠ x)).toFinset := (Finset.mem_powersetCard.mp hS).1
      have hxS : x ∉ S := fun h => hxA (hSA h)
      have heS : ∀ i ∈ S, e i = 0 ∨ e i = 1 := by
        intro i hi
        apply he
        have h2 := hSA hi
        rw [hA] at h2
        exact Finset.mem_of_mem_erase h2
      rw [v_diff_active sdd p e varIds.toFinset S x hxR hvo hxS heS (he x hxV)]
      have hc : ∀ b : Bool, condVal p e x b sdd S
          = condVal p e x b sdd (S ∩ (varOf sdd).erase x) := by
        intro b
        apply condVal_congr
        intro i hiR hix
        rw [Finset.mem_inter, Finset.mem_erase]
        constructor
        · intro h
          exact ⟨h, hix, hiR⟩
        · intro h
          exact h.1
      rw [show condVal p e x true sdd S - condVal p e x false sdd S
          = gapVal p e x sdd (S ∩ (varOf sdd).erase x) from by
        unfold gapVal
        rw [hc true, hc false]]
    rw [Finset.sum_congr rfl (fun k _ => Finset.sum_congr rfl (hstep1 k))]
    have hstep2 : ∀ k ∈ Finset.range varIds.length,
        (∑ S in ((varIds.filter (· ≠ x)).toFinset.powersetCard k),
          shapWeight varIds.length k *
            ((e x - p x) * gapVal p e x sdd (S ∩ (varOf sdd).erase x)))
        = shapWeight varIds.length k * (e x - p x) *
            ∑ S in ((varIds.filter (· ≠ x)).toFinset.powersetCard k),
              gapVal p e x sdd (S ∩ (varOf sdd).erase x) := by
      intro k _
      rw [Finset.mul_sum]
      apply Finset.sum_congr rfl
      intro S _
      ring
    rw [Finset.sum_congr rfl hstep2]
    have hstep3 : ∀ k ∈ Finset.range varIds.length,
        shapWeight varIds.length k * (e x - p x) *
          (∑ S in ((varIds.filter (· ≠ x)).toFinset.powersetCard k),
            gapVal p e x sdd (S ∩ (varOf sdd).erase x))
        = ∑ ℓc in Finset.range (((varOf sdd).erase x).card + 1),
            (e x - p x) *
              (shapWeight varIds.length k *
                (if ℓc ≤ k then
                  (((varIds.filter (· ≠ x)).toFinset.card
                      - ((varOf sdd).erase x).card).choose (k - ℓc) : ℚ)
                 else 0)) *
              (∑ Sc in ((varOf sdd).erase x).powersetCard ℓc, gapVal p e x sdd Sc) := by
      intro k _
      rw [sum_powersetCard_restrict _ _ hWA (gapVal p e x sdd) k]
      rw [Finset.mul_sum]
      apply Finset.sum_congr rfl
      intro ℓc _
      rw [show (∑ Sc in ((varOf sdd).erase x).powersetCard ℓc,
          (if ℓc ≤ k then
            (((varIds.filter (· ≠ x)).toFinset.card
                - ((varOf sdd).erase x).card).choose (k - ℓc) : ℚ)
           else 0) * gapVal p e x sdd Sc)
        = (if ℓc ≤ k then
            (((varIds.filter (· ≠ x)).toFinset.card
                - ((varOf sdd).erase x).card).choose (k - ℓc) : ℚ)
           else 0) *
          ∑ Sc in ((varOf sdd).erase x).powersetCard ℓc, gapVal p e x sdd Sc from
        (Finset.mul_sum _ _ _).symm]
      ring
    rw [Finset.sum_congr rfl hstep3, Finset.sum_comm]
    have hcoeff : ∀ ℓc ∈ Finset.range (((varOf sdd).erase x).card + 1),
        (∑ k in Finset.range varIds.length,
          shapWeight varIds.length k *
            (if ℓc ≤ k then
              (((varIds.filter (· ≠ x)).toFinset.card
                  - ((varOf sdd).erase x).card).choose (k - ℓc) : ℚ)
             else 0))
        = shapWeight (varOf sdd).card ℓc := by
      intro ℓc hℓc
      rw [Finset.mem_range] at hℓc
      have hℓ : ℓc ≤ (varOf sdd).card - 1 := by omega
      rw [show (varIds.filter (· ≠ x)).toFinset.card - ((varOf sdd).erase x).card
          = varIds.length - (varOf sdd).card from by omega]
      rw [coeff_reindex varIds.length (varIds.length - (varOf sdd).card) ℓc (by omega)]
      have hlift := shapWeight_lift (varOf sdd).card hnR1 ℓc hℓ
        (varIds.length - (varOf sdd).card)
      rw [show (varOf sdd).card + (varIds.length - (varOf sdd).card)
          = varIds.length from by omega] at hlift
      exact hlift
    have hinner : ∀ ℓc ∈ Finset.range (((varOf sdd).erase x).card + 1),
        (∑ k in Finset.range varIds.length,
          (e x - p x) *
            (shapWeight varIds.length k *
              (if ℓc ≤ k then
                (((varIds.filter (· ≠ x)).toFinset.card
                    - ((varOf sdd).erase x).card).choose (k - ℓc) : ℚ)
               else 0)) *
            (∑ Sc in ((varOf sdd).erase x).powersetCard ℓc, gapVal p e x sdd Sc))
        = (e x - p x) * shapWeight (varOf sdd).card ℓc *
            (∑ Sc in ((varOf sdd).erase x).powersetCard ℓc, gapVal p e x sdd Sc) := by
      intro ℓc hℓc
      trans ((∑ k in Finset.range varIds.length,
          shapWeight varIds.length k *
            (if ℓc ≤ k then
              (((varIds.filter (· ≠ x)).toFinset.card
                  - ((varOf sdd).erase x).card).choose (k - ℓc) : ℚ)
             else 0)) *
        ((e x - p x) * ∑ Sc in ((varOf sdd).erase x).powersetCard ℓc, gapVal p e x sdd Sc))
      · rw [Finset.sum_mul]
        apply Finset.sum_congr rfl
        intro k _
        ring
      · rw [hcoeff ℓc hℓc]
        ring
    rw [Finset.sum_congr rfl hinner]
    rw [shapForVar_sem sdd p e x hdec hdet hxR]
  · rw [if_neg hxR]
    apply Finset.sum_eq_zero
    intro k _
    apply Finset.sum_eq_zero
    intro S _
    rw [v_insert_dummy sdd p e _ S x hxR hvo]
    ring

theorem sum_erase_powerset (X : Finset Nat) (G : Finset Nat → ℚ) :
    (∑ x in X, ∑ S in (X.erase x).powerset, G S)
      = ∑ T in X.powerset, ((X.card - T.card : ℕ) : ℚ) * G T := by
  have h1 : ∀ x ∈ X, (∑ S in (X.erase x).powerset, G S)
      = ∑ S in X.powerset, if x ∉ S then G S else 0 := by
    intro x _
    have hps : (X.erase x).powerset = X.powerset.filter (fun S => x ∉ S) := by
      ext S
      rw [Finset.mem_filter, Finset.mem_powerset, Finset.mem_powerset, Finset.subset_erase]
    rw [hps, Finset.sum_filter]
  rw [Finset.sum_congr rfl h1, Finset.sum_comm]
  apply Finset.sum_congr rfl
  intro T hT
  have hTX : T ⊆ X := Finset.mem_powerset.mp hT
  rw [← Finset.sum_filter, Finset.sum_const]
  have hcard : (X.filter (fun x => x ∉ T)).card = X.card - T.card := by
    have hsd : X.filter (fun x => x ∉ T) = X \ T := by
      ext a
      rw [Finset.mem_filter, Finset.mem_sdiff]
    rw [hsd, Finset.card_sdiff hTX]
  rw [hcard, nsmul_eq_mul]

theorem k_sum_collapse (Y : Finset Nat) (n : Nat) (hn : Y.card + 1 = n)
    (G : Finset Nat → ℚ) :
    (∑ k in Finset.range n, ∑ S in Y.powersetCard k, shapWeight n k * G S)
      = ∑ S in Y.powerset, shapWeight n S.card * G S := by
  rw [Finset.sum_powerset, hn]
  apply Finset.sum_congr rfl
  intro k _
  apply Finset.sum_congr rfl
  intro S hS
  rw [(Finset.mem_powersetCard.mp hS).2]

theorem coeff_mid_zero (n t : Nat) (h1 : 1 ≤ t) (h2 : t ≤ n - 1) (hn : 1 ≤ n) :
    (t : ℚ) * shapWeight n (t-1) = ((n - t : ℕ) : ℚ) * shapWeight n t := by
  rw [shapWeight_eq n (t-1) hn (by omega), shapWeight_eq n t hn h2]
  have hid : (n-1).choose t * t = (n-1).choose (t-1) * (n - t) := by
    have h := Nat.choose_succ_right_eq (n-1) (t-1)
    rw [show t - 1 + 1 = t from by omega] at h
    rw [show n - 1 - (t - 1) = n - t from by omega] at h
    exact h
  have ha : 0 < (n-1).choose (t-1) := Nat.choose_pos (by omega)
  have hb : 0 < (n-1).choose t := Nat.choose_pos (by omega)
  have haq : ((n-1).choose (t-1) : ℚ) ≠ 0 := Nat.cast_ne_zero.mpr (by omega)
  have hbq : ((n-1).choose t : ℚ) ≠ 0 := Nat.cast_ne_zero.mpr (by omega)
  have hnq : (n : ℚ) ≠ 0 := Nat.cast_ne_zero.mpr (by omega)
  have hidq : ((n-1).choose t : ℚ) * (t : ℚ)
      = ((n-1).choose (t-1) : ℚ) * ((n - t : ℕ) : ℚ) := by
    exact_mod_cast congrArg (fun z : ℕ => (z : ℚ)) hid
  field_simp
  linear_combination (n : ℚ) * hidq

/-- Efficiency of the subset-enumeration Shapley formula for an arbitrary
game `v`: the scores telescope to `v(X) - v(∅)`. -/
theorem subset_enum_efficiency (v : Finset Nat → ℚ) (X : Finset Nat) :
    (∑ x in X, ∑ k in Finset.range X.card,
      ∑ S in (X.erase x).powersetCard k,
        shapWeight X.card k * (v (insert x S) - v S))
    = v X - v ∅ := by
  rcases Finset.eq_empty_or_nonempty X with rfl | hne
  · simp
  have hn1 : 1 ≤ X.card := Finset.card_pos.mpr hne
  have hstepx : ∀ x ∈ X,
      (∑ k in Finset.range X.card, ∑ S in (X.erase x).powersetCard k,
        shapWeight X.card k * (v (insert x S) - v S))
      = ∑ S in (X.erase x).powerset,
          shapWeight X.card S.card * (v (insert x S) - v S) := by
    intro x hx
    exact k_sum_collapse (X.erase x) X.card
      (by rw [Finset.card_erase_of_mem hx]; omega) _
  rw [Finset.sum_congr rfl hstepx]
  have hsplit : ∀ x ∈ X,
      (∑ S in (X.erase x).powerset, shapWeight X.card S.card * (v (insert x S) - v S))
      = (∑ S in (X.erase x).powerset, shapWeight X.card S.card * v (insert x S))
        - (∑ S in (X.erase x).powerset, shapWeight X.card S.card * v S) := by
    intro x _
    rw [← Finset.sum_sub_distrib]
    apply Finset.sum_congr rfl
    intro S _
    ring
  rw [Finset.sum_congr rfl hsplit, Finset.sum_sub_distrib]
  have hA : ∀ x ∈ X,
      (∑ S in (X.erase x).powerset, shapWeight X.card S.card * v (insert x S))
      = (∑ T in X.powerset, shapWeight X.card (T.card - 1) * v T)
        - (∑ S in (X.erase x).powerset, shapWeight X.card (S.card - 1) * v S) := by
    intro x hx
    have hxe : x ∉ X.erase x := Finset.not_mem_erase x X
    have hins : insert x (X.erase x) = X := Finset.insert_erase hx
    have hip := Finset.sum_powerset_insert hxe
      (fun T => shapWeight X.card (T.card - 1) * v T)
    rw [hins] at hip
    have hfix : ∀ S ∈ (X.erase x).powerset,
        shapWeight X.card ((insert x S).card - 1) * v (insert x S)
        = shapWeight X.card S.card * v (insert x S) := by
      intro S hS
      have hxS : x ∉ S := (Finset.subset_erase.mp (Finset.mem_powerset.mp hS)).2
      rw [Finset.card_insert_of_not_mem hxS, Nat.add_sub_cancel]
    rw [Finset.sum_congr rfl hfix] at hip
    linarith [hip]
  rw [Finset.sum_congr rfl hA, Finset.sum_sub_distrib, Finset.sum_const]
  rw [sum_erase_powerset X (fun S => shapWeight X.card (S.card - 1) * v S)]
  rw [sum_erase_powerset X (fun S => shapWeight X.card S.card * v S)]
  rw [nsmul_eq_mul, Finset.mul_sum]
  rw [← Finset.sum_sub_distrib, ← Finset.sum_sub_distrib]
  have hcoef : ∀ T ∈ X.powerset,
      (((X.card : ℚ)) * (shapWeight X.card (T.card - 1) * v T)
        - ((X.card - T.card : ℕ) : ℚ) * (shapWeight X.card (T.card - 1) * v T))
        - ((X.card - T.card : ℕ) : ℚ) * (shapWeight X.card T.card * v T)
      = (if T = X then v T else 0) - (if T = ∅ then v T else 0) := by
    intro T hT
    have hTX : T ⊆ X := Finset.mem_powerset.mp hT
    have hTn : T.card ≤ X.card := Finset.card_le_card hTX
    by_cases hTe : T = ∅
    · subst hTe
      rw [if_neg (by
        intro h
        rw [← h] at hn1
        simp at hn1), if_pos rfl]
      rw [Finset.card_empty]
      rw [show (0:Nat) - 1 = 0 from rfl, Nat.sub_zero]
      have hw0 : (X.card : ℚ) * shapWeight X.card 0 = 1 := by
        rw [shapWeight_eq X.card 0 hn1 (by omega), Nat.choose_zero_right]
        have hne0 : (X.card : ℚ) ≠ 0 := Nat.cast_ne_zero.mpr (by omega)
        field_simp
      have hval : (X.card : ℚ) * (shapWeight X.card 0 * v ∅) = v ∅ := by
        rw [← mul_assoc, hw0, one_mul]
      linarith [hval]
    · by_cases hTX2 : T = X
      · subst hTX2
        rw [if_pos rfl, if_neg hTe]
        rw [Nat.sub_self]
        have hwn : (T.card : ℚ) * shapWeight T.card (T.card - 1) = 1 := by
          rw [shapWeight_eq T.card (T.card - 1) hn1 (le_refl _), Nat.choose_self]
          have hne0 : (T.card : ℚ) ≠ 0 := Nat.cast_ne_zero.mpr (by omega)
          field_simp
        have hval : (T.card : ℚ) * (shapWeight T.card (T.card - 1) * v T) = v T := by
          rw [← mul_assoc, hwn, one_mul]
        rw [Nat.cast_zero]
        linarith [hval]
      · rw [if_neg hTX2, if_neg hTe]
        have ht1 : 1 ≤ T.card := by
          rcases Finset.eq_empty_or_nonempty T with h | h
          · exact absurd h hTe
          · exact Finset.card_pos.mpr h
        have ht2 : T.card ≤ X.card - 1 := by
          have hne2 : T.card ≠ X.card := fun h =>
            hTX2 (Finset.eq_of_subset_of_card_le hTX (le_of_eq h.symm))
          omega
        have hmid := coeff_mid_zero X.card T.card ht1 ht2 hn1
        rw [Nat.cast_sub hTn] at hmid ⊢
        linear_combination (v T) * hmid
  rw [Finset.sum_congr rfl hcoef, Finset.sum_sub_distrib]
  rw [Finset.sum_ite_eq' X.powerset X v, Finset.sum_ite_eq' X.powerset ∅ v]
  rw [if_pos (Finset.mem_powerset_self X), if_pos (Finset.empty_mem_powerset X)]

theorem decomposable_lit (i : Nat) (l : Int) : Decomposable (SddNode.lit i l) := by
  unfold Decomposable
  trivial

theorem deterministic_lit (i : Nat) (l : Int) : Deterministic (SddNode.lit i l) := by
  unfold Deterministic
  trivial

theorem xnor_decomposable : Decomposable xnorCircuit := by
  show Decomposable (SddNode.decision 5
    [(SddNode.lit 1 1, SddNode.lit 2 2), (SddNode.lit 3 (-1), SddNode.lit 4 (-2))])
  unfold Decomposable
  constructor
  · intro pr sb hm
    rcases List.mem_cons.mp hm with heq | hm2
    · injection heq with h1 h2
      subst h1
      subst h2
      rw [show varOf (SddNode.lit 1 1) = {1} from rfl,
        show varOf (SddNode.lit 2 2) = {2} from rfl]
      rw [Finset.disjoint_singleton]
      decide
    · rcases List.mem_cons.mp hm2 with heq | hm3
      · injection heq with h1 h2
        subst h1
        subst h2
        rw [show varOf (SddNode.lit 3 (-1)) = {1} from rfl,
          show varOf (SddNode.lit 4 (-2)) = {2} from rfl]
        rw [Finset.disjoint_singleton]
        decide
      · cases hm3
  · intro pr sb hm
    rcases List.mem_cons.mp hm with heq | hm2
    · injection heq with h1 h2
      subst h1
      subst h2
      exact ⟨decomposable_lit 1 1, decomposable_lit 2 2⟩
    · rcases List.mem_cons.mp hm2 with heq | hm3
      · injection heq with h1 h2
        subst h1
        subst h2
        exact ⟨decomposable_lit 3 (-1), decomposable_lit 4 (-2)⟩
      · cases hm3

theorem xnor_deterministic : Deterministic xnorCircuit := by
  show Deterministic (SddNode.decision 5
    [(SddNode.lit 1 1, SddNode.lit 2 2), (SddNode.lit 3 (-1), SddNode.lit 4 (-2))])
  unfold Deterministic
  constructor
  · intro σ i j hij
    fin_cases i <;> fin_cases j
    · exact absurd rfl hij
    · rintro ⟨h1, h2⟩
      have h1' : (σ 1 && σ 2) = true := h1
      have h2' : ((!(σ 1)) && (!(σ 2))) = true := h2
      cases hs : σ 1
      · rw [hs] at h1'
        exact absurd h1' (by simp)
      · rw [hs] at h2'
        exact absurd h2' (by simp)
    · rintro ⟨h1, h2⟩
      have h1' : ((!(σ 1)) && (!(σ 2))) = true := h1
      have h2' : (σ 1 && σ 2) = true := h2
      cases hs : σ 1
      · rw [hs] at h2'
        exact absurd h2' (by simp)
      · rw [hs] at h1'
        exact absurd h1' (by simp)
    · exact absurd rfl hij
  · intro pr sb hm
    rcases List.mem_cons.mp hm with heq | hm2
    · injection heq with h1 h2
      subst h1
      subst h2
      exact ⟨deterministic_lit 1 1, deterministic_lit 2 2⟩
    · rcases List.mem_cons.mp hm2 with heq | hm3
      · injection heq with h1 h2
        subst h1
        subst h2
        exact ⟨deterministic_lit 3 (-1), deterministic_lit 4 (-2)⟩
      · cases hm3

/-- C1: for every decomposable, deterministic circuit with at most 12
variables, marginals in `[0,1]` and Boolean entity values over the variable
ids, the DP engine `compute_shap_algorithm` and the brute-force oracle
`shap_exact_subset_enum` agree on every feature within the certification
tolerance `|a-b| ≤ 1e-9 + 1e-7·max(1,|b|)` (they are in fact exactly equal). -/
theorem C1_dp_matches_brute (sdd : SddNode) (p e : Nat → ℚ) (varIds : List Nat)
    (hdec : Decomposable sdd) (hdet : Deterministic sdd)
    (hnd : varIds.Nodup) (hvo : varOf sdd ⊆ varIds.toFinset)
    (hn12 : varIds.length ≤ 12)
    (hp : ∀ i ∈ varIds.toFinset, 0 ≤ p i ∧ p i ≤ 1)
    (he : ∀ i ∈ varIds.toFinset, e i = 0 ∨ e i = 1)
    (x : Nat) (hx : x ∈ varIds) :
    ∃ a b : ℚ,
      (compute_shap_algorithm sdd p e varIds).lookup x = some a ∧
      (shap_exact_subset_enum sdd p e varIds).lookup x = some b ∧
      |a - b| ≤ 1 / 1000000000 + (1 / 10000000) * max 1 |b| := by
  have h1 : (compute_shap_algorithm sdd p e varIds).lookup x
      = some (if x ∈ varOf sdd then shapForVar sdd p e x else 0) := by
    rw [compute_shap_algorithm_eq]
    exact lookup_map_self _ varIds x hx
  have h2 : (shap_exact_subset_enum sdd p e varIds).lookup x
      = some (∑ k in Finset.range varIds.length,
          ∑ S in ((varIds.filter (· ≠ x)).toFinset.powersetCard k),
            shapWeight varIds.length k *
              (v_conditional_wmc sdd p e varIds.toFinset (insert x S)
                - v_conditional_wmc sdd p e varIds.toFinset S)) :=
    lookup_map_self _ varIds x hx
  refine ⟨_, _, h1, h2, ?_⟩
  rw [brute_val_eq_dp sdd p e varIds hdec hdet hnd hvo he x hx]
  rw [sub_self, abs_zero]
  have hmax : (1:ℚ) ≤ max 1 |if x ∈ varOf sdd then shapForVar sdd p e x else 0| :=
    le_max_left _ _
  nlinarith [hmax]

/-- C3: for every accepted (decomposable, deterministic) circuit, marginals
`p` and Boolean entity `e` over the requested features, the sum of all
returned scores equals `v(full entity) - v(∅)` — the WMC with every variable
clamped to the entity minus the fully marginalized WMC. -/
theorem C3_efficiency (sdd : SddNode) (p e : Nat → ℚ) (varIds : List Nat)
    (hdec : Decomposable sdd) (hdet : Deterministic sdd)
    (hnd : varIds.Nodup) (hvo : varOf sdd ⊆ varIds.toFinset)
    (he : ∀ i ∈ varIds.toFinset, e i = 0 ∨ e i = 1) :
    ((compute_shap_algorithm sdd p e varIds).map Prod.snd).sum
      = v_conditional_wmc sdd p e varIds.toFinset varIds.toFinset
        - v_conditional_wmc sdd p e varIds.toFinset ∅ := by
  rw [compute_shap_algorithm_eq, List.map_map]
  have hmap : varIds.map
      (Prod.snd ∘ fun y => (y, if y ∈ varOf sdd then shapForVar sdd p e y else 0))
      = varIds.map (fun y => if y ∈ varOf sdd then shapForVar sdd p e y else 0) := rfl
  rw [hmap]
  have hswap : varIds.map (fun y => if y ∈ varOf sdd then shapForVar sdd p e y else 0)
      = varIds.map (fun y => ∑ k in Finset.range varIds.length,
          ∑ S in ((varIds.filter (· ≠ y)).toFinset.powersetCard k),
            shapWeight varIds.length k *
              (v_conditional_wmc sdd p e varIds.toFinset (insert y S)
                - v_conditional_wmc sdd p e varIds.toFinset S)) := by
    apply List.map_congr_left
    intro y hy
    exact (brute_val_eq_dp sdd p e varIds hdec hdet hnd hvo he y hy).symm
  rw [hswap, ← List.sum_toFinset _ hnd]
  have hVcard : varIds.toFinset.card = varIds.length := List.toFinset_card_of_nodup hnd
  have hcongr : ∀ y ∈ varIds.toFinset,
      (∑ k in Finset.range varIds.length,
        ∑ S in ((varIds.filter (· ≠ y)).toFinset.powersetCard k),
          shapWeight varIds.length k *
            (v_conditional_wmc sdd p e varIds.toFinset (insert y S)
              - v_conditional_wmc sdd p e varIds.toFinset S))
      = ∑ k in Finset.range varIds.toFinset.card,
          ∑ S in ((varIds.toFinset.erase y).powersetCard k),
            shapWeight varIds.toFinset.card k *
              (v_conditional_wmc sdd p e varIds.toFinset (insert y S)
                - v_conditional_wmc sdd p e varIds.toFinset S) := by
    intro y _
    rw [filter_toFinset_erase, ← hVcard]
  rw [Finset.sum_congr rfl hcongr]
  exact subset_enum_efficiency
    (fun S => v_conditional_wmc sdd p e varIds.toFinset S) varIds.toFinset

theorem C1_dp_matches_brute_witness :
    ∃ a b : ℚ,
      (compute_shap_algorithm xnorCircuit (fun _ => (1:ℚ)/2) (fun _ => (1:ℚ))
        [1, 2]).lookup 1 = some a ∧
      (shap_exact_subset_enum xnorCircuit (fun _ => (1:ℚ)/2) (fun _ => (1:ℚ))
        [1, 2]).lookup 1 = some b ∧
      |a - b| ≤ 1 / 1000000000 + (1 / 10000000) * max 1 |b| :=
  C1_dp_matches_brute xnorCircuit (fun _ => (1:ℚ)/2) (fun _ => (1:ℚ)) [1, 2]
    xnor_decomposable xnor_deterministic (by decide) (by decide) (by decide)
    (fun i _ => ⟨by norm_num, by norm_num⟩)
    (fun i _ => Or.inr rfl)
    1 (by decide)

theorem C3_efficiency_witness :
    ((compute_shap_algorithm xnorCircuit (fun _ => (1:ℚ)/2) (fun _ => (1:ℚ))
        [1, 2]).map Prod.snd).sum
      = v_conditional_wmc xnorCircuit (fun _ => (1:ℚ)/2) (fun _ => (1:ℚ))
          [1, 2].toFinset [1, 2].toFinset
        - v_conditional_wmc xnorCircuit (fun _ => (1:ℚ)/2) (fun _ => (1:ℚ))
          [1, 2].toFinset ∅ :=
  C3_efficiency xnorCircuit (fun _ => (1:ℚ)/2) (fun _ => (1:ℚ)) [1, 2]
    xnor_decomposable xnor_deterministic (by decide) (by decide)
    (fun i _ => Or.inr rfl)
